import Mathlib

/-!
# The client-side store of crm-pro (src/crm-system.jsx)

A shallow embedding of the state layer of the CRMApp component: the three
collections held in React state (leads, meetings, activities), the mutators
addActivity, addLead, updateLead, deleteLead, addNote, addReminder, addMeeting
and handleDragEnd, and the lead lookup used when meetings are rendered.

Conventions of the embedding.

* A JavaScript value is a term of `Val`. Numbers are integers (no claim needs
  fractions or NaN).
* An object is the sequence of its property definitions, in the order in which
  an object literal lists them; a later definition of a key overrides an
  earlier one. The literal `{ ...a, ...b, k: v }` is therefore the list
  `a ++ b ++ [(k, v)]`, and property access reads the last definition.
* Every mutator of the component is a function on `Store`. The state setters
  are called with updater functions, so the updates of one handler apply in
  order to the state the handler started from; the `leads` a handler reads
  from its closure is the collection of that starting state.
* `Date.now()` and `new Date().toISOString()` are inputs: each object that the
  code stamps takes a `Tick` holding the two readings.
* Spreading a value that is not iterable throws a TypeError; the two mutators
  that spread a stored field (addNote, addReminder) return `none` then.
* The derived views (counters, filtered leads, meeting lists, overdue list,
  kanban columns) take the date parsing `toTime`, the moment `now` of the
  render and the lowering of texts as inputs.
* localStorage is a map from keys to texts; `JSON.stringify`, `JSON.parse` and
  `toLocaleDateString` are inputs of the persistence and export functions. The
  two JSON builtins are modelled after ECMAScript in a section of their own.
* A name that the file reads without declaring it is looked up in a global
  scope, which is an input; reading a name that the scope does not bind throws
  a ReferenceError, and the render that reads it returns `none`.
-/

namespace CRM

/-! ## Values and objects -/

/-- A JavaScript value. -/
inductive Val where
  | undefined : Val
  | null : Val
  | bool (b : Bool) : Val
  | num (n : Int) : Val
  | str (s : String) : Val
  | arr (items : List Val) : Val
  | obj (props : List (String × Val)) : Val

/-- An object: its property definitions, the last definition of a key wins. -/
abbrev Obj := List (String × Val)

/-- Whether the object has an own property `k` (possibly with value undefined). -/
def hasProp : Obj → String → Bool
  | [], _ => false
  | (k', _) :: rest, k => hasProp rest k || k' == k

/-- Property access `o.k`: the value of the last definition of `k`, undefined
when the object has no such property. -/
def prop : Obj → String → Val
  | [], _ => .undefined
  | (k', v) :: rest, k =>
    if hasProp rest k then prop rest k else if k' == k then v else .undefined

/-- Optional chaining `o?.k` on the result of a lookup that may have found
nothing. -/
def optProp : Option Obj → String → Val
  | none, _ => .undefined
  | some o, k => prop o k

/-- Truthiness of a value (ToBoolean). -/
def truthy : Val → Bool
  | .undefined => false
  | .null => false
  | .bool b => b
  | .num n => n != 0
  | .str s => s != ""
  | .arr _ => true
  | .obj _ => true

/-- The operator `a || b`. -/
def orElse (a b : Val) : Val := if truthy a then a else b

/-- The operator `a === b`. Primitives compare by value. Arrays and objects
compare by reference in JavaScript; two values of this model stand for
separately built objects, which are never identical. -/
def strictEq : Val → Val → Bool
  | .undefined, .undefined => true
  | .null, .null => true
  | .bool a, .bool b => a == b
  | .num a, .num b => a == b
  | .str a, .str b => a == b
  | _, _ => false

mutual
/-- String conversion of a value, as performed by a template literal. -/
def toStr : Val → String
  | .undefined => "undefined"
  | .null => "null"
  | .bool true => "true"
  | .bool false => "false"
  | .num n => toString n
  | .str s => s
  | .arr xs => joinItems xs
  | .obj _ => "[object Object]"
/-- The text `Array.prototype.join` produces with the separator ",". -/
def joinItems : List Val → String
  | [] => ""
  | [x] => itemStr x
  | x :: y :: rest => itemStr x ++ "," ++ joinItems (y :: rest)
/-- The text of one array element inside a join: undefined and null give the
empty text. -/
def itemStr : Val → String
  | .undefined => ""
  | .null => ""
  | .bool true => "true"
  | .bool false => "false"
  | .num n => toString n
  | .str s => s
  | .arr xs => joinItems xs
  | .obj _ => "[object Object]"
end

/-- The elements an array spread `...v` contributes: the items of an array,
the characters of a string; any other value is not iterable (`none`, the
TypeError). -/
def spreadItems : Val → Option (List Val)
  | .arr xs => some xs
  | .str s => some (s.toList.map fun c => Val.str (String.singleton c))
  | _ => none

/-! ## Configuration and state -/

/-- One entry of the stage catalogue. -/
structure Stage where
  id : String
  label : String
  color : String

/-- The fixed pipeline stages. -/
def PIPELINE_STAGES : List Stage :=
  [ ⟨"new", "New Lead", "#3B82F6"⟩,
    ⟨"qualified", "Qualified", "#8B5CF6"⟩,
    ⟨"follow-up", "Follow-up", "#F59E0B"⟩,
    ⟨"proposal", "Proposal", "#10B981"⟩,
    ⟨"closed-won", "Closed Won", "#059669"⟩,
    ⟨"closed-lost", "Closed Lost", "#EF4444"⟩ ]

/-- One reading of the clock: `ms` is what `Date.now()` returns, `iso` what
`new Date().toISOString()` returns. -/
structure Tick where
  ms : Nat
  iso : String

/-- The three collections of the component state. -/
structure Store where
  leads : List Obj
  meetings : List Obj
  activities : List Obj

/-- The state of a fresh component: three empty collections. -/
def emptyStore : Store := ⟨[], [], []⟩

/-- A position reported by the drag-and-drop library. -/
structure Location where
  droppableId : String
  index : Nat

/-- The result handed to `onDragEnd`; `destination` is null when the card was
dropped outside every column. -/
structure DragResult where
  draggableId : String
  source : Location
  destination : Option Location

/-! ## The mutators -/

/-- The object `newActivity` built by `addActivity`; the parameter `leadId`
defaults to null when the argument is undefined. -/
def newActivity (t : Tick) (type message : String) (leadId : Val) : Obj :=
  [ ("id", .str (toString t.ms)),
    ("type", .str type),
    ("message", .str message),
    ("leadId", match leadId with
      | .undefined => .null
      | v => v),
    ("timestamp", .str t.iso) ]

/-- The updater of `addActivity`: `prev => [newActivity, ...prev.slice(0, 49)]`. -/
def addActivity (t : Tick) (type message : String) (leadId : Val)
    (prev : List Obj) : List Obj :=
  newActivity t type message leadId :: prev.take 49

/-- The object `newLead` built by `addLead`. -/
def newLead (t : Tick) (leadData : Obj) : Obj :=
  [("id", .str (toString t.ms))] ++ leadData ++
  [ ("stage", orElse (prop leadData "stage") (.str "new")),
    ("createdAt", .str t.iso),
    ("notes", .arr []),
    ("reminders", .arr []) ]

/-- The mutator `addLead(leadData)`. -/
def addLead (tl ta : Tick) (leadData : Obj) (s : Store) : Store :=
  { s with
    leads := newLead tl leadData :: s.leads
    activities :=
      addActivity ta "lead_created"
        ("New lead added: " ++ toStr (prop leadData "name")) .undefined s.activities }

/-- The mutator `updateLead(leadId, updates)`. -/
def updateLead (ta : Tick) (leadId : Val) (updates : Obj) (s : Store) : Store :=
  { s with
    leads := s.leads.map fun lead =>
      if strictEq (prop lead "id") leadId then lead ++ updates else lead
    activities :=
      addActivity ta "lead_updated"
        ("Lead updated: " ++ toStr (orElse (prop updates "name") (.str "Unknown")))
        leadId s.activities }

/-- The mutator `deleteLead(leadId)`. -/
def deleteLead (ta : Tick) (leadId : Val) (s : Store) : Store :=
  let lead := s.leads.find? fun l => strictEq (prop l "id") leadId
  { s with
    leads := s.leads.filter fun l => !strictEq (prop l "id") leadId
    activities :=
      addActivity ta "lead_deleted"
        ("Lead deleted: " ++ toStr (orElse (optProp lead "name") (.str "Unknown")))
        .undefined s.activities }

/-- A `prev.map(f)` whose callback may throw: the first throw aborts the map. -/
def mapLeads (f : Obj → Option Obj) : List Obj → Option (List Obj)
  | [] => some []
  | lead :: rest =>
    match f lead with
    | none => none
    | some lead' =>
      match mapLeads f rest with
      | none => none
      | some rest' => some (lead' :: rest')

/-- The object `note` built by `addNote`. -/
def newNote (t : Tick) (noteText : String) : Obj :=
  [ ("id", .str (toString t.ms)),
    ("text", .str noteText),
    ("timestamp", .str t.iso) ]

/-- The callback that `addNote` maps over the leads:
`lead.id === leadId ? { ...lead, notes: [note, ...(lead.notes || [])] } : lead`. -/
def withNote (note : Obj) (leadId : Val) (lead : Obj) : Option Obj :=
  if strictEq (prop lead "id") leadId then
    (spreadItems (orElse (prop lead "notes") (.arr []))).map fun old =>
      lead ++ [("notes", .arr (.obj note :: old))]
  else some lead

/-- The mutator `addNote(leadId, noteText)`. -/
def addNote (tn ta : Tick) (leadId : Val) (noteText : String) (s : Store) :
    Option Store :=
  (mapLeads (withNote (newNote tn noteText) leadId) s.leads).map fun leads =>
    { s with
      leads := leads
      activities :=
        addActivity ta "note_added" "Note added to lead" leadId s.activities }

/-- The object `reminder` built by `addReminder`. -/
def newReminder (t : Tick) (reminderData : Obj) : Obj :=
  [("id", .str (toString t.ms))] ++ reminderData ++ [("createdAt", .str t.iso)]

/-- The callback that `addReminder` maps over the leads:
`lead.id === leadId ? { ...lead, reminders: [...(lead.reminders || []), reminder] } : lead`. -/
def withReminder (reminder : Obj) (leadId : Val) (lead : Obj) : Option Obj :=
  if strictEq (prop lead "id") leadId then
    (spreadItems (orElse (prop lead "reminders") (.arr []))).map fun old =>
      lead ++ [("reminders", .arr (old ++ [.obj reminder]))]
  else some lead

/-- The mutator `addReminder(leadId, reminderData)`. -/
def addReminder (tr ta : Tick) (leadId : Val) (reminderData : Obj) (s : Store) :
    Option Store :=
  (mapLeads (withReminder (newReminder tr reminderData) leadId) s.leads).map fun leads =>
    { s with
      leads := leads
      activities :=
        addActivity ta "reminder_set" "Follow-up reminder set" leadId s.activities }

/-- The mutator `addMeeting(meetingData)`. -/
def addMeeting (tm ta : Tick) (meetingData : Obj) (s : Store) : Store :=
  let newMeeting : Obj :=
    [("id", .str (toString tm.ms))] ++ meetingData ++
    [("createdAt", .str tm.iso)]
  { s with
    meetings := newMeeting :: s.meetings
    activities :=
      addActivity ta "meeting_scheduled"
        ("Meeting scheduled: " ++ toStr (prop meetingData "title"))
        (prop meetingData "leadId") s.activities }

/-- The text of `PIPELINE_STAGES.find(s => s.id === id)?.label` inside a
template literal. -/
def stageLabelText (id : String) : String :=
  match PIPELINE_STAGES.find? fun st => st.id == id with
  | some st => st.label
  | none => "undefined"

/-- The handler `handleDragEnd(result)`. The tick `tu` stamps the activity
recorded by the inner `updateLead`, `ta` the one recorded by the handler. -/
def handleDragEnd (tu ta : Tick) (result : DragResult) (s : Store) : Store :=
  match result.destination with
  | none => s
  | some destination =>
    if result.source.droppableId != destination.droppableId then
      let lead := s.leads.find? fun l =>
        strictEq (prop l "id") (.str result.draggableId)
      let s1 := updateLead tu (.str result.draggableId)
        [("stage", .str destination.droppableId)] s
      { s1 with
        activities :=
          addActivity ta "stage_changed"
            (toStr (optProp lead "name") ++ " moved to " ++
              stageLabelText destination.droppableId)
            (.str result.draggableId) s1.activities }
    else s

/-- The lookup `leads.find(l => l.id === meeting.leadId)` made for each
meeting that is rendered. -/
def findLead (leads : List Obj) (meeting : Obj) : Option Obj :=
  leads.find? fun l => strictEq (prop l "id") (prop meeting "leadId")

/-! ## Derived views and modal handlers

The views are recomputed at every render. `toTime v` stands for the time value
of `new Date(v)` (`none` for an invalid date) and `lower` for
`String.prototype.toLowerCase`; both are inputs of the definitions that use
them. The calls of `new Date()` made while one view is computed are taken to
read the same moment `now`. A view whose computation throws is `none`. -/

/-- A `filter` whose callback may throw: the first throw aborts the filter. -/
def filterOpt {α : Type} (p : α → Option Bool) : List α → Option (List α)
  | [] => some []
  | x :: rest =>
    match p x with
    | none => none
    | some b =>
      match filterOpt p rest with
      | none => none
      | some rest' => some (if b then x :: rest' else rest')

/-- Property access `v.k` on an arbitrary value, for the keys the code reads
from a reminder (date, completed): undefined and null throw (`none`), an
object gives its property, and no other value has such a property. -/
def field : Val → String → Option Val
  | .undefined, _ => none
  | .null, _ => none
  | .obj o, k => some (prop o k)
  | _, _ => some .undefined

/-- The elements of a value on which `filter` is called: only an array has the
method, on any other value the call throws (`none`). -/
def arrayItems : Val → Option (List Val)
  | .arr xs => some xs
  | _ => none

/-- The comparison `new Date(v) < new Date()`; an invalid date compares false. -/
def dateBefore (toTime : Val → Option Int) (now : Int) (v : Val) : Bool :=
  match toTime v with
  | some t => decide (t < now)
  | none => false

/-- The callback `r => new Date(r.date) < new Date() && !r.completed`. -/
def isOverdue (toTime : Val → Option Int) (now : Int) (r : Val) : Option Bool :=
  match field r "date" with
  | none => none
  | some d =>
    if dateBefore toTime now d then
      match field r "completed" with
      | none => none
      | some c => some (!truthy c)
    else some false

/-- The number `(lead.reminders || []).filter(...).length` that one lead adds
to the count. -/
def overdueOfLead (toTime : Val → Option Int) (now : Int) (lead : Obj) : Option Nat :=
  match arrayItems (orElse (prop lead "reminders") (.arr [])) with
  | none => none
  | some rs => (filterOpt (isOverdue toTime now) rs).map List.length

/-- A `leads.reduce((count, lead) => count + f(lead), count)` whose callback
may throw. -/
def reduceCount (f : Obj → Option Nat) : List Obj → Nat → Option Nat
  | [], count => some count
  | lead :: rest, count =>
    match f lead with
    | none => none
    | some n => reduceCount f rest (count + n)

/-- The field `overdueReminders` of `stats`. -/
def stats.overdueReminders (toTime : Val → Option Int) (now : Int) (leads : List Obj) :
    Option Nat :=
  reduceCount (overdueOfLead toTime now) leads 0

/-- The method `s.includes(t)`: whether `t` occurs in `s` as a contiguous run
of characters. -/
def includes (s t : String) : Bool := decide (t.toList <:+: s.toList)

/-- The expression `v?.toLowerCase().includes(searchTerm.toLowerCase())`:
undefined when `v` is undefined or null, a TypeError (`none`) when `v` is
neither that nor a string. -/
def lowerIncludes (lower : String → String) (v : Val) (searchTerm : String) : Option Val :=
  match v with
  | .undefined => some .undefined
  | .null => some .undefined
  | .str x => some (.bool (includes (lower x) (lower searchTerm)))
  | _ => none

/-- The value `matchesSearch` computed for one lead; the operands of `||` are
evaluated from left to right until one is truthy. -/
def matchesSearch (lower : String → String) (searchTerm : String) (lead : Obj) :
    Option Val :=
  if searchTerm = "" then some (.bool true)
  else
    match lowerIncludes lower (prop lead "name") searchTerm with
    | none => none
    | some a =>
      if truthy a then some a
      else
        match lowerIncludes lower (prop lead "company") searchTerm with
        | none => none
        | some b =>
          if truthy b then some b
          else lowerIncludes lower (prop lead "email") searchTerm

/-- The value `matchesFilter` computed for one lead. -/
def matchesFilter (filterStage : String) (lead : Obj) : Bool :=
  filterStage == "all" || strictEq (prop lead "stage") (.str filterStage)

/-- The view `filteredLeads`. -/
def filteredLeads (lower : String → String) (searchTerm filterStage : String)
    (leads : List Obj) : Option (List Obj) :=
  filterOpt (fun lead =>
    (matchesSearch lower searchTerm lead).map fun m =>
      truthy m && matchesFilter filterStage lead) leads

/-- The characters that `trim` removes: the WhiteSpace and LineTerminator code
points of ECMAScript. -/
def isWhiteSpace (c : Char) : Bool :=
  c.toNat ∈ [0x09, 0x0A, 0x0B, 0x0C, 0x0D, 0x20, 0xA0, 0x1680, 0x2028, 0x2029,
    0x202F, 0x205F, 0x3000, 0xFEFF] || (0x2000 ≤ c.toNat && c.toNat ≤ 0x200A)

/-- The method `s.trim()`. -/
def trim (s : String) : String :=
  String.mk ((s.toList.dropWhile isWhiteSpace).reverse.dropWhile isWhiteSpace).reverse

/-- The store part of the handler `handleAddNote` of LeadModal; `lead` is the
lead the modal was opened for (`none` for null), `newNote` the text typed. -/
def handleAddNote (tn ta : Tick) (lead : Option Obj) (newNote : String) (s : Store) :
    Option Store :=
  if truthy (.str (trim newNote)) && lead.isSome then
    addNote tn ta (optProp lead "id") newNote s
  else some s

/-- The store part of the handler `handleAddReminder` of LeadModal. -/
def handleAddReminder (tr ta : Tick) (lead : Option Obj) (newReminder : Obj) (s : Store) :
    Option Store :=
  if truthy (prop newReminder "date") && truthy (prop newReminder "note") && lead.isSome then
    addReminder tr ta (optProp lead "id") newReminder s
  else some s

/-! ## Sequences of calls -/

/-- One call of a mutator, with the clock readings it consumes. -/
inductive Op where
  | addLead (tl ta : Tick) (leadData : Obj)
  | updateLead (ta : Tick) (leadId : Val) (updates : Obj)
  | deleteLead (ta : Tick) (leadId : Val)
  | addNote (tn ta : Tick) (leadId : Val) (noteText : String)
  | addReminder (tr ta : Tick) (leadId : Val) (reminderData : Obj)
  | addMeeting (tm ta : Tick) (meetingData : Obj)
  | handleDragEnd (tu ta : Tick) (result : DragResult)

/-- The state after one call; `none` when the call throws. -/
def step (s : Store) : Op → Option Store
  | .addLead tl ta d => some (addLead tl ta d s)
  | .updateLead ta i u => some (updateLead ta i u s)
  | .deleteLead ta i => some (deleteLead ta i s)
  | .addNote tn ta i x => addNote tn ta i x s
  | .addReminder tr ta i d => addReminder tr ta i d s
  | .addMeeting tm ta d => some (addMeeting tm ta d s)
  | .handleDragEnd tu ta r => some (handleDragEnd tu ta r s)

/-- The state after a sequence of calls, `none` as soon as one throws. -/
def run (s : Store) : List Op → Option Store
  | [] => some s
  | op :: rest =>
    match step s op with
    | none => none
    | some s' => run s' rest

/-! ## Notions used in the statements -/

/-- The arguments of one call of `addActivity` and the tick it reads. -/
structure Entry where
  t : Tick
  type : String
  message : String
  leadId : Val

/-- The log entry that a call of `addActivity` builds. -/
def entryOf (a : Entry) : Obj := newActivity a.t a.type a.message a.leadId

/-- The log after the calls `acts` of `addActivity`, made in order on `init`. -/
def logAll (acts : List Entry) (init : List Obj) : List Obj :=
  acts.foldl (fun log a => addActivity a.t a.type a.message a.leadId log) init

/-- The six stage ids of the catalogue, in catalogue order. -/
def stageIds : List String := PIPELINE_STAGES.map fun st => st.id

/-- Whether a value is one of the six stage ids. -/
def isStageId : Val → Bool
  | .str x => stageIds.contains x
  | _ => false

/-- Every lead of the collection has a catalogue stage. -/
def stagesOk (leads : List Obj) : Prop :=
  ∀ L ∈ leads, isStageId (prop L "stage") = true

/-- A call whose stage argument, when it has one, is a catalogue id: the
stage of the data given to addLead is falsy or a catalogue id, the stage of a
patch given to updateLead is absent or a catalogue id, and the destination of
a drag, when there is one, is a catalogue column. -/
def Op.stageConforming : Op → Bool
  | .addLead _ _ d => !truthy (prop d "stage") || isStageId (prop d "stage")
  | .updateLead _ _ u => !hasProp u "stage" || isStageId (prop u "stage")
  | .handleDragEnd _ _ r =>
    match r.destination with
    | none => true
    | some d => stageIds.contains d.droppableId
  | _ => true

/-- The ids of the leads are pairwise different under `===`. -/
def distinctIds (leads : List Obj) : Prop :=
  leads.Pairwise fun a b => strictEq (prop a "id") (prop b "id") = false

/-- Whether no lead of the collection has the id `leadId`. -/
def idAbsent (leadId : Val) (leads : List Obj) : Prop :=
  ∀ L ∈ leads, strictEq (prop L "id") leadId = false

/-- A call that gives no id field: the data given to addLead and the patch
given to updateLead have no property `id`. -/
def Op.idFree : Op → Bool
  | .addLead _ _ d => !hasProp d "id"
  | .updateLead _ _ u => !hasProp u "id"
  | _ => true

/-- The clock values that the addLead calls of a sequence read for the ids of
the leads they create, in the order of the calls. -/
def leadClocks : List Op → List Nat
  | [] => []
  | .addLead tl _ _ :: rest => tl.ms :: leadClocks rest
  | _ :: rest => leadClocks rest

/-- The ids of the leads of a collection, in order. -/
def idsOf (leads : List Obj) : List Val := leads.map fun L => prop L "id"

/-- The ids are pairwise different under `===` and each is the decimal text
of one of the clock values `T`. -/
def IdInv (T : List Nat) (ids : List Val) : Prop :=
  ids.Pairwise (fun a b => strictEq a b = false) ∧
  ∀ v ∈ ids, ∃ m ∈ T, v = .str (toString m)

/-- The number a list of decimal digit characters denotes. -/
def digitsValue (cs : List Char) : Nat :=
  cs.foldl (fun acc c => 10 * acc + (c.toNat - 48)) 0

/-- A field value that holds a list: an array, or a falsy value, which the
code replaces by the empty array (`field || []`). -/
def listLike : Val → Bool
  | .arr _ => true
  | v => !truthy v

/-- The items of a field that holds a list: the items of the array, none when
the field is not an array. -/
def itemsOf : Val → List Val
  | .arr xs => xs
  | _ => []

/-- A text made of white space only (the empty text included). -/
def isBlank (text : String) : Bool := text.toList.all isWhiteSpace

/-- Whether a value is an object. -/
def isObj : Val → Bool
  | .obj _ => true
  | _ => false

/-- A lead whose reminders hold a list of objects (or nothing). -/
def remindersOk (lead : Obj) : Bool :=
  listLike (prop lead "reminders") && (itemsOf (prop lead "reminders")).all isObj

/-- Following the claim: a reminder is overdue when its date is strictly
before now and it is not completed. -/
def overdueSpec (toTime : Val → Option Int) (now : Int) : Val → Bool
  | .obj r => dateBefore toTime now (prop r "date") && !truthy (prop r "completed")
  | _ => false

/-- Following the claim: the number of overdue reminders, summed over all
leads. -/
def countOverdue (toTime : Val → Option Int) (now : Int) (leads : List Obj) : Nat :=
  (leads.map fun L => (itemsOf (prop L "reminders")).countP (overdueSpec toTime now)).sum

/-- A field that holds a text or nothing (undefined or null). -/
def textLike : Val → Bool
  | .undefined => true
  | .null => true
  | .str _ => true
  | _ => false

/-- Following the claim: the field `k` of the lead holds a text whose
lower-cased form has the lower-cased term as a substring. -/
def fieldContains (lower : String → String) (term : String) (lead : Obj) (k : String) :
    Bool :=
  match prop lead k with
  | .str x => decide ((lower term).toList <:+: (lower x).toList)
  | _ => false

/-- Following the claim: the term is empty or occurs in the name, the company
or the email, and the filter is "all" or is the stage of the lead. -/
def searchSpec (lower : String → String) (term filter : String) (lead : Obj) : Bool :=
  (term == "" || fieldContains lower term lead "name" ||
    fieldContains lower term lead "company" || fieldContains lower term lead "email") &&
  (filter == "all" ||
    match prop lead "stage" with
    | .str x => x == filter
    | _ => false)

/-! ## Views of the dashboard, the meetings page and the pipeline -/

/-- The comparison `new Date(v) > new Date()`; an invalid date compares false. -/
def dateAfter (toTime : Val → Option Int) (now : Int) (v : Val) : Bool :=
  match toTime v with
  | some t => decide (now < t)
  | none => false

/-- The comparison `new Date(v) >= new Date()`; an invalid date compares
false. -/
def dateAtLeast (toTime : Val → Option Int) (now : Int) (v : Val) : Bool :=
  match toTime v with
  | some t => decide (now ≤ t)
  | none => false

/-- The time value that the comparator `new Date(a.k) - new Date(b.k)` of a
sort reads from an element. Every element that the views sort has passed a
date comparison, so its date is valid; the value 0 stands for an invalid date,
which is never read there. -/
def timeOf (toTime : Val → Option Int) (k : String) (o : Obj) : Int :=
  (toTime (prop o k)).getD 0

/-- The call `.sort((a, b) => new Date(a.k) - new Date(b.k))`: ascending in
the time value and stable, as `Array.prototype.sort` is. -/
def sortByTime (toTime : Val → Option Int) (k : String) (l : List Obj) : List Obj :=
  l.insertionSort fun a b => timeOf toTime k a ≤ timeOf toTime k b

/-- The list `upcomingMeetings` of MeetingsPage. -/
def MeetingsPage.upcomingMeetings (toTime : Val → Option Int) (now : Int)
    (meetings : List Obj) : List Obj :=
  meetings.filter fun m => dateAtLeast toTime now (prop m "dateTime")

/-- The list `pastMeetings` of MeetingsPage. -/
def MeetingsPage.pastMeetings (toTime : Val → Option Int) (now : Int)
    (meetings : List Obj) : List Obj :=
  meetings.filter fun m => dateBefore toTime now (prop m "dateTime")

/-- The list `upcomingMeetings` of Dashboard: filter, sort, `slice(0, 5)`. -/
def Dashboard.upcomingMeetings (toTime : Val → Option Int) (now : Int)
    (meetings : List Obj) : List Obj :=
  (sortByTime toTime "dateTime"
    (meetings.filter fun m => dateAfter toTime now (prop m "dateTime"))).take 5

/-- The properties that an object spread `...v` copies: those of an object,
the indexed items of an array, the indexed characters of a string, none for
any other value. -/
def spreadOf : Val → Obj
  | .obj o => o
  | .arr xs => xs.enum.map fun p => (toString p.1, p.2)
  | .str x => x.toList.enum.map fun p => (toString p.1, Val.str (String.singleton p.2))
  | _ => []

/-- The entry `{ ...r, leadName: lead.name, leadId: lead.id }` that the
dashboard builds for a reminder `r` of `lead`. -/
def overdueEntry (lead : Obj) (r : Val) : Obj :=
  spreadOf r ++ [("leadName", prop lead "name"), ("leadId", prop lead "id")]

/-- The callback of the `flatMap` of the dashboard: the overdue reminders of
one lead, each turned into an entry. -/
def overdueEntriesOf (toTime : Val → Option Int) (now : Int) (lead : Obj) :
    Option (List Obj) :=
  match arrayItems (orElse (prop lead "reminders") (.arr [])) with
  | none => none
  | some rs => (filterOpt (isOverdue toTime now) rs).map fun l => l.map (overdueEntry lead)

/-- A `flatMap` whose callback may throw. -/
def flatMapOpt (f : Obj → Option (List Obj)) : List Obj → Option (List Obj)
  | [] => some []
  | lead :: rest =>
    match f lead with
    | none => none
    | some l =>
      match flatMapOpt f rest with
      | none => none
      | some l' => some (l ++ l')

/-- The list `overdueReminders` of Dashboard: flatMap, then sort by date. -/
def Dashboard.overdueReminders (toTime : Val → Option Int) (now : Int)
    (leads : List Obj) : Option (List Obj) :=
  (flatMapOpt (overdueEntriesOf toTime now) leads).map (sortByTime toTime "date")

/-- The constant `stageLeads` of the callback of KanbanView:
`leads.filter(l => l.stage === stage.id)`. -/
def stageLeads (leads : List Obj) (stage : Stage) : List Obj :=
  leads.filter fun l => strictEq (prop l "stage") (.str stage.id)

/-- The bindings of the names that the file reads without declaring them:
`scope name` is the value that the global scope holds for `name`, and `none`
when it holds none, in which case reading the name throws a ReferenceError. -/
abbrev Scope := String → Option Val

/-- The global scope of the application as shipped. The only undeclared names
that the file reads are `text` and `gray`, and nothing in the file or in the
page declares them. -/
def shippedScope : Scope := fun _ => none

/-- The expression `text-gray-900` in the class name of a heading: the names
`text` and `gray` are read, in this order, and each read throws when the name
is not bound. The difference only goes into a class name, so what is kept is
whether the expression is evaluated. -/
def textGray900 (scope : Scope) : Option Unit :=
  match scope "text" with
  | none => none
  | some _ =>
    match scope "gray" with
    | none => none
    | some _ => some ()

/-- The callback that KanbanView maps over the stages: it computes
`stageLeads`, then builds the column, whose heading has the class name
`font-semibold ${text-gray-900}`. The cards of the column are built later, by
the render functions handed to Droppable and Draggable. -/
def kanbanColumn (scope : Scope) (leads : List Obj) (stage : Stage) :
    Option (Stage × List Obj) :=
  (textGray900 scope).map fun _ => (stage, stageLeads leads stage)

/-- A `map` over the stages whose callback may throw: the first throw aborts
the map. -/
def mapStages (f : Stage → Option (Stage × List Obj)) :
    List Stage → Option (List (Stage × List Obj))
  | [] => some []
  | stage :: rest =>
    match f stage with
    | none => none
    | some column =>
      match mapStages f rest with
      | none => none
      | some columns => some (column :: columns)

/-- The columns of KanbanView, each with the leads it shows:
`PIPELINE_STAGES.map(stage => ...)`; `none` when building a column throws. -/
def KanbanView (scope : Scope) (leads : List Obj) : Option (List (Stage × List Obj)) :=
  mapStages (kanbanColumn scope leads) PIPELINE_STAGES

/-- Following the claim: one entry for each reminder, of each lead in store
order, whose date is strictly before now and which is not completed; the entry
is built from the reminder and its owning lead. -/
def overdueListSpec (toTime : Val → Option Int) (now : Int) (leads : List Obj) : List Obj :=
  leads.flatMap fun L =>
    ((itemsOf (prop L "reminders")).filter (overdueSpec toTime now)).map (overdueEntry L)

/-! ## Persistence and export

`JSON.stringify`, `JSON.parse` and `toLocaleDateString` are inputs of the
definitions that use them: `stringify v` is the text that `JSON.stringify(v)`
returns (`none` when it returns undefined), `parse text` the value of
`JSON.parse(text)` (`none` for the SyntaxError), and `localeDate v` the text
of `new Date(v).toLocaleDateString()`. -/

/-- The key `crm_${userId}_${type}`. -/
def getLocalStorageKey (userId type : String) : String :=
  "crm_" ++ userId ++ "_" ++ type

/-- The content of localStorage: the text stored under each key, if any. -/
abbrev Storage := String → Option String

/-- The call `localStorage.setItem(key, value)`. -/
def setItem (key value : String) (st : Storage) : Storage :=
  fun k => if k = key then some value else st k

/-- The function `saveToLocalStorage(userId, type, data)`; a value that
`JSON.stringify` turns into undefined is stored as the text "undefined". -/
def saveToLocalStorage (stringify : Val → Option String) (userId type : String)
    (data : Val) (st : Storage) : Storage :=
  setItem (getLocalStorageKey userId type) ((stringify data).getD "undefined") st

/-- The function `getFromLocalStorage(userId, type)`: null when nothing or the
empty text is stored, else the parsed text; `none` when `JSON.parse` throws. -/
def getFromLocalStorage (parse : String → Option Val) (userId type : String)
    (st : Storage) : Option Val :=
  match st (getLocalStorageKey userId type) with
  | none => some .null
  | some data => if data = "" then some .null else parse data

/-- The array `headers` of `exportToCSV`. -/
def headers : List String :=
  ["Name", "Company", "Email", "Phone", "Source", "Stage", "Created", "Latest Note"]

/-- The access `v?.[0]`. -/
def firstItem : Val → Val
  | .arr (x :: _) => x
  | .str x =>
    match x.toList with
    | c :: _ => .str (String.singleton c)
    | [] => .undefined
  | .obj o => prop o "0"
  | _ => .undefined

/-- The access `v?.text`: undefined on undefined and null, the property of an
object, and undefined on any other value, which has no property of that name. -/
def textOf : Val → Val
  | .obj o => prop o "text"
  | _ => .undefined

/-- The cell `PIPELINE_STAGES.find(s => s.id === lead.stage)?.label || lead.stage`. -/
def stageCell (lead : Obj) : Val :=
  orElse
    (match PIPELINE_STAGES.find? fun st => strictEq (.str st.id) (prop lead "stage") with
      | some st => .str st.label
      | none => .undefined)
    (prop lead "stage")

/-- The row that `exportToCSV` builds for one lead. -/
def exportRow (localeDate : Val → String) (lead : Obj) : List Val :=
  [ prop lead "name",
    prop lead "company",
    prop lead "email",
    prop lead "phone",
    prop lead "source",
    stageCell lead,
    .str (localeDate (prop lead "createdAt")),
    orElse (textOf (firstItem (prop lead "notes"))) (.str "") ]

/-- The array `[headers, ...rows]` of `exportToCSV`. -/
def exportRows (localeDate : Val → String) (data : List Obj) : List (List Val) :=
  headers.map Val.str :: data.map (exportRow localeDate)

/-- The method `join(sep)` on an array of texts. -/
def joinWith (sep : String) : List String → String
  | [] => ""
  | [a] => a
  | a :: b :: rest => a ++ sep ++ joinWith sep (b :: rest)

/-- The double quote, as a character. -/
def quoteChar : Char := Char.ofNat 34

/-- The line feed, as a character. -/
def lineFeed : Char := Char.ofNat 10

/-- The comma, as a character. -/
def commaChar : Char := Char.ofNat 44

/-- The text of one cell between double quotes, as the template literal of
`exportToCSV` writes it. -/
def quoted (cell : Val) : String :=
  String.singleton quoteChar ++ toStr cell ++ String.singleton quoteChar

/-- The text `csv` of `exportToCSV`: the cells of a row joined by commas, the
rows joined by line feeds. -/
def csvText (rows : List (List Val)) : String :=
  joinWith (String.singleton lineFeed)
    (rows.map fun row => joinWith (String.singleton commaChar) (row.map quoted))

/-- The text that `exportToCSV(data, filename)` hands to the download. -/
def exportToCSV (localeDate : Val → String) (data : List Obj) : String :=
  csvText (exportRows localeDate data)

/-- The collection names that the store passes to the persistence functions. -/
def collectionNames : List String := ["leads", "meetings", "activities"]

/-- The position of a reader inside a line of quoted fields. -/
inductive ReadMode where
  | fieldStart : ReadMode
  | inside (cur : List Char) : ReadMode
  | fieldEnd : ReadMode

/-- Following the claim: a line is read as double-quoted fields separated by
commas. `done` holds the fields read so far, last first; inside a field `cur`
holds its characters, last first. A line that is not of this form gives
`none`. -/
def readLine : ReadMode → List String → List Char → Option (List String)
  | .fieldStart, _, [] => none
  | .fieldStart, done, c :: cs =>
    if c = quoteChar then readLine (.inside []) done cs else none
  | .inside _, _, [] => none
  | .inside cur, done, c :: cs =>
    if c = quoteChar then readLine .fieldEnd (String.mk cur.reverse :: done) cs
    else readLine (.inside (c :: cur)) done cs
  | .fieldEnd, done, [] => some done.reverse
  | .fieldEnd, done, c :: cs =>
    if c = commaChar then readLine .fieldStart done cs else none

/-- Following the claim: a text is split into lines at every line feed. -/
def splitLines : List Char → List (List Char)
  | [] => [[]]
  | c :: cs =>
    if c = lineFeed then [] :: splitLines cs
    else
      match splitLines cs with
      | l :: ls => (c :: l) :: ls
      | [] => [[c]]

/-- Reading every line, `none` as soon as one line cannot be read. -/
def readLines : List (List Char) → Option (List (List String))
  | [] => some []
  | l :: ls =>
    match readLine .fieldStart [] l with
    | none => none
    | some row =>
      match readLines ls with
      | none => none
      | some rows => some (row :: rows)

/-- Following the claim: the text is split into lines and each line into its
double-quoted, comma-separated fields. -/
def readCsv (text : String) : Option (List (List String)) :=
  readLines (splitLines text.toList)

/-- A text without double quote and without line feed. -/
def cellSafe (text : String) : Bool :=
  text.toList.all fun c => c != quoteChar && c != lineFeed

/-- A date text for the examples: the text of the value. -/
def plainDate (v : Val) : String := toStr v

/-- A lead in the stage proposal with one note, for the examples of the export. -/
def notedLead : Obj :=
  [("id", .str "1000"), ("name", .str "Jane Doe"), ("company", .str "X Ltd"),
    ("email", .str "jane@x.com"), ("phone", .str "555"), ("source", .str "Web"),
    ("stage", .str "proposal"), ("createdAt", .str "2024-01-01"),
    ("notes", .arr [.obj [("id", .str "2000"), ("text", .str "Call back")]])]

/-! ## The JSON round trip

`JSON.stringify` and `JSON.parse` are modelled after ECMAScript, on the values
of the embedding: numbers are integers, written in decimal digits, and a text
is a list of characters. `jsonValue` is the value that the round trip builds,
`jsonText` the text in between. -/

/-- The keys of an object, each once, in the order of their first definition. -/
def firstKeys : Obj → List String
  | [] => []
  | (k, _) :: rest => k :: (firstKeys rest).filter fun k' => k' != k

/-- Modelled from ECMAScript: the object read back from the text of an object.
It defines every key once, with the value the object holds for it; a key that
holds undefined is not written, so it is not read back. -/
def jsonObject (o : Obj) : Obj :=
  (firstKeys o).filterMap fun k =>
    match prop o k with
    | .undefined => none
    | v => some (k, v)

/-- Modelled from ECMAScript: an array element that is undefined is written as
null. -/
def undefinedToNull : Val → Val
  | .undefined => .null
  | v => v

mutual
/-- Modelled from ECMAScript: the value of `JSON.parse(JSON.stringify(v))` for a
value other than undefined, which has no text. Texts, numbers, booleans and null
are read back as they are, arrays and objects item by item. -/
def jsonValue : Val → Val
  | .arr xs => .arr (jsonItems xs)
  | .obj o => .obj (jsonObject (jsonProps o))
  | v => v
/-- The items of an array after the round trip. -/
def jsonItems : List Val → List Val
  | [] => []
  | x :: rest => undefinedToNull (jsonValue x) :: jsonItems rest
/-- The property definitions of an object, each value after the round trip. -/
def jsonProps : List (String × Val) → List (String × Val)
  | [] => []
  | (k, v) :: rest => (k, jsonValue v) :: jsonProps rest
end

mutual
/-- A value in which undefined occurs nowhere: no item of an array and no
property definition of an object, at any depth, is undefined. -/
def defined : Val → Bool
  | .undefined => false
  | .arr xs => definedItems xs
  | .obj o => definedProps o
  | _ => true
/-- Every item is a value in which undefined occurs nowhere. -/
def definedItems : List Val → Bool
  | [] => true
  | x :: rest => defined x && definedItems rest
/-- Every property holds a value in which undefined occurs nowhere. -/
def definedProps : List (String × Val) → Bool
  | [] => true
  | (_, v) :: rest => defined v && definedProps rest
end

/-- A list of keys without repetition. -/
def noRepeat : List String → Bool
  | [] => true
  | k :: rest => !rest.contains k && noRepeat rest

/-- Structural equality of two values: the same value; or two arrays of the
same length with structurally equal items; or two objects with the same keys,
holding structurally equal values. The order in which the keys of an object
were defined, and an earlier definition that a later one overrides, play no
part. -/
inductive SameValue : Val → Val → Prop where
  | same (v : Val) : SameValue v v
  | items (x y : Val) (xs ys : List Val) :
      SameValue x y → SameValue (.arr xs) (.arr ys) →
      SameValue (.arr (x :: xs)) (.arr (y :: ys))
  | props (a b : Obj) :
      (∀ k, hasProp a k = hasProp b k) → (∀ k, SameValue (prop a k) (prop b k)) →
      SameValue (.obj a) (.obj b)

/-! ### The JSON text of a value -/

/-- The backslash, as a character. -/
def backslash : Char := Char.ofNat 92

/-- The opening bracket of an array, as a character. -/
def openBracket : Char := Char.ofNat 91

/-- The closing bracket of an array, as a character. -/
def closeBracket : Char := Char.ofNat 93

/-- The opening brace of an object, as a character. -/
def openBrace : Char := Char.ofNat 123

/-- The closing brace of an object, as a character. -/
def closeBrace : Char := Char.ofNat 125

/-- The colon, as a character. -/
def colonChar : Char := Char.ofNat 58

/-- The minus sign, as a character. -/
def minusChar : Char := Char.ofNat 45

/-- The hexadecimal digit of a number below 16, in lower case. -/
def hexDigit (n : Nat) : Char :=
  if n < 10 then Char.ofNat (48 + n) else Char.ofNat (87 + n)

/-- Modelled from ECMAScript (QuoteJSONString): how one character of a text is
written between the quotes. The double quote and the backslash get a
backslash; backspace, tab, line feed, form feed and carriage return get their
short escapes; every other character below the space is written as a
four-digit escape; all other characters are written as they are. -/
def escapeChar (c : Char) : List Char :=
  if c = quoteChar then [backslash, quoteChar]
  else if c = backslash then [backslash, backslash]
  else if c.toNat = 8 then [backslash, 'b']
  else if c.toNat = 9 then [backslash, 't']
  else if c.toNat = 10 then [backslash, 'n']
  else if c.toNat = 12 then [backslash, 'f']
  else if c.toNat = 13 then [backslash, 'r']
  else if c.toNat < 32 then
    [backslash, 'u', '0', '0', hexDigit (c.toNat / 16), hexDigit (c.toNat % 16)]
  else [c]

/-- The JSON text of a text: its characters, escaped, between double quotes. -/
def quoteJSONString (s : String) : List Char :=
  quoteChar :: (s.toList.flatMap escapeChar ++ [quoteChar])

mutual
/-- Modelled from ECMAScript (SerializeJSONProperty): the JSON text of a value
in normal form, that is, one in which every object defines each key once and
holds no undefined. The members of an object are written in the order in
which it defines them (JavaScript writes the keys that are array indices
first, which changes the order of the members, not the value read back), and
a number in decimal digits (JavaScript writes an exponent from 21 digits on).
An array element that is undefined is written null. -/
def jsonText : Val → List Char
  | .undefined => "null".toList
  | .null => "null".toList
  | .bool true => "true".toList
  | .bool false => "false".toList
  | .num n => (toString n).toList
  | .str s => quoteJSONString s
  | .arr xs => openBracket :: (itemsText xs ++ [closeBracket])
  | .obj o => openBrace :: (membersText o ++ [closeBrace])
/-- The texts of the elements of an array, separated by commas. -/
def itemsText : List Val → List Char
  | [] => []
  | [x] => jsonText x
  | x :: y :: rest => jsonText x ++ commaChar :: itemsText (y :: rest)
/-- The members of an object, each written key, colon, value, separated by
commas. -/
def membersText : List (String × Val) → List Char
  | [] => []
  | [(k, v)] => quoteJSONString k ++ colonChar :: jsonText v
  | (k, v) :: q :: rest =>
    quoteJSONString k ++ colonChar :: (jsonText v ++ commaChar :: membersText (q :: rest))
end

/-- Modelled from ECMAScript: `JSON.stringify(v)`. The value undefined has no
text (`none`); any other value is written from its normal form `jsonValue v`,
so that every key of an object is written once, with the value the object
holds for it, and a key that holds undefined is left out. -/
def JSON.stringify : Val → Option String
  | .undefined => none
  | v => some (String.mk (jsonText (jsonValue v)))

/-! ### Reading a JSON text -/

/-- White space of a JSON text: space, tab, line feed, carriage return. -/
def isJsonSpace (c : Char) : Bool :=
  c.toNat = 32 || c.toNat = 9 || c.toNat = 10 || c.toNat = 13

/-- The text after its leading white space. -/
def skipSpace : List Char → List Char
  | [] => []
  | c :: cs => if isJsonSpace c then skipSpace cs else c :: cs

/-- The value of a hexadecimal digit. -/
def hexValue (c : Char) : Option Nat :=
  if 48 ≤ c.toNat ∧ c.toNat ≤ 57 then some (c.toNat - 48)
  else if 97 ≤ c.toNat ∧ c.toNat ≤ 102 then some (c.toNat - 87)
  else if 65 ≤ c.toNat ∧ c.toNat ≤ 70 then some (c.toNat - 55)
  else none

/-- The character that a one-letter escape stands for. -/
def unescape (c : Char) : Option Char :=
  if c = quoteChar then some quoteChar
  else if c = backslash then some backslash
  else if c = Char.ofNat 47 then some (Char.ofNat 47)
  else if c = 'b' then some (Char.ofNat 8)
  else if c = 't' then some (Char.ofNat 9)
  else if c = 'n' then some (Char.ofNat 10)
  else if c = 'f' then some (Char.ofNat 12)
  else if c = 'r' then some (Char.ofNat 13)
  else none

/-- The position of a reader inside a quoted text. -/
inductive TextMode where
  | plain : TextMode
  | escaped : TextMode
  | hex (left code : Nat) : TextMode

/-- Reading a quoted text after its opening quote, up to the closing quote.
`seen` holds the characters read so far, last first. A raw character below
the space, an unknown escape or a missing closing quote gives `none`; so does
an escape that names half of a surrogate pair, which the model does not read. -/
def readText : TextMode → List Char → List Char → Option (String × List Char)
  | _, _, [] => none
  | .plain, seen, c :: cs =>
    if c = quoteChar then some (String.mk seen.reverse, cs)
    else if c = backslash then readText .escaped seen cs
    else if c.toNat < 32 then none
    else readText .plain (c :: seen) cs
  | .escaped, seen, c :: cs =>
    if c = 'u' then readText (.hex 4 0) seen cs
    else
      match unescape c with
      | some x => readText .plain (x :: seen) cs
      | none => none
  | .hex left code, seen, c :: cs =>
    match hexValue c with
    | none => none
    | some d =>
      if left ≤ 1 then
        if (16 * code + d).isValidChar then
          readText .plain (Char.ofNat (16 * code + d) :: seen) cs
        else none
      else readText (.hex (left - 1) (16 * code + d)) seen cs

/-- Reading a number without sign: a run of digits without a leading zero (a
lone 0 apart). A fraction or an exponent gives `none`: the numbers of the
model are integers. -/
def readDigits (cs : List Char) : Option (Nat × List Char) :=
  let digits := cs.takeWhile Char.isDigit
  let rest := cs.dropWhile Char.isDigit
  if digits = [] then none
  else if digits.head? = some '0' ∧ 1 < digits.length then none
  else
    match rest with
    | c :: _ =>
      if c = '.' ∨ c = 'e' ∨ c = 'E' then none else some (digitsValue digits, rest)
    | [] => some (digitsValue digits, rest)

/-- Reading a number: an optional minus sign, then the digits. -/
def readNumber : List Char → Option (Int × List Char)
  | [] => none
  | c :: cs =>
    if c = minusChar then
      (readDigits cs).map fun r => (-(r.1 : Int), r.2)
    else (readDigits (c :: cs)).map fun r => ((r.1 : Int), r.2)

/-- The text after the word, when the text starts with the word. -/
def dropWord : List Char → List Char → Option (List Char)
  | [], cs => some cs
  | _ :: _, [] => none
  | w :: ws, c :: cs => if c = w then dropWord ws cs else none

mutual
/-- Modelled from ECMAScript (the JSON grammar): reading one value at the head
of a text; the result is the value and the text that follows it. `fuel`
bounds the depth of the reading. -/
def parseValue : Nat → List Char → Option (Val × List Char)
  | 0, _ => none
  | fuel + 1, cs =>
    match skipSpace cs with
    | [] => none
    | c :: rest =>
      if c = quoteChar then
        (readText .plain [] rest).map fun r => (.str r.1, r.2)
      else if c = openBracket then
        match skipSpace rest with
        | [] => none
        | d :: rest' =>
          if d = closeBracket then some (.arr [], rest')
          else (parseItems fuel (d :: rest')).map fun r => (.arr r.1, r.2)
      else if c = openBrace then
        match skipSpace rest with
        | [] => none
        | d :: rest' =>
          if d = closeBrace then some (.obj [], rest')
          else (parseMembers fuel (d :: rest')).map fun r => (.obj r.1, r.2)
      else if c = 'n' then (dropWord "ull".toList rest).map fun r => (.null, r)
      else if c = 't' then (dropWord "rue".toList rest).map fun r => (.bool true, r)
      else if c = 'f' then (dropWord "alse".toList rest).map fun r => (.bool false, r)
      else (readNumber (c :: rest)).map fun r => (.num r.1, r.2)
/-- Reading the elements of an array up to its closing bracket. -/
def parseItems : Nat → List Char → Option (List Val × List Char)
  | 0, _ => none
  | fuel + 1, cs =>
    match parseValue fuel cs with
    | none => none
    | some (v, rest) =>
      match skipSpace rest with
      | [] => none
      | d :: rest' =>
        if d = commaChar then (parseItems fuel rest').map fun r => (v :: r.1, r.2)
        else if d = closeBracket then some ([v], rest')
        else none
/-- Reading the members of an object up to its closing brace; the members are
kept in the order of the text, so that a key written twice holds its last
value. -/
def parseMembers : Nat → List Char → Option (List (String × Val) × List Char)
  | 0, _ => none
  | fuel + 1, cs =>
    match skipSpace cs with
    | [] => none
    | q :: rest =>
      if q = quoteChar then
        match readText .plain [] rest with
        | none => none
        | some (k, rest1) =>
          match skipSpace rest1 with
          | [] => none
          | c :: rest2 =>
            if c = colonChar then
              match parseValue fuel rest2 with
              | none => none
              | some (v, rest3) =>
                match skipSpace rest3 with
                | [] => none
                | d :: rest4 =>
                  if d = commaChar then
                    (parseMembers fuel rest4).map fun r => ((k, v) :: r.1, r.2)
                  else if d = closeBrace then some ([(k, v)], rest4)
                  else none
            else none
      else none
end

/-- Modelled from ECMAScript: `JSON.parse(text)`, `none` for the SyntaxError.
One value is read, and only white space may follow it. -/
def JSON.parse (text : String) : Option Val :=
  match parseValue (2 * text.length + 1) text.toList with
  | none => none
  | some (v, rest) => if skipSpace rest = [] then some v else none

/-- The text that follows a value inside a JSON text: nothing, a comma, or a
closing bracket or brace. -/
def endsValue : List Char → Bool
  | [] => true
  | c :: _ => c = commaChar || c = closeBracket || c = closeBrace

/-- A storage that holds nothing. -/
def emptyStorage : Storage := fun _ => none

/-! ## Sample data -/

/-- A clock reading. -/
def tickA : Tick := ⟨1000, "2024-01-01T00:00:01.000Z"⟩

/-- A later clock reading. -/
def tickB : Tick := ⟨2000, "2024-01-01T00:00:02.000Z"⟩

/-- The lead data of the example scenario of the specification. -/
def janeData : Obj := [("name", .str "Jane Doe"), ("email", .str "jane@x.com")]

/-- The store after Jane Doe was added to the empty store at `tickA`. -/
def janeStore : Store := addLead tickA tickA janeData emptyStore

/-- A drag of the card of Jane Doe from the column new to the column qualified. -/
def janeDrag : DragResult := ⟨"1000", ⟨"new", 0⟩, some ⟨"qualified", 0⟩⟩

/-- The data of a second lead. -/
def bobData : Obj := [("name", .str "Bob Ray"), ("email", .str "bob@y.org")]

/-- The store after Bob Ray was added to `janeStore` at `tickB`. -/
def twoLeadStore : Store := addLead tickB tickB bobData janeStore

/-- A reading of dates for the examples: a number is its own time value, as
for `new Date(n)`; every other value is taken as an invalid date. -/
def numberTime : Val → Option Int
  | .num n => some n
  | _ => none

/-- A lowering for the examples: it lowers the letters A to Z, as
`toLowerCase` does on a text without other cased letters. -/
def asciiLower (s : String) : String := String.mk (s.toList.map Char.toLower)

/-- The data of a lead named Acme Corp. -/
def acmeData : Obj := [("name", .str "Acme Corp"), ("email", .str "info@acme.test")]

/-- A global scope for the examples, in which `text` and `gray` are bound to
numbers, so that the headings of the columns are built. -/
def numbersScope : Scope := fun name =>
  if name = "text" ∨ name = "gray" then some (.num 0) else none

/-- A lead whose stage is not in the catalogue. -/
def archivedLead : Obj :=
  [("id", .str "7"), ("name", .str "Old Co"), ("stage", .str "archived")]

/-- The leads after Jane Doe was added, dragged to the column qualified and
given a note, as the items of the array that is handed to the persistence. -/
def savedLeads : List Val :=
  match addNote tickB tickB (.str "1000") "Call back"
      (handleDragEnd tickB tickB janeDrag janeStore) with
  | some s => s.leads.map Val.obj
  | none => []

/-! ## Lemmas on objects -/

theorem hasProp_append (a b : Obj) (k : String) :
    hasProp (a ++ b) k = (hasProp a k || hasProp b k) := by
  induction a with
  | nil => simp [hasProp]
  | cons p a ih =>
    obtain ⟨k', v⟩ := p
    show (hasProp (a ++ b) k || k' == k) = ((hasProp a k || k' == k) || hasProp b k)
    rw [ih]
    cases hasProp a k <;> cases hasProp b k <;> cases (k' == k) <;> rfl

theorem prop_of_not_hasProp (o : Obj) (k : String) (h : hasProp o k = false) :
    prop o k = .undefined := by
  induction o with
  | nil => rfl
  | cons p o ih =>
    obtain ⟨k', v⟩ := p
    simp only [hasProp, Bool.or_eq_false_iff] at h
    simp [prop, h.1, h.2]

theorem prop_append (a b : Obj) (k : String) :
    prop (a ++ b) k = if hasProp b k then prop b k else prop a k := by
  induction a with
  | nil =>
    cases h : hasProp b k
    · simp [prop, prop_of_not_hasProp b k h]
    · simp
  | cons p a ih =>
    obtain ⟨k', v⟩ := p
    show (if hasProp (a ++ b) k then prop (a ++ b) k else if k' == k then v else .undefined)
      = if hasProp b k then prop b k else
          (if hasProp a k then prop a k else if k' == k then v else .undefined)
    rw [ih, hasProp_append]
    cases hasProp a k <;> cases hasProp b k <;> simp

theorem strictEq_eq {a b : Val} (h : strictEq a b = true) : a = b := by
  cases a <;> cases b <;> simp_all [strictEq]

theorem addActivity_length_le (t : Tick) (ty msg : String) (i : Val) (prev : List Obj) :
    (addActivity t ty msg i prev).length ≤ 50 := by
  simp only [addActivity, List.length_cons, List.length_take]
  omega

/-! ## Lemmas on the activity log -/

theorem take_append_cons_take (X : List Obj) (y : Obj) (Z : List Obj) :
    (X ++ y :: Z.take 49).take 50 = (X ++ y :: Z).take 50 := by
  rw [List.take_append_eq_append_take, List.take_append_eq_append_take]
  congr 1
  cases h : 50 - X.length with
  | zero => rfl
  | succ n =>
    rw [List.take_succ_cons, List.take_succ_cons, List.take_take]
    have : min n 49 = n := by omega
    rw [this]

theorem logAll_eq (acts : List Entry) (init : List Obj) (h : init.length ≤ 50) :
    logAll acts init = ((acts.map entryOf).reverse ++ init).take 50 := by
  induction acts generalizing init with
  | nil => simp [logAll, List.take_of_length_le h]
  | cons a rest ih =>
    show logAll rest (addActivity a.t a.type a.message a.leadId init) = _
    rw [ih _ (addActivity_length_le _ _ _ _ _)]
    simp only [addActivity, List.map_cons, List.reverse_cons, List.append_assoc,
      List.singleton_append]
    exact take_append_cons_take _ _ _

theorem mapLeads_eq_some_length {f : Obj → Option Obj} {l l' : List Obj}
    (h : mapLeads f l = some l') : l'.length = l.length := by
  induction l generalizing l' with
  | nil => simp [mapLeads] at h; subst h; rfl
  | cons x rest ih =>
    simp only [mapLeads] at h
    cases hx : f x with
    | none => simp [hx] at h
    | some x' =>
      cases hr : mapLeads f rest with
      | none => simp [hx, hr] at h
      | some r' =>
        simp [hx, hr] at h
        subst h
        simp [ih hr]

theorem addNote_activities {tn ta : Tick} {i : Val} {x : String} {s s' : Store}
    (h : addNote tn ta i x s = some s') :
    s'.activities = addActivity ta "note_added" "Note added to lead" i s.activities ∧
    s'.meetings = s.meetings := by
  simp only [addNote, Option.map_eq_some'] at h
  obtain ⟨l, -, rfl⟩ := h
  exact ⟨rfl, rfl⟩

theorem addReminder_activities {tr ta : Tick} {i : Val} {d : Obj} {s s' : Store}
    (h : addReminder tr ta i d s = some s') :
    s'.activities = addActivity ta "reminder_set" "Follow-up reminder set" i s.activities ∧
    s'.meetings = s.meetings := by
  simp only [addReminder, Option.map_eq_some'] at h
  obtain ⟨l, -, rfl⟩ := h
  exact ⟨rfl, rfl⟩

theorem step_activities_le {s s' : Store} {op : Op} (h : s.activities.length ≤ 50)
    (hs : step s op = some s') : s'.activities.length ≤ 50 := by
  cases op with
  | addLead tl ta d =>
    simp only [step, Option.some.injEq] at hs; subst hs
    exact addActivity_length_le _ _ _ _ _
  | updateLead ta i u =>
    simp only [step, Option.some.injEq] at hs; subst hs
    exact addActivity_length_le _ _ _ _ _
  | deleteLead ta i =>
    simp only [step, Option.some.injEq] at hs; subst hs
    exact addActivity_length_le _ _ _ _ _
  | addNote tn ta i x =>
    rw [(addNote_activities hs).1]
    exact addActivity_length_le _ _ _ _ _
  | addReminder tr ta i d =>
    rw [(addReminder_activities hs).1]
    exact addActivity_length_le _ _ _ _ _
  | addMeeting tm ta d =>
    simp only [step, Option.some.injEq] at hs; subst hs
    exact addActivity_length_le _ _ _ _ _
  | handleDragEnd tu ta r =>
    simp only [step, Option.some.injEq] at hs; subst hs
    unfold handleDragEnd
    split
    · exact h
    · split
      · exact addActivity_length_le _ _ _ _ _
      · exact h

theorem run_activities_le {s s' : Store} {ops : List Op} (h : s.activities.length ≤ 50)
    (hr : run s ops = some s') : s'.activities.length ≤ 50 := by
  induction ops generalizing s with
  | nil => simp only [run, Option.some.injEq] at hr; subst hr; exact h
  | cons op rest ih =>
    simp only [run] at hr
    cases hs : step s op with
    | none => simp [hs] at hr
    | some s1 =>
      simp only [hs] at hr
      exact ih (step_activities_le h hs) hr

/-! ## C1 -/

theorem strictEq_comm (a b : Val) : strictEq a b = strictEq b a := by
  cases a <;> cases b <;> simp [strictEq, eq_comm]

theorem distinctIds_getElem {leads : List Obj} (hd : distinctIds leads) {i j : Nat}
    {L M : Obj} (hi : leads[i]? = some L) (hj : leads[j]? = some M) (hij : i ≠ j) :
    strictEq (prop M "id") (prop L "id") = false := by
  rw [distinctIds, List.pairwise_iff_getElem] at hd
  obtain ⟨hi', rfl⟩ := List.getElem?_eq_some.mp hi
  obtain ⟨hj', rfl⟩ := List.getElem?_eq_some.mp hj
  rcases Nat.lt_or_gt_of_ne hij with h | h
  · rw [strictEq_comm]; exact hd i j hi' hj' h
  · exact hd j i hj' hi' h

/-- C1. updateLead is a pure merge. For every store, id and patch, the leads
collection keeps its length, and the lead at each position is either the
former lead at that position unchanged (when its id is not the given id), or
that lead with exactly the fields named in the patch set to the values of the
patch: a field is present after the call iff it was present before or the
patch names it, and its value is the value of the patch when the patch names
it and the previous value otherwise (notes and reminders included). When the
ids of the collection are pairwise distinct and the lead at position i has
the given id, the lead at every other position is unchanged. -/
theorem updateLead_pure_merge (t : Tick) (leadId : Val) (updates : Obj) (s : Store)
    (i : Nat) (L : Obj) (hL : s.leads[i]? = some L) :
    (updateLead t leadId updates s).leads.length = s.leads.length ∧
    (∃ L', (updateLead t leadId updates s).leads[i]? = some L' ∧
      (strictEq (prop L "id") leadId = true →
        ∀ k, hasProp L' k = (hasProp L k || hasProp updates k) ∧
          prop L' k = if hasProp updates k then prop updates k else prop L k) ∧
      (strictEq (prop L "id") leadId = false → L' = L)) ∧
    (distinctIds s.leads → strictEq (prop L "id") leadId = true →
      ∀ j, j ≠ i → (updateLead t leadId updates s).leads[j]? = s.leads[j]?) := by
  refine ⟨by simp [updateLead], ?_, ?_⟩
  · refine ⟨if strictEq (prop L "id") leadId then L ++ updates else L, ?_, ?_, ?_⟩
    · simp [updateLead, List.getElem?_map, hL]
    · intro h k
      simp only [h, if_true]
      exact ⟨hasProp_append L updates k, prop_append L updates k⟩
    · intro h
      simp [h]
  · intro hd hid j hj
    simp only [updateLead, List.getElem?_map]
    cases hM : s.leads[j]? with
    | none => rfl
    | some M =>
      have := distinctIds_getElem hd hL hM (Ne.symm hj)
      rw [strictEq_eq hid] at this
      simp [this]

/-- Witness of C1: in the store of Bob Ray and Jane Doe, the lead of Jane Doe
is patched with a company. -/
theorem updateLead_pure_merge_witness :
    twoLeadStore.leads[1]? = some (newLead tickA janeData) ∧
    distinctIds twoLeadStore.leads ∧
    strictEq (prop (newLead tickA janeData) "id") (.str "1000") = true ∧
    (updateLead tickB (.str "1000") [("company", .str "Acme")] twoLeadStore).leads.length = 2 ∧
    (updateLead tickB (.str "1000") [("company", .str "Acme")] twoLeadStore).leads[0]?
      = some (newLead tickB bobData) ∧
    ∃ L', (updateLead tickB (.str "1000") [("company", .str "Acme")] twoLeadStore).leads[1]?
        = some L' ∧
      prop L' "company" = .str "Acme" ∧ prop L' "name" = .str "Jane Doe" ∧
      prop L' "notes" = .arr [] := by
  have hd : distinctIds twoLeadStore.leads := by
    show List.Pairwise _ [newLead tickB bobData, newLead tickA janeData]
    refine List.Pairwise.cons ?_ (List.pairwise_singleton _ _)
    intro L hL
    rw [List.mem_singleton.mp hL]
    rfl
  obtain ⟨hlen, ⟨L', hL', hmerge, -⟩, hframe⟩ :=
    updateLead_pure_merge tickB (.str "1000") [("company", .str "Acme")] twoLeadStore 1
      (newLead tickA janeData) rfl
  refine ⟨rfl, hd, rfl, hlen, ?_, L', hL', ?_, ?_, ?_⟩
  · rw [hframe hd rfl 0 (by decide)]
    rfl
  · rw [(hmerge rfl "company").2]; rfl
  · rw [(hmerge rfl "name").2]; rfl
  · rw [(hmerge rfl "notes").2]; rfl

/-! ## C2 -/

/-- C2. The activity log never exceeds 50 entries: the log that addActivity
produces has at most 50 entries whatever the prior log, and in every state
reached by a sequence of mutator calls from a state whose log has at most 50
entries (the empty store in particular) the log has at most 50 entries. -/
theorem activity_log_bounded (s : Store) (ops : List Op) (s' : Store)
    (h0 : s.activities.length ≤ 50) (hrun : run s ops = some s') :
    s'.activities.length ≤ 50 ∧
    ∀ (t : Tick) (type message : String) (leadId : Val) (prev : List Obj),
      (addActivity t type message leadId prev).length ≤ 50 :=
  ⟨run_activities_le h0 hrun, addActivity_length_le⟩

/-- Witness of C2: Jane Doe is added to the empty store and then dragged. -/
theorem activity_log_bounded_witness :
    emptyStore.activities.length ≤ 50 ∧
    run emptyStore [.addLead tickA tickA janeData, .handleDragEnd tickB tickB janeDrag]
      = some (handleDragEnd tickB tickB janeDrag janeStore) ∧
    (handleDragEnd tickB tickB janeDrag janeStore).activities.length ≤ 50 :=
  ⟨by decide, rfl,
    (activity_log_bounded emptyStore
      [.addLead tickA tickA janeData, .handleDragEnd tickB tickB janeDrag]
      (handleDragEnd tickB tickB janeDrag janeStore) (by decide) rfl).1⟩

/-! ## C3 -/

/-- C3. Eviction is by age. Starting from the empty log, after the calls
`acts` of addActivity the log is the entries of the last min(n, 50) calls,
newest first; after 51 calls it is the entries of calls 2 to 51 in reverse
order of the calls, so the first entry is gone and the 51st is at the head. -/
theorem activity_log_fifo (acts : List Entry) :
    logAll acts [] = ((acts.map entryOf).reverse).take (min acts.length 50) ∧
    (logAll acts []).length = min acts.length 50 ∧
    (acts.length = 51 →
      logAll acts [] = ((acts.drop 1).map entryOf).reverse ∧
      (logAll acts []).head? = (acts.map entryOf).getLast?) := by
  have hEq : logAll acts [] = ((acts.map entryOf).reverse).take 50 := by
    simpa using logAll_eq acts [] (by simp)
  have hTake : ((acts.map entryOf).reverse).take (min acts.length 50)
      = ((acts.map entryOf).reverse).take 50 := by
    rcases Nat.le_total acts.length 50 with h | h
    · rw [Nat.min_eq_left h, List.take_of_length_le (by simp),
        List.take_of_length_le (by simpa using h)]
    · rw [Nat.min_eq_right h]
  refine ⟨hEq.trans hTake.symm, ?_, ?_⟩
  · rw [hEq]; simp [Nat.min_comm]
  · intro h51
    have h1 : logAll acts [] = ((acts.drop 1).map entryOf).reverse := by
      rw [hEq, List.take_reverse, List.length_map, h51, List.map_drop]
    refine ⟨h1, ?_⟩
    rw [hEq, List.head?_take, if_neg (by decide), List.head?_reverse]

/-- Witness of C3: 51 calls, the i-th of them made at clock value i. -/
theorem activity_log_fifo_witness :
    ((List.range 51).map fun i => Entry.mk ⟨i, ""⟩ "note_added" "m" .null).length = 51 ∧
    logAll ((List.range 51).map fun i => Entry.mk ⟨i, ""⟩ "note_added" "m" .null) []
      = ((((List.range 51).map fun i => Entry.mk ⟨i, ""⟩ "note_added" "m" .null).drop 1).map
          entryOf).reverse ∧
    (logAll ((List.range 51).map fun i => Entry.mk ⟨i, ""⟩ "note_added" "m" .null) []).head?
      = (((List.range 51).map fun i => Entry.mk ⟨i, ""⟩ "note_added" "m" .null).map
          entryOf).getLast? :=
  ⟨by simp,
    (activity_log_fifo ((List.range 51).map fun i =>
      Entry.mk ⟨i, ""⟩ "note_added" "m" .null)).2.2 (by simp)⟩

/-! ## C4 -/

theorem prop_newLead_stage (t : Tick) (d : Obj) :
    prop (newLead t d) "stage" = orElse (prop d "stage") (.str "new") := by
  unfold newLead
  rw [prop_append]
  rfl

/-- C4 fails as stated: data that supplies the empty string as stage gives a
lead whose stage is "new", not the supplied value. -/
theorem addLead_stage_counterexample :
    hasProp (janeData ++ [("stage", .str "")]) "name" = true ∧
    hasProp (janeData ++ [("stage", .str "")]) "email" = true ∧
    hasProp (janeData ++ [("stage", .str "")]) "stage" = true ∧
    prop (janeData ++ [("stage", .str "")]) "stage" = .str "" ∧
    (addLead tickA tickA (janeData ++ [("stage", .str "")]) emptyStore).leads.map
      (fun L => prop L "stage") = [.str "new"] ∧
    Val.str "new" ≠ Val.str "" :=
  ⟨rfl, rfl, rfl, rfl, rfl, by simp⟩

/-- C4, amended. The lead created by addLead is the head of the collection;
its stage is "new" when the data supplies no stage or a falsy one, and is
exactly the supplied stage when the data supplies a truthy one (every
non-empty string, so each of the six stage ids). -/
theorem addLead_stage_default (tl ta : Tick) (d : Obj) (s : Store) :
    ∃ L, (addLead tl ta d s).leads.head? = some L ∧
      (hasProp d "stage" = false → prop L "stage" = .str "new") ∧
      (truthy (prop d "stage") = false → prop L "stage" = .str "new") ∧
      (truthy (prop d "stage") = true → prop L "stage" = prop d "stage") ∧
      (∀ x : String, x ≠ "" → prop d "stage" = .str x → prop L "stage" = .str x) := by
  refine ⟨newLead tl d, rfl, ?_, ?_, ?_, ?_⟩
  · intro h
    rw [prop_newLead_stage, prop_of_not_hasProp d _ h]
    rfl
  · intro h
    rw [prop_newLead_stage]
    simp [orElse, h]
  · intro h
    rw [prop_newLead_stage]
    simp [orElse, h]
  · intro x hx h
    rw [prop_newLead_stage, h]
    simp [orElse, truthy, hx]

/-- Witness of C4: Jane Doe without a stage, and with the stage proposal. -/
theorem addLead_stage_default_witness :
    hasProp janeData "stage" = false ∧
    prop (janeData ++ [("stage", .str "proposal")]) "stage" = .str "proposal" ∧
    (∃ L, (addLead tickA tickA janeData emptyStore).leads.head? = some L ∧
      prop L "stage" = .str "new") ∧
    (∃ L, (addLead tickA tickA (janeData ++ [("stage", .str "proposal")])
        emptyStore).leads.head? = some L ∧
      prop L "stage" = .str "proposal") := by
  refine ⟨rfl, rfl, ?_, ?_⟩
  · obtain ⟨L, h, h1, -⟩ := addLead_stage_default tickA tickA janeData emptyStore
    exact ⟨L, h, h1 rfl⟩
  · obtain ⟨L, h, -, -, -, h4⟩ := addLead_stage_default tickA tickA
      (janeData ++ [("stage", .str "proposal")]) emptyStore
    exact ⟨L, h, h4 "proposal" (by decide) rfl⟩

/-! ## C5 -/

theorem prop_newLead_id (t : Tick) (d : Obj) (h : hasProp d "id" = false) :
    prop (newLead t d) "id" = .str (toString t.ms) := by
  unfold newLead
  rw [prop_append, prop_append, h]
  rfl

/-- C5 fails as stated: two leads created at the same clock value get the same
id, and data that carries an id field imposes that id on the new lead. -/
theorem addLead_id_counterexample :
    (run emptyStore [.addLead tickA tickA janeData, .addLead tickA tickA janeData]).map
      (fun s => s.leads.map fun L => prop L "id") = some [.str "1000", .str "1000"] ∧
    (run emptyStore [.addLead tickA tickA janeData,
        .addLead tickB tickB (janeData ++ [("id", .str "1000")])]).map
      (fun s => s.leads.map fun L => prop L "id") = some [.str "1000", .str "1000"] ∧
    strictEq (.str "1000") (.str "1000") = true ∧
    ¬ distinctIds [newLead tickA janeData, newLead tickA janeData] := by
  refine ⟨rfl, rfl, rfl, ?_⟩
  intro h
  have := List.rel_of_pairwise_cons h (List.mem_singleton.mpr rfl)
  exact absurd this (by decide)

/-- In any store: when the data carries no id field, the id of the lead
created by addLead is the decimal text of the clock value read at creation;
if moreover no lead of the collection has that text as id, the new id differs
from the id of every lead already present, and a collection whose ids are
pairwise distinct stays so. -/
theorem addLead_keeps_distinct (tl ta : Tick) (d : Obj) (s : Store)
    (hid : hasProp d "id" = false)
    (hfresh : ∀ L ∈ s.leads, strictEq (.str (toString tl.ms)) (prop L "id") = false) :
    (addLead tl ta d s).leads = newLead tl d :: s.leads ∧
    prop (newLead tl d) "id" = .str (toString tl.ms) ∧
    (∀ L ∈ s.leads, strictEq (prop (newLead tl d) "id") (prop L "id") = false) ∧
    (distinctIds s.leads → distinctIds (addLead tl ta d s).leads) := by
  have h1 := prop_newLead_id tl d hid
  refine ⟨rfl, h1, ?_, ?_⟩
  · intro L hL
    rw [h1]
    exact hfresh L hL
  · intro hd
    show List.Pairwise _ (newLead tl d :: s.leads)
    refine List.Pairwise.cons ?_ hd
    intro L hL
    rw [h1]
    exact hfresh L hL

/-! ### The decimal text of a clock value determines the value -/

theorem digitsValue_append_singleton (cs : List Char) (c : Char) :
    digitsValue (cs ++ [c]) = 10 * digitsValue cs + (c.toNat - 48) := by
  simp [digitsValue, List.foldl_append]

theorem digitChar_value (d : Nat) (h : d < 10) : (Nat.digitChar d).toNat - 48 = d := by
  interval_cases d <;> rfl

theorem toDigitsCore_append (fuel n : Nat) (ds : List Char) :
    Nat.toDigitsCore 10 fuel n ds = Nat.toDigitsCore 10 fuel n [] ++ ds := by
  induction fuel generalizing n ds with
  | zero => simp [Nat.toDigitsCore]
  | succ fuel ih =>
    simp only [Nat.toDigitsCore]
    split
    · simp
    · rw [ih (n / 10) (_ :: ds), ih (n / 10) [_]]
      simp

theorem digitsValue_toDigitsCore (fuel n : Nat) (h : n < fuel) :
    digitsValue (Nat.toDigitsCore 10 fuel n []) = n := by
  induction fuel generalizing n with
  | zero => omega
  | succ fuel ih =>
    simp only [Nat.toDigitsCore]
    split
    · next h0 =>
      have hn : n < 10 := by omega
      simp [digitsValue, Nat.mod_eq_of_lt hn, digitChar_value n hn]
    · next h0 =>
      rw [toDigitsCore_append, digitsValue_append_singleton,
        ih (n / 10) (by omega), digitChar_value _ (Nat.mod_lt n (by decide))]
      omega

theorem toString_nat_injective {a b : Nat} (h : toString a = toString b) : a = b := by
  have h1 : (Nat.toDigits 10 a).asString = (Nat.toDigits 10 b).asString := h
  have h2 : Nat.toDigits 10 a = Nat.toDigits 10 b := by
    exact congrArg String.data h1
  have ha := digitsValue_toDigitsCore (a + 1) a (by omega)
  have hb := digitsValue_toDigitsCore (b + 1) b (by omega)
  unfold Nat.toDigits at h2
  rw [h2] at ha
  omega

/-! ### Ids along a sequence of calls -/

theorem distinctIds_iff (leads : List Obj) :
    distinctIds leads ↔ (idsOf leads).Pairwise (fun a b => strictEq a b = false) := by
  simp [distinctIds, idsOf, List.pairwise_map]

theorem idsOf_updateLead (ta : Tick) (i : Val) (u : Obj) (s : Store)
    (hu : hasProp u "id" = false) : idsOf (updateLead ta i u s).leads = idsOf s.leads := by
  simp only [idsOf, updateLead, List.map_map]
  apply List.map_congr_left
  intro L _
  simp only [Function.comp]
  split
  · rw [prop_append, hu]; rfl
  · rfl

theorem idsOf_mapLeads {f : Obj → Option Obj}
    (hf : ∀ x y, f x = some y → prop y "id" = prop x "id") {l l' : List Obj}
    (h : mapLeads f l = some l') : idsOf l' = idsOf l := by
  induction l generalizing l' with
  | nil =>
    simp only [mapLeads, Option.some.injEq] at h
    subst h
    rfl
  | cons x rest ih =>
    simp only [mapLeads] at h
    cases hx : f x with
    | none => simp [hx] at h
    | some x' =>
      cases hr : mapLeads f rest with
      | none => simp [hx, hr] at h
      | some r' =>
        simp only [hx, hr, Option.some.injEq] at h
        subst h
        show prop x' "id" :: idsOf r' = prop x "id" :: idsOf rest
        rw [hf x x' hx, ih hr]

theorem withNote_id {note : Obj} {i : Val} {x y : Obj} (h : withNote note i x = some y) :
    prop y "id" = prop x "id" := by
  unfold withNote at h
  split at h
  · simp only [Option.map_eq_some'] at h
    obtain ⟨old, -, rfl⟩ := h
    rw [prop_append]
    rfl
  · simp only [Option.some.injEq] at h
    subst h
    rfl

theorem withReminder_id {r : Obj} {i : Val} {x y : Obj}
    (h : withReminder r i x = some y) : prop y "id" = prop x "id" := by
  unfold withReminder at h
  split at h
  · simp only [Option.map_eq_some'] at h
    obtain ⟨old, -, rfl⟩ := h
    rw [prop_append]
    rfl
  · simp only [Option.some.injEq] at h
    subst h
    rfl

theorem IdInv.cons {T : List Nat} {ids : List Val} (h : IdInv T ids) (m : Nat)
    (hm : m ∉ T) : IdInv (T ++ [m]) (.str (toString m) :: ids) := by
  refine ⟨List.Pairwise.cons ?_ h.1, ?_⟩
  · intro v hv
    obtain ⟨m', hm', rfl⟩ := h.2 v hv
    have hne : m ≠ m' := fun e => hm (e ▸ hm')
    have : toString m ≠ toString m' := fun e => hne (toString_nat_injective e)
    simp [strictEq, this]
  · intro v hv
    rcases List.mem_cons.mp hv with rfl | hv
    · exact ⟨m, by simp, rfl⟩
    · obtain ⟨m', hm', e⟩ := h.2 v hv
      exact ⟨m', by simp [hm'], e⟩

theorem step_idInv {T : List Nat} {s s' : Store} {op : Op} (h : IdInv T (idsOf s.leads))
    (hop : op.idFree = true) (hc : ∀ m ∈ leadClocks [op], m ∉ T)
    (hs : step s op = some s') : IdInv (T ++ leadClocks [op]) (idsOf s'.leads) := by
  cases op with
  | addLead tl ta d =>
    simp only [step, Option.some.injEq] at hs; subst hs
    simp only [Op.idFree, Bool.not_eq_true'] at hop
    show IdInv (T ++ [tl.ms]) (prop (newLead tl d) "id" :: idsOf s.leads)
    rw [prop_newLead_id tl d hop]
    exact h.cons tl.ms (hc tl.ms (by simp [leadClocks]))
  | updateLead ta i u =>
    simp only [step, Option.some.injEq] at hs; subst hs
    simp only [Op.idFree, Bool.not_eq_true'] at hop
    rw [idsOf_updateLead ta i u s hop]
    simpa [leadClocks] using h
  | deleteLead ta i =>
    simp only [step, Option.some.injEq] at hs; subst hs
    have hsub : (idsOf (deleteLead ta i s).leads).Sublist (idsOf s.leads) :=
      List.Sublist.map _ (List.filter_sublist _)
    simp only [leadClocks, List.append_nil]
    exact ⟨h.1.sublist hsub, fun v hv => h.2 v (hsub.subset hv)⟩
  | addNote tn ta i x =>
    simp only [step, addNote, Option.map_eq_some'] at hs
    obtain ⟨l, hl, rfl⟩ := hs
    show IdInv _ (idsOf l)
    rw [idsOf_mapLeads (fun a b hab => withNote_id hab) hl]
    simpa [leadClocks] using h
  | addReminder tr ta i d =>
    simp only [step, addReminder, Option.map_eq_some'] at hs
    obtain ⟨l, hl, rfl⟩ := hs
    show IdInv _ (idsOf l)
    rw [idsOf_mapLeads (fun a b hab => withReminder_id hab) hl]
    simpa [leadClocks] using h
  | addMeeting tm ta d =>
    simp only [step, Option.some.injEq] at hs; subst hs
    simpa [leadClocks] using h
  | handleDragEnd tu ta r =>
    simp only [step, Option.some.injEq] at hs; subst hs
    have : idsOf (handleDragEnd tu ta r s).leads = idsOf s.leads := by
      unfold handleDragEnd
      split
      · rfl
      · split
        · exact idsOf_updateLead tu _ _ s rfl
        · rfl
    rw [this]
    simpa [leadClocks] using h

theorem leadClocks_cons (op : Op) (rest : List Op) :
    leadClocks (op :: rest) = leadClocks [op] ++ leadClocks rest := by
  cases op <;> simp [leadClocks]

theorem run_idInv {T : List Nat} {s s' : Store} {ops : List Op}
    (h : IdInv T (idsOf s.leads)) (hops : ∀ op ∈ ops, op.idFree = true)
    (hc : (T ++ leadClocks ops).Nodup) (hr : run s ops = some s') :
    IdInv (T ++ leadClocks ops) (idsOf s'.leads) := by
  induction ops generalizing s T with
  | nil =>
    simp only [run, Option.some.injEq] at hr; subst hr
    simpa [leadClocks] using h
  | cons op rest ih =>
    simp only [run] at hr
    cases hs : step s op with
    | none => simp [hs] at hr
    | some s1 =>
      simp only [hs] at hr
      rw [leadClocks_cons, ← List.append_assoc] at hc ⊢
      have hc1 : (T ++ leadClocks [op]).Nodup := (List.nodup_append.mp hc).1
      have hfresh : ∀ m ∈ leadClocks [op], m ∉ T := by
        intro m hm hmT
        exact (List.nodup_append.mp hc1).2.2 hmT hm
      exact ih (step_idInv h (hops op (List.mem_cons_self _ _)) hfresh hs)
        (fun o ho => hops o (List.mem_cons_of_mem _ ho)) hc hr

/-- C5, amended. In every store state reached from the empty store by calls
in which no data given to addLead and no patch given to updateLead carries an
id field, and in which the addLead calls read pairwise different clock values,
the id of every lead is the decimal text of the clock value read at its
creation and the ids are pairwise distinct. In such a state a lead created by
addLead from data without id field, at a clock value that no earlier addLead
read, is put at the head with an id that differs from the id of every lead
already present. -/
theorem addLead_id_fresh (ops : List Op) (s : Store)
    (hfree : ∀ op ∈ ops, op.idFree = true) (hclocks : (leadClocks ops).Nodup)
    (hrun : run emptyStore ops = some s) :
    distinctIds s.leads ∧
    (∀ L ∈ s.leads, ∃ m ∈ leadClocks ops, prop L "id" = .str (toString m)) ∧
    ∀ (tl ta : Tick) (d : Obj), hasProp d "id" = false → tl.ms ∉ leadClocks ops →
      (addLead tl ta d s).leads = newLead tl d :: s.leads ∧
      prop (newLead tl d) "id" = .str (toString tl.ms) ∧
      (∀ L ∈ s.leads, strictEq (prop (newLead tl d) "id") (prop L "id") = false) ∧
      distinctIds (addLead tl ta d s).leads := by
  have h0 : IdInv [] (idsOf emptyStore.leads) :=
    ⟨List.Pairwise.nil, fun v hv => by simp [idsOf, emptyStore] at hv⟩
  have hinv : IdInv (leadClocks ops) (idsOf s.leads) := by
    simpa using run_idInv h0 hfree (by simpa using hclocks) hrun
  refine ⟨(distinctIds_iff _).mpr hinv.1, ?_, ?_⟩
  · intro L hL
    exact hinv.2 _ (List.mem_map_of_mem _ hL)
  · intro tl ta d hd hfresh
    have hid := prop_newLead_id tl d hd
    have hcons := hinv.cons tl.ms hfresh
    have hpair : distinctIds (newLead tl d :: s.leads) := by
      rw [distinctIds_iff]
      show List.Pairwise _ (prop (newLead tl d) "id" :: idsOf s.leads)
      rw [hid]
      exact hcons.1
    refine ⟨rfl, hid, ?_, hpair⟩
    intro L hL
    exact List.rel_of_pairwise_cons hpair hL

/-- Witness of C5: Jane Doe and Bob Ray were created at the clock values 1000
and 2000; a third lead is created at 3000. -/
theorem addLead_id_fresh_witness :
    (∀ op ∈ [Op.addLead tickA tickA janeData, Op.addLead tickB tickB bobData],
      op.idFree = true) ∧
    (leadClocks [Op.addLead tickA tickA janeData, Op.addLead tickB tickB bobData]).Nodup ∧
    run emptyStore [.addLead tickA tickA janeData, .addLead tickB tickB bobData]
      = some twoLeadStore ∧
    distinctIds twoLeadStore.leads ∧
    distinctIds (addLead ⟨3000, ""⟩ ⟨3000, ""⟩ janeData twoLeadStore).leads := by
  have hfree : ∀ op ∈ [Op.addLead tickA tickA janeData, Op.addLead tickB tickB bobData],
      op.idFree = true := by
    intro op hop
    simp only [List.mem_cons, List.mem_singleton, List.not_mem_nil, or_false] at hop
    rcases hop with rfl | rfl <;> rfl
  have hclocks : (leadClocks [Op.addLead tickA tickA janeData,
      Op.addLead tickB tickB bobData]).Nodup := by
    show [1000, 2000].Nodup
    decide
  have h := addLead_id_fresh _ twoLeadStore hfree hclocks rfl
  refine ⟨hfree, hclocks, rfl, h.1, ?_⟩
  exact (h.2.2 ⟨3000, ""⟩ ⟨3000, ""⟩ janeData rfl (by
    show ¬ (3000 ∈ [1000, 2000])
    decide)).2.2.2

/-! ## C6 -/

theorem mapLeads_forall {P : Obj → Prop} {f : Obj → Option Obj}
    (hf : ∀ x y, f x = some y → P x → P y) {l l' : List Obj}
    (h : mapLeads f l = some l') (hl : ∀ x ∈ l, P x) : ∀ y ∈ l', P y := by
  induction l generalizing l' with
  | nil =>
    simp only [mapLeads, Option.some.injEq] at h
    subst h
    simp
  | cons x rest ih =>
    simp only [mapLeads] at h
    cases hx : f x with
    | none => simp [hx] at h
    | some x' =>
      cases hr : mapLeads f rest with
      | none => simp [hx, hr] at h
      | some r' =>
        simp only [hx, hr, Option.some.injEq] at h
        subst h
        intro y hy
        rcases List.mem_cons.mp hy with rfl | hy
        · exact hf x _ hx (hl x (List.mem_cons_self _ _))
        · exact ih hr (fun z hz => hl z (List.mem_cons_of_mem _ hz)) y hy

theorem withNote_stage {note : Obj} {i : Val} {x y : Obj} (h : withNote note i x = some y) :
    prop y "stage" = prop x "stage" := by
  unfold withNote at h
  split at h
  · simp only [Option.map_eq_some'] at h
    obtain ⟨old, -, rfl⟩ := h
    rw [prop_append]
    rfl
  · simp only [Option.some.injEq] at h
    subst h
    rfl

theorem withReminder_stage {r : Obj} {i : Val} {x y : Obj}
    (h : withReminder r i x = some y) : prop y "stage" = prop x "stage" := by
  unfold withReminder at h
  split at h
  · simp only [Option.map_eq_some'] at h
    obtain ⟨old, -, rfl⟩ := h
    rw [prop_append]
    rfl
  · simp only [Option.some.injEq] at h
    subst h
    rfl

theorem updateLead_stagesOk (ta : Tick) (i : Val) (u : Obj) (s : Store)
    (hu : (!hasProp u "stage" || isStageId (prop u "stage")) = true)
    (h : stagesOk s.leads) : stagesOk (updateLead ta i u s).leads := by
  intro L hL
  simp only [updateLead, List.mem_map] at hL
  obtain ⟨L0, hL0, rfl⟩ := hL
  split
  · rw [prop_append]
    cases hs : hasProp u "stage"
    · simpa using h L0 hL0
    · simpa [hs] using hu
  · exact h L0 hL0

theorem step_stagesOk {s s' : Store} {op : Op} (hop : op.stageConforming = true)
    (h : stagesOk s.leads) (hs : step s op = some s') : stagesOk s'.leads := by
  cases op with
  | addLead tl ta d =>
    simp only [step, Option.some.injEq] at hs; subst hs
    intro L hL
    rcases List.mem_cons.mp hL with rfl | hL
    · rw [prop_newLead_stage]
      simp only [Op.stageConforming, Bool.or_eq_true, Bool.not_eq_true'] at hop
      rcases hop with hf | hok
      · simp only [orElse, hf]; rfl
      · cases ht : truthy (prop d "stage")
        · simp only [orElse, ht]; rfl
        · simpa [orElse, ht] using hok
    · exact h L hL
  | updateLead ta i u =>
    simp only [step, Option.some.injEq] at hs; subst hs
    exact updateLead_stagesOk ta i u s hop h
  | deleteLead ta i =>
    simp only [step, Option.some.injEq] at hs; subst hs
    intro L hL
    exact h L (List.mem_of_mem_filter hL)
  | addNote tn ta i x =>
    simp only [step, addNote, Option.map_eq_some'] at hs
    obtain ⟨l, hl, rfl⟩ := hs
    exact mapLeads_forall (P := fun L => isStageId (prop L "stage") = true)
      (fun a b hab ha => by
        show isStageId (prop b "stage") = true
        rw [withNote_stage hab]; exact ha) hl h
  | addReminder tr ta i d =>
    simp only [step, addReminder, Option.map_eq_some'] at hs
    obtain ⟨l, hl, rfl⟩ := hs
    exact mapLeads_forall (P := fun L => isStageId (prop L "stage") = true)
      (fun a b hab ha => by
        show isStageId (prop b "stage") = true
        rw [withReminder_stage hab]; exact ha) hl h
  | addMeeting tm ta d =>
    simp only [step, Option.some.injEq] at hs; subst hs
    exact h
  | handleDragEnd tu ta r =>
    simp only [step, Option.some.injEq] at hs; subst hs
    unfold handleDragEnd
    cases hd : r.destination with
    | none => exact h
    | some dest =>
      simp only [Op.stageConforming, hd] at hop
      simp only
      split
      · exact updateLead_stagesOk tu _ _ s (by simpa [hasProp, prop, isStageId] using hop) h
      · exact h

/-- C6 fails as stated: addLead stores whatever truthy stage the data carries,
and updateLead and handleDragEnd store whatever stage they are given. -/
theorem stage_invariant_counterexample :
    (run emptyStore [.addLead tickA tickA (janeData ++ [("stage", .str "archived")])]).map
      (fun s => s.leads.map fun L => prop L "stage") = some [.str "archived"] ∧
    (run emptyStore [.addLead tickA tickA janeData,
        .handleDragEnd tickB tickB ⟨"1000", ⟨"new", 0⟩, some ⟨"attic", 0⟩⟩]).map
      (fun s => s.leads.map fun L => prop L "stage") = some [.str "attic"] ∧
    isStageId (.str "archived") = false ∧ isStageId (.str "attic") = false :=
  ⟨rfl, rfl, rfl, rfl⟩

/-- C6, amended. In every store state reached from a state whose leads all
have catalogue stages (the empty store in particular) by calls whose stage
arguments are catalogue ids, every lead has one of the six catalogue stages.
A call conforms when the stage of the data given to addLead is absent, falsy
or a catalogue id, the stage of a patch given to updateLead is absent or a
catalogue id, and the destination of a drag is a catalogue column. -/
theorem stage_invariant (s : Store) (ops : List Op) (s' : Store)
    (h0 : stagesOk s.leads) (hops : ∀ op ∈ ops, op.stageConforming = true)
    (hrun : run s ops = some s') :
    ∀ L ∈ s'.leads, ∃ x, prop L "stage" = .str x ∧
      x ∈ ["new", "qualified", "follow-up", "proposal", "closed-won", "closed-lost"] := by
  have key : stagesOk s'.leads := by
    induction ops generalizing s with
    | nil => simp only [run, Option.some.injEq] at hrun; subst hrun; exact h0
    | cons op rest ih =>
      simp only [run] at hrun
      cases hs : step s op with
      | none => simp [hs] at hrun
      | some s1 =>
        simp only [hs] at hrun
        exact ih s1 (step_stagesOk (hops op (List.mem_cons_self _ _)) h0 hs)
          (fun o ho => hops o (List.mem_cons_of_mem _ ho)) hrun
  intro L hL
  have := key L hL
  cases hv : prop L "stage" with
  | str x =>
    refine ⟨x, rfl, ?_⟩
    rw [hv] at this
    simpa [isStageId, stageIds, PIPELINE_STAGES] using this
  | _ => rw [hv] at this; simp [isStageId] at this

/-- Witness of C6: Jane Doe is added and dragged to the column qualified. -/
theorem stage_invariant_witness :
    stagesOk emptyStore.leads ∧
    (∀ op ∈ [Op.addLead tickA tickA janeData, Op.handleDragEnd tickB tickB janeDrag],
      op.stageConforming = true) ∧
    run emptyStore [.addLead tickA tickA janeData, .handleDragEnd tickB tickB janeDrag]
      = some (handleDragEnd tickB tickB janeDrag janeStore) ∧
    ∀ L ∈ (handleDragEnd tickB tickB janeDrag janeStore).leads, ∃ x,
      prop L "stage" = .str x ∧
      x ∈ ["new", "qualified", "follow-up", "proposal", "closed-won", "closed-lost"] := by
  have h0 : stagesOk emptyStore.leads := by intro L hL; simp [emptyStore] at hL
  have hops : ∀ op ∈ [Op.addLead tickA tickA janeData,
      Op.handleDragEnd tickB tickB janeDrag], op.stageConforming = true := by
    intro op hop
    simp only [List.mem_cons, List.mem_singleton, List.not_mem_nil, or_false] at hop
    rcases hop with rfl | rfl <;> rfl
  exact ⟨h0, hops, rfl, stage_invariant emptyStore _ _ h0 hops rfl⟩

/-! ## C7 -/

/-- C7. A drag whose destination column is its source column is a complete
no-op: handleDragEnd returns the store it was given, so the leads (every field
of every lead), the meetings and the activity log are unchanged. -/
theorem handleDragEnd_same_column (tu ta : Tick) (r : DragResult) (dest : Location)
    (s : Store) (hd : r.destination = some dest)
    (hsame : r.source.droppableId = dest.droppableId) :
    handleDragEnd tu ta r s = s ∧
    (handleDragEnd tu ta r s).leads = s.leads ∧
    (handleDragEnd tu ta r s).activities = s.activities := by
  have h : handleDragEnd tu ta r s = s := by
    simp [handleDragEnd, hd, hsame]
  exact ⟨h, by rw [h], by rw [h]⟩

/-- Witness of C7: the card of Jane Doe is dropped back into the column new. -/
theorem handleDragEnd_same_column_witness :
    (DragResult.mk "1000" ⟨"new", 0⟩ (some ⟨"new", 1⟩)).destination = some ⟨"new", 1⟩ ∧
    (DragResult.mk "1000" ⟨"new", 0⟩ (some ⟨"new", 1⟩)).source.droppableId
      = (Location.mk "new" 1).droppableId ∧
    handleDragEnd tickB tickB ⟨"1000", ⟨"new", 0⟩, some ⟨"new", 1⟩⟩ janeStore = janeStore :=
  ⟨rfl, rfl,
    (handleDragEnd_same_column tickB tickB ⟨"1000", ⟨"new", 0⟩, some ⟨"new", 1⟩⟩ ⟨"new", 1⟩
      janeStore rfl rfl).1⟩

/-! ## C8 -/

/-- The log after an effective drag: the handler calls updateLead, which
records an entry, and then records its own. -/
theorem handleDragEnd_activities (tu ta : Tick) (r : DragResult) (dest : Location)
    (s : Store) (hd : r.destination = some dest)
    (hdiff : r.source.droppableId ≠ dest.droppableId) :
    (handleDragEnd tu ta r s).activities =
      newActivity ta "stage_changed"
        (toStr (optProp (s.leads.find? fun l =>
            strictEq (prop l "id") (.str r.draggableId)) "name") ++ " moved to " ++
          stageLabelText dest.droppableId) (.str r.draggableId) ::
      (newActivity tu "lead_updated" "Lead updated: Unknown" (.str r.draggableId) ::
        s.activities.take 49).take 49 := by
  simp only [handleDragEnd, hd, bne_iff_ne, ne_eq, hdiff, not_false_eq_true, if_true]
  rfl

/-- C8, at the failing input. Dragging the card of Jane Doe from the column
new to the column qualified puts two entries on the log, lead_updated (with
the message "Lead updated: Unknown") and above it stage_changed; each of the
other mutators puts one. -/
theorem handleDragEnd_logs_twice :
    janeStore.activities.map (fun a => prop a "type") = [.str "lead_created"] ∧
    (handleDragEnd tickB tickB janeDrag janeStore).activities.map (fun a => prop a "type")
      = [.str "stage_changed", .str "lead_updated", .str "lead_created"] ∧
    (handleDragEnd tickB tickB janeDrag janeStore).activities.map (fun a => prop a "message")
      = [.str "Jane Doe moved to Qualified", .str "Lead updated: Unknown",
         .str "New lead added: Jane Doe"] ∧
    (handleDragEnd tickB tickB janeDrag janeStore).activities.length
      = janeStore.activities.length + 2 ∧
    (updateLead tickB (.str "1000") [("stage", .str "qualified")] janeStore).activities.length
      = janeStore.activities.length + 1 :=
  ⟨rfl, rfl, rfl, rfl, rfl⟩

/-- Each mutator other than an effective drag puts exactly one entry at the
head of the log, above the 49 newest entries of the previous log. -/
theorem mutators_log_once (t ta : Tick) (i : Val) (d : Obj) (x : String) (s : Store) :
    (∃ e, (addLead t ta d s).activities = e :: s.activities.take 49) ∧
    (∃ e, (updateLead ta i d s).activities = e :: s.activities.take 49) ∧
    (∃ e, (deleteLead ta i s).activities = e :: s.activities.take 49) ∧
    (∃ e, (addMeeting t ta d s).activities = e :: s.activities.take 49) ∧
    (∀ s', addNote t ta i x s = some s' → ∃ e, s'.activities = e :: s.activities.take 49) ∧
    (∀ s', addReminder t ta i d s = some s' →
      ∃ e, s'.activities = e :: s.activities.take 49) :=
  ⟨⟨_, rfl⟩, ⟨_, rfl⟩, ⟨_, rfl⟩, ⟨_, rfl⟩,
    fun _ h => ⟨_, (addNote_activities h).1⟩, fun _ h => ⟨_, (addReminder_activities h).1⟩⟩

/-! ## C9 -/

theorem mapLeads_id {f : Obj → Option Obj} {l : List Obj} (h : ∀ x ∈ l, f x = some x) :
    mapLeads f l = some l := by
  induction l with
  | nil => rfl
  | cons x rest ih =>
    simp only [mapLeads, h x (List.mem_cons_self _ _),
      ih (fun y hy => h y (List.mem_cons_of_mem _ hy))]

/-- C9 fails as stated: updateLead and addNote addressed to an id that no lead
has leave the leads unchanged but still put an entry on the activity log. -/
theorem unknown_id_counterexample :
    idAbsent (.str "42") janeStore.leads ∧
    (updateLead tickB (.str "42") [("name", .str "Zed")] janeStore).leads = janeStore.leads ∧
    (updateLead tickB (.str "42") [("name", .str "Zed")] janeStore).activities.map
      (fun a => prop a "message") = [.str "Lead updated: Zed", .str "New lead added: Jane Doe"] ∧
    ((addNote tickB tickB (.str "42") "hello" janeStore).map fun s =>
      s.activities.map fun a => prop a "message")
      = some [.str "Note added to lead", .str "New lead added: Jane Doe"] ∧
    janeStore.activities.length = 1 ∧
    (updateLead tickB (.str "42") [("name", .str "Zed")] janeStore).activities.length = 2 := by
  refine ⟨?_, rfl, rfl, rfl, rfl, rfl⟩
  intro L hL
  have : L = newLead tickA janeData := by simpa [janeStore, addLead, emptyStore] using hL
  subst this
  rfl

/-- C9, amended. updateLead and addNote addressed to an id that no lead has
leave the leads and the meetings unchanged and do not throw, but each still
records one activity (lead_updated, note_added) that carries the unknown id;
nothing reports the missing lead. -/
theorem unknown_id_leaves_leads (tn ta : Tick) (leadId : Val) (updates : Obj)
    (noteText : String) (s : Store) (habs : idAbsent leadId s.leads) :
    (updateLead ta leadId updates s).leads = s.leads ∧
    (updateLead ta leadId updates s).meetings = s.meetings ∧
    (updateLead ta leadId updates s).activities =
      newActivity ta "lead_updated"
        ("Lead updated: " ++ toStr (orElse (prop updates "name") (.str "Unknown"))) leadId ::
        s.activities.take 49 ∧
    addNote tn ta leadId noteText s =
      some { s with
        activities :=
          newActivity ta "note_added" "Note added to lead" leadId :: s.activities.take 49 } := by
  refine ⟨?_, rfl, rfl, ?_⟩
  · show s.leads.map _ = s.leads
    conv => rhs; rw [← List.map_id s.leads]
    apply List.map_congr_left
    intro L hL
    simp [habs L hL]
  · have : mapLeads (withNote (newNote tn noteText) leadId) s.leads = some s.leads :=
      mapLeads_id (fun L hL => by simp [withNote, habs L hL])
    simp only [addNote, this, Option.map_some']
    rfl

/-- Witness of C9: the id 42 in the store that holds only Jane Doe. -/
theorem unknown_id_leaves_leads_witness :
    idAbsent (.str "42") janeStore.leads ∧
    (updateLead tickB (.str "42") [("name", .str "Zed")] janeStore).leads = janeStore.leads ∧
    addNote tickB tickB (.str "42") "hello" janeStore =
      some { janeStore with
        activities :=
          newActivity tickB "note_added" "Note added to lead" (.str "42") ::
            janeStore.activities.take 49 } := by
  have habs : idAbsent (.str "42") janeStore.leads := by
    intro L hL
    have : L = newLead tickA janeData := by simpa [janeStore, addLead, emptyStore] using hL
    subst this
    rfl
  have h := unknown_id_leaves_leads tickB tickB (.str "42") [("name", .str "Zed")] "hello"
    janeStore habs
  exact ⟨habs, h.1, h.2.2.2⟩

/-! ## C10 -/

/-- C10. deleteLead removes exactly the leads whose id is the given id: the
leads that remain are the leads with another id, each unchanged and in the
same relative order; the meetings are unchanged; and afterwards the lookup
made when a meeting is rendered finds no lead for a meeting whose leadId is
the deleted id (the lookup returns nothing, it does not throw). -/
theorem deleteLead_removes (ta : Tick) (leadId : Val) (s : Store) :
    (deleteLead ta leadId s).leads
      = s.leads.filter (fun l => !strictEq (prop l "id") leadId) ∧
    (deleteLead ta leadId s).leads.Sublist s.leads ∧
    (∀ L, L ∈ (deleteLead ta leadId s).leads ↔
      L ∈ s.leads ∧ strictEq (prop L "id") leadId = false) ∧
    (deleteLead ta leadId s).meetings = s.meetings ∧
    (∀ m, strictEq (prop m "leadId") leadId = true →
      findLead (deleteLead ta leadId s).leads m = none) := by
  refine ⟨rfl, List.filter_sublist _, ?_, rfl, ?_⟩
  · intro L
    simp [deleteLead, List.mem_filter]
  · intro m hm
    have hm' := strictEq_eq hm
    simp only [findLead, deleteLead, List.find?_eq_none, List.mem_filter, hm']
    intro L hL
    simpa using hL.2

/-- Witness of C10: Jane Doe is deleted while a meeting still refers to her. -/
theorem deleteLead_removes_witness :
    strictEq (prop [("title", .str "Demo"), ("leadId", .str "1000")] "leadId") (.str "1000")
      = true ∧
    (deleteLead tickB (.str "1000") janeStore).leads = [] ∧
    findLead (deleteLead tickB (.str "1000") janeStore).leads
      [("title", .str "Demo"), ("leadId", .str "1000")] = none :=
  ⟨rfl, rfl,
    (deleteLead_removes tickB (.str "1000") janeStore).2.2.2.2
      [("title", .str "Demo"), ("leadId", .str "1000")] rfl⟩

/-! ## Lemmas on single calls -/

theorem updateLead_getElem (t : Tick) (leadId : Val) (u : Obj) (s : Store) (j : Nat) :
    (updateLead t leadId u s).leads[j]? =
      (s.leads[j]?).map fun lead =>
        if strictEq (prop lead "id") leadId then lead ++ u else lead := by
  simp [updateLead, List.getElem?_map]

theorem handleDragEnd_effective (tu ta : Tick) (r : DragResult) (dest : Location)
    (s : Store) (hd : r.destination = some dest)
    (hne : r.source.droppableId ≠ dest.droppableId) :
    (handleDragEnd tu ta r s).leads =
      (updateLead tu (.str r.draggableId) [("stage", .str dest.droppableId)] s).leads ∧
    (handleDragEnd tu ta r s).meetings = s.meetings ∧
    (handleDragEnd tu ta r s).activities.head? =
      some (newActivity ta "stage_changed"
        (toStr (optProp (s.leads.find? fun l =>
            strictEq (prop l "id") (.str r.draggableId)) "name") ++ " moved to " ++
          stageLabelText dest.droppableId) (.str r.draggableId)) := by
  have h : handleDragEnd tu ta r s =
      { updateLead tu (.str r.draggableId) [("stage", .str dest.droppableId)] s with
        activities :=
          addActivity ta "stage_changed"
            (toStr (optProp (s.leads.find? fun l =>
                strictEq (prop l "id") (.str r.draggableId)) "name") ++ " moved to " ++
              stageLabelText dest.droppableId)
            (.str r.draggableId)
            (updateLead tu (.str r.draggableId)
              [("stage", .str dest.droppableId)] s).activities } := by
    simp [handleDragEnd, hd, hne]
  rw [h]
  exact ⟨rfl, rfl, rfl⟩

theorem stageLabelText_of_mem (st : Stage) (h : st ∈ PIPELINE_STAGES) :
    stageLabelText st.id = st.label := by
  simp only [PIPELINE_STAGES, List.mem_cons, List.mem_singleton, List.not_mem_nil,
    or_false] at h
  rcases h with rfl | rfl | rfl | rfl | rfl | rfl <;> rfl

theorem stageLabelText_of_not_mem (x : String) (h : stageIds.contains x = false) :
    stageLabelText x = "undefined" := by
  have hx : ∀ st ∈ PIPELINE_STAGES, (st.id == x) = false := by
    intro st hst
    cases hb : (st.id == x)
    · rfl
    · exfalso
      have hxe : st.id = x := by simpa using hb
      have : stageIds.contains x = true := by
        simp only [List.contains_iff_exists_mem_beq, stageIds]
        exact ⟨st.id, List.mem_map_of_mem _ hst, by simp [hxe]⟩
      rw [h] at this
      exact Bool.noConfusion this
  have hnone : (PIPELINE_STAGES.find? fun st => st.id == x) = none := by
    rw [List.find?_eq_none]
    intro st hst
    simp [hx st hst]
  simp [stageLabelText, hnone]

/-! ## C13 -/

/-- C13 fails as stated: a drag to a column whose id is not in the catalogue,
and updateLead with such a stage patch, store that id as the stage of the lead
and put entries on the activity log. -/
theorem invalid_stage_counterexample :
    isStageId (.str "attic") = false ∧
    janeStore.leads.map (fun L => prop L "stage") = [.str "new"] ∧
    (handleDragEnd tickB tickB ⟨"1000", ⟨"new", 0⟩, some ⟨"attic", 0⟩⟩ janeStore).leads.map
      (fun L => prop L "stage") = [.str "attic"] ∧
    (handleDragEnd tickB tickB ⟨"1000", ⟨"new", 0⟩, some ⟨"attic", 0⟩⟩
      janeStore).activities.map (fun a => prop a "message")
      = [.str "Jane Doe moved to undefined", .str "Lead updated: Unknown",
         .str "New lead added: Jane Doe"] ∧
    (updateLead tickB (.str "1000") [("stage", .str "attic")] janeStore).leads.map
      (fun L => prop L "stage") = [.str "attic"] ∧
    (updateLead tickB (.str "1000") [("stage", .str "attic")] janeStore).activities.length
      = janeStore.activities.length + 1 ∧
    Val.str "attic" ≠ Val.str "new" :=
  ⟨rfl, rfl, rfl, rfl, rfl, rfl, by simp⟩

/-- C13, amended. A stage id outside the catalogue is not rejected. For every
store and every drag whose destination column differs from its source column
and is not a catalogue id, handleDragEnd gives that id as stage to every lead
whose id is the dragged id, leaves the other leads as they are, and puts at
the head of the log a stage_changed entry whose message ends with the text
undefined in place of a label; updateLead with a patch that carries a stage
writes that stage, whatever it is, to every lead with the given id and records
one lead_updated entry. The only drags that change nothing are those without
destination or with the source column as destination. -/
theorem stage_change_unvalidated (tu ta : Tick) (r : DragResult) (dest : Location)
    (s : Store) (hd : r.destination = some dest)
    (hne : r.source.droppableId ≠ dest.droppableId)
    (hbad : stageIds.contains dest.droppableId = false) :
    (∀ (i : Nat) (M : Obj), s.leads[i]? = some M →
      ∃ M', (handleDragEnd tu ta r s).leads[i]? = some M' ∧
        (strictEq (prop M "id") (.str r.draggableId) = true →
          prop M' "stage" = .str dest.droppableId) ∧
        (strictEq (prop M "id") (.str r.draggableId) = false → M' = M)) ∧
    (∃ e, (handleDragEnd tu ta r s).activities.head? = some e ∧
      prop e "type" = .str "stage_changed" ∧
      prop e "message" = .str (toStr (optProp (s.leads.find? fun l =>
        strictEq (prop l "id") (.str r.draggableId)) "name") ++ " moved to " ++ "undefined")) ∧
    (∀ (t : Tick) (leadId : Val) (u : Obj) (i : Nat) (M : Obj), hasProp u "stage" = true →
      s.leads[i]? = some M → strictEq (prop M "id") leadId = true →
      ∃ M', (updateLead t leadId u s).leads[i]? = some M' ∧
        prop M' "stage" = prop u "stage" ∧
        (updateLead t leadId u s).activities.head? =
          some (newActivity t "lead_updated"
            ("Lead updated: " ++ toStr (orElse (prop u "name") (.str "Unknown"))) leadId)) ∧
    (∀ r0 : DragResult, r0.destination = none → handleDragEnd tu ta r0 s = s) := by
  obtain ⟨hleads, -, hhead⟩ := handleDragEnd_effective tu ta r dest s hd hne
  refine ⟨?_, ?_, ?_, ?_⟩
  · intro i M hM
    rw [hleads, updateLead_getElem, hM]
    refine ⟨_, rfl, ?_, ?_⟩
    · intro h
      simp only [h, if_true]
      rw [prop_append]
      rfl
    · intro h
      simp [h]
  · refine ⟨_, hhead, rfl, ?_⟩
    rw [stageLabelText_of_not_mem _ hbad]
    rfl
  · intro t leadId u i M hu hM hid
    rw [updateLead_getElem, hM]
    refine ⟨_, rfl, ?_, rfl⟩
    simp only [hid, if_true]
    rw [prop_append, hu]
    rfl
  · intro r0 h0
    simp [handleDragEnd, h0]

/-- Witness of C13: the card of Jane Doe is dropped on a column named attic. -/
theorem stage_change_unvalidated_witness :
    (DragResult.mk "1000" ⟨"new", 0⟩ (some ⟨"attic", 0⟩)).destination = some ⟨"attic", 0⟩ ∧
    stageIds.contains "attic" = false ∧
    janeStore.leads[0]? = some (newLead tickA janeData) ∧
    ∃ M', (handleDragEnd tickB tickB ⟨"1000", ⟨"new", 0⟩, some ⟨"attic", 0⟩⟩
        janeStore).leads[0]? = some M' ∧
      prop M' "stage" = .str "attic" := by
  obtain ⟨h, -⟩ := stage_change_unvalidated tickB tickB
    ⟨"1000", ⟨"new", 0⟩, some ⟨"attic", 0⟩⟩ ⟨"attic", 0⟩ janeStore rfl (by decide) rfl
  obtain ⟨M', hM', hst, -⟩ := h 0 (newLead tickA janeData) rfl
  exact ⟨rfl, rfl, rfl, M', hM', hst rfl⟩

/-! ## C14 -/

/-- C14 fails as stated: addLead given data without name and email still
prepends a lead and records an activity, and addReminder given data without
date and note still appends a reminder and records an activity. -/
theorem no_validation_counterexample :
    hasProp [] "name" = false ∧ hasProp [] "email" = false ∧
    hasProp [] "date" = false ∧ hasProp [] "note" = false ∧
    (addLead tickA tickA [] emptyStore).leads.length = 1 ∧
    (addLead tickA tickA [] emptyStore).activities.map (fun a => prop a "message")
      = [.str "New lead added: undefined"] ∧
    emptyStore.leads.length = 0 ∧ emptyStore.activities.length = 0 ∧
    janeStore.leads.map (fun L => prop L "reminders") = [.arr []] ∧
    (addReminder tickB tickB (.str "1000") [] janeStore).map
      (fun s => s.leads.map fun L => prop L "reminders")
      = some [.arr [.obj (newReminder tickB [])]] ∧
    (addReminder tickB tickB (.str "1000") [] janeStore).map
      (fun s => s.activities.length) = some 2 ∧
    janeStore.activities.length = 1 :=
  ⟨rfl, rfl, rfl, rfl, rfl, rfl, rfl, rfl, rfl, rfl, rfl, rfl⟩

/-- C14, amended. The mutators do not validate; the reminder form does. The
handler handleAddReminder of the lead modal leaves the store unchanged when
the date or the note of the reminder is missing or empty, or when no lead is
open, and otherwise passes the data on to addReminder. addReminder itself puts
a reminder_set entry at the head of the log whenever it returns, and addLead
accepts any data: it always prepends a lead and puts a lead_created entry at
the head of the log. -/
theorem validation_in_handler (tr ta : Tick) (lead : Option Obj) (d : Obj) (s : Store) :
    ((truthy (prop d "date") = false ∨ truthy (prop d "note") = false ∨ lead = none) →
      handleAddReminder tr ta lead d s = some s) ∧
    (∀ L, lead = some L → truthy (prop d "date") = true → truthy (prop d "note") = true →
      handleAddReminder tr ta lead d s = addReminder tr ta (prop L "id") d s) ∧
    (∀ (leadId : Val) (s' : Store), addReminder tr ta leadId d s = some s' →
      s'.activities.head? =
        some (newActivity ta "reminder_set" "Follow-up reminder set" leadId)) ∧
    (∀ (tl : Tick) (leadData : Obj),
      (addLead tl ta leadData s).leads = newLead tl leadData :: s.leads ∧
      (addLead tl ta leadData s).activities.head? =
        some (newActivity ta "lead_created"
          ("New lead added: " ++ toStr (prop leadData "name")) .undefined)) := by
  refine ⟨?_, ?_, ?_, fun _ _ => ⟨rfl, rfl⟩⟩
  · rintro (h | h | h)
    · simp [handleAddReminder, h]
    · simp [handleAddReminder, h]
    · simp [handleAddReminder, h]
  · intro L hL hd hn
    simp [handleAddReminder, hL, hd, hn, optProp]
  · intro leadId s' h
    rw [(addReminder_activities h).1]
    rfl

/-- Witness of C14: a reminder form with a date and an empty note, and one
with both, submitted for Jane Doe. -/
theorem validation_in_handler_witness :
    truthy (prop [("date", .str "2024-02-01"), ("note", .str "")] "note") = false ∧
    handleAddReminder tickB tickB (some (newLead tickA janeData))
      [("date", .str "2024-02-01"), ("note", .str "")] janeStore = some janeStore ∧
    handleAddReminder tickB tickB (some (newLead tickA janeData))
      [("date", .str "2024-02-01"), ("note", .str "call")] janeStore
      = addReminder tickB tickB (.str "1000")
          [("date", .str "2024-02-01"), ("note", .str "call")] janeStore :=
  ⟨rfl,
    (validation_in_handler tickB tickB (some (newLead tickA janeData))
      [("date", .str "2024-02-01"), ("note", .str "")] janeStore).1 (Or.inr (Or.inl rfl)),
    (validation_in_handler tickB tickB (some (newLead tickA janeData))
      [("date", .str "2024-02-01"), ("note", .str "call")] janeStore).2.1 _ rfl rfl rfl⟩

/-! ## C15 -/

/-- C15. addLead prepends. After addLead(data) the leads are the new lead
followed by the previous leads, so the count grows by one; the meetings are
unchanged; the new lead has empty notes and reminders whatever the data
carries; and the head of the activity log has type lead_created and the
message "New lead added: " followed by the text of data.name, which is the
name itself when the name is a string. -/
theorem addLead_prepends (tl ta : Tick) (d : Obj) (s : Store) :
    (addLead tl ta d s).leads = newLead tl d :: s.leads ∧
    (addLead tl ta d s).leads.length = s.leads.length + 1 ∧
    (addLead tl ta d s).leads.head? = some (newLead tl d) ∧
    (addLead tl ta d s).meetings = s.meetings ∧
    prop (newLead tl d) "notes" = .arr [] ∧
    prop (newLead tl d) "reminders" = .arr [] ∧
    ∃ e, (addLead tl ta d s).activities.head? = some e ∧
      prop e "type" = .str "lead_created" ∧
      prop e "message" = .str ("New lead added: " ++ toStr (prop d "name")) ∧
      ∀ x, prop d "name" = .str x → prop e "message" = .str ("New lead added: " ++ x) := by
  refine ⟨rfl, by simp [addLead], rfl, rfl, ?_, ?_, _, rfl, rfl, rfl, ?_⟩
  · unfold newLead; rw [prop_append]; rfl
  · unfold newLead; rw [prop_append]; rfl
  · intro x hx
    show Val.str ("New lead added: " ++ toStr (prop d "name")) = _
    rw [hx]
    rfl

/-- Witness of C15: the example scenario, Jane Doe added to the empty store. -/
theorem addLead_prepends_witness :
    prop janeData "name" = .str "Jane Doe" ∧
    (addLead tickA tickA janeData emptyStore).leads.length = 1 ∧
    ∃ e, (addLead tickA tickA janeData emptyStore).activities.head? = some e ∧
      prop e "message" = .str "New lead added: Jane Doe" := by
  obtain ⟨-, hlen, -, -, -, -, e, he, -, -, hmsg⟩ :=
    addLead_prepends tickA tickA janeData emptyStore
  exact ⟨rfl, hlen, e, he, hmsg "Jane Doe" rfl⟩

/-! ## C16 -/

/-- C16. An effective stage change names the lead and the destination label.
Let L be the lead that the lookup by the dragged id finds, let the source
column of the drag be the stage of L and the destination a catalogue stage
different from it. After handleDragEnd every lead with the dragged id, L among
them, has the destination as stage, and the head of the activity log has type
stage_changed, leadId the dragged id and the message made of the text of
L.name, " moved to " and the label of the destination stage. -/
theorem handleDragEnd_names_lead (tu ta : Tick) (r : DragResult) (dest : Location)
    (st : Stage) (s : Store) (L : Obj)
    (hd : r.destination = some dest)
    (hst : st ∈ PIPELINE_STAGES) (hdest : dest.droppableId = st.id)
    (hfind : (s.leads.find? fun l => strictEq (prop l "id") (.str r.draggableId)) = some L)
    (hsrc : prop L "stage" = .str r.source.droppableId)
    (hne : prop L "stage" ≠ .str st.id) :
    (∀ (i : Nat) (M : Obj), s.leads[i]? = some M →
      strictEq (prop M "id") (.str r.draggableId) = true →
      ∃ M', (handleDragEnd tu ta r s).leads[i]? = some M' ∧
        prop M' "stage" = .str st.id ∧
        ∀ k, k ≠ "stage" → prop M' k = prop M k) ∧
    (∃ i : Nat, s.leads[i]? = some L ∧
      strictEq (prop L "id") (.str r.draggableId) = true) ∧
    ∃ e, (handleDragEnd tu ta r s).activities.head? = some e ∧
      prop e "type" = .str "stage_changed" ∧
      prop e "leadId" = .str r.draggableId ∧
      prop e "leadId" = prop L "id" ∧
      prop e "message" = .str (toStr (prop L "name") ++ " moved to " ++ st.label) ∧
      ∀ x, prop L "name" = .str x →
        prop e "message" = .str (x ++ " moved to " ++ st.label) := by
  have hne' : r.source.droppableId ≠ dest.droppableId := by
    intro h
    apply hne
    rw [hsrc, h, hdest]
  obtain ⟨hleads, -, hhead⟩ := handleDragEnd_effective tu ta r dest s hd hne'
  refine ⟨?_, ?_, ?_⟩
  · intro i M hM hid
    rw [hleads, updateLead_getElem, hM]
    refine ⟨_, rfl, ?_, ?_⟩
    · simp only [hid, if_true]
      rw [prop_append, hdest]
      rfl
    · intro k hk
      simp only [hid, if_true]
      rw [prop_append]
      have : hasProp [("stage", Val.str dest.droppableId)] k = false := by
        simp [hasProp, Ne.symm hk]
      rw [this]
      rfl
  · have hmem := List.mem_of_find?_eq_some hfind
    have hp := List.find?_some hfind
    obtain ⟨i, hi, hiL⟩ := List.getElem_of_mem hmem
    exact ⟨i, by rw [List.getElem?_eq_getElem hi, hiL], hp⟩
  · have hmsg : prop (newActivity ta "stage_changed"
        (toStr (optProp (s.leads.find? fun l =>
            strictEq (prop l "id") (.str r.draggableId)) "name") ++ " moved to " ++
          stageLabelText dest.droppableId) (.str r.draggableId)) "message"
        = .str (toStr (prop L "name") ++ " moved to " ++ st.label) := by
      rw [hfind, hdest, stageLabelText_of_mem st hst]
      rfl
    refine ⟨_, hhead, rfl, rfl, ?_, hmsg, ?_⟩
    · have hp := List.find?_some hfind
      have hp' : strictEq (prop L "id") (.str r.draggableId) = true := hp
      rw [strictEq_eq hp']
      rfl
    intro x hx
    rw [hmsg, hx]
    rfl

/-- Witness of C16: Jane Doe is dragged from the column new to the column
qualified. -/
theorem handleDragEnd_names_lead_witness :
    janeDrag.destination = some ⟨"qualified", 0⟩ ∧
    (⟨"qualified", "Qualified", "#8B5CF6"⟩ : Stage) ∈ PIPELINE_STAGES ∧
    (janeStore.leads.find? fun l => strictEq (prop l "id") (.str janeDrag.draggableId))
      = some (newLead tickA janeData) ∧
    prop (newLead tickA janeData) "stage" = .str janeDrag.source.droppableId ∧
    prop (newLead tickA janeData) "name" = .str "Jane Doe" ∧
    ∃ e, (handleDragEnd tickB tickB janeDrag janeStore).activities.head? = some e ∧
      prop e "message" = .str "Jane Doe moved to Qualified" := by
  have hmem : (⟨"qualified", "Qualified", "#8B5CF6"⟩ : Stage) ∈ PIPELINE_STAGES := by
    simp [PIPELINE_STAGES]
  obtain ⟨-, -, e, he, -, -, -, -, hmsg⟩ :=
    handleDragEnd_names_lead tickB tickB janeDrag ⟨"qualified", 0⟩
      ⟨"qualified", "Qualified", "#8B5CF6"⟩ janeStore (newLead tickA janeData)
      rfl hmem rfl rfl rfl (by simp [newLead, prop, hasProp, janeData, orElse, truthy])
  exact ⟨rfl, hmem, rfl, rfl, rfl, e, he, hmsg "Jane Doe" rfl⟩

/-! ## C20 -/

theorem newActivity_leadId (t : Tick) (ty msg : String) (v : Val) (h : v ≠ .undefined) :
    prop (newActivity t ty msg v) "leadId" = v := by
  cases v <;> first | exact absurd rfl h | rfl

/-- C20. addMeeting prepends and logs with the lead reference. After
addMeeting(data) the meetings are a new meeting followed by the previous
meetings; the new meeting carries every field of the data except that
createdAt is stamped by the mutator (so title, leadId and dateTime are those
of the data); the leads are unchanged; and the head of the activity log has
type meeting_scheduled, the message "Meeting scheduled: " followed by the
text of the title, and leadId equal to data.leadId when the data supplies one. -/
theorem addMeeting_prepends (tm ta : Tick) (d : Obj) (s : Store) :
    (∃ m, (addMeeting tm ta d s).meetings = m :: s.meetings ∧
      (∀ k, hasProp d k = true → k ≠ "createdAt" → prop m k = prop d k) ∧
      prop m "createdAt" = .str tm.iso ∧
      (hasProp d "id" = false → prop m "id" = .str (toString tm.ms))) ∧
    (addMeeting tm ta d s).leads = s.leads ∧
    ∃ e, (addMeeting tm ta d s).activities.head? = some e ∧
      prop e "type" = .str "meeting_scheduled" ∧
      prop e "message" = .str ("Meeting scheduled: " ++ toStr (prop d "title")) ∧
      (prop d "leadId" ≠ .undefined → prop e "leadId" = prop d "leadId") := by
  refine ⟨⟨_, rfl, ?_, ?_, ?_⟩, rfl, _, rfl, rfl, rfl, ?_⟩
  · intro k hk hne
    rw [prop_append]
    have : hasProp [("createdAt", Val.str tm.iso)] k = false := by
      simp [hasProp, Ne.symm hne]
    rw [this]
    simp only [Bool.false_eq_true, if_false]
    rw [prop_append, hk]
    rfl
  · rw [prop_append]; rfl
  · intro hid
    rw [prop_append]
    have : hasProp [("createdAt", Val.str tm.iso)] "id" = false := rfl
    rw [this]
    simp only [Bool.false_eq_true, if_false]
    rw [prop_append, hid]
    rfl
  · intro h
    exact newActivity_leadId _ _ _ _ h

/-- Witness of C20: a demo with Jane Doe is scheduled. -/
theorem addMeeting_prepends_witness :
    prop [("title", .str "Demo"), ("leadId", .str "1000"),
      ("dateTime", .str "2024-03-01T10:00")] "leadId" ≠ .undefined ∧
    (addMeeting tickB tickB [("title", .str "Demo"), ("leadId", .str "1000"),
      ("dateTime", .str "2024-03-01T10:00")] janeStore).leads = janeStore.leads ∧
    ∃ e, (addMeeting tickB tickB [("title", .str "Demo"), ("leadId", .str "1000"),
        ("dateTime", .str "2024-03-01T10:00")] janeStore).activities.head? = some e ∧
      prop e "type" = .str "meeting_scheduled" ∧ prop e "leadId" = .str "1000" := by
  have hne : prop [("title", .str "Demo"), ("leadId", .str "1000"),
      ("dateTime", .str "2024-03-01T10:00")] "leadId" ≠ Val.undefined := by
    simp [prop, hasProp]
  obtain ⟨-, hleads, e, he, hty, -, hid⟩ := addMeeting_prepends tickB tickB
    [("title", .str "Demo"), ("leadId", .str "1000"), ("dateTime", .str "2024-03-01T10:00")]
    janeStore
  exact ⟨hne, hleads, e, he, hty, (hid hne).trans rfl⟩

/-! ## Lemmas on the maps of addNote and addReminder -/

theorem mapLeads_getElem {f : Obj → Option Obj} {l l' : List Obj}
    (h : mapLeads f l = some l') (i : Nat) (x : Obj) (hx : l[i]? = some x) :
    ∃ y, f x = some y ∧ l'[i]? = some y := by
  induction l generalizing l' i with
  | nil => simp at hx
  | cons a rest ih =>
    simp only [mapLeads] at h
    cases ha : f a with
    | none => simp [ha] at h
    | some a' =>
      cases hr : mapLeads f rest with
      | none => simp [ha, hr] at h
      | some r' =>
        simp only [ha, hr, Option.some.injEq] at h
        subst h
        cases i with
        | zero =>
          simp only [List.getElem?_cons_zero, Option.some.injEq] at hx
          subst hx
          exact ⟨a', ha, by simp⟩
        | succ j =>
          simp only [List.getElem?_cons_succ] at hx
          obtain ⟨y, hy, hy'⟩ := ih hr j hx
          exact ⟨y, hy, by simpa using hy'⟩

theorem mapLeads_isSome {f : Obj → Option Obj} {l : List Obj}
    (hf : ∀ x ∈ l, ∃ y, f x = some y) : ∃ l', mapLeads f l = some l' := by
  induction l with
  | nil => exact ⟨[], rfl⟩
  | cons a rest ih =>
    obtain ⟨a', ha⟩ := hf a (List.mem_cons_self _ _)
    obtain ⟨r', hr⟩ := ih (fun x hx => hf x (List.mem_cons_of_mem _ hx))
    exact ⟨a' :: r', by simp [mapLeads, ha, hr]⟩

theorem spreadItems_listLike (v : Val) (h : listLike v = true) :
    spreadItems (orElse v (.arr [])) = some (itemsOf v) := by
  cases v with
  | arr xs => rfl
  | undefined => rfl
  | null => rfl
  | bool b => cases b <;> simp_all [listLike, truthy, orElse, spreadItems, itemsOf]
  | num n =>
    have : n = 0 := by simpa [listLike, truthy] using h
    subst this
    rfl
  | str x =>
    have : x = "" := by simpa [listLike, truthy] using h
    subst this
    rfl
  | obj o => simp [listLike, truthy] at h

theorem withNote_of_listLike (note : Obj) (leadId : Val) (M : Obj)
    (h : strictEq (prop M "id") leadId = true → listLike (prop M "notes") = true) :
    withNote note leadId M =
      some (if strictEq (prop M "id") leadId then
        M ++ [("notes", .arr (.obj note :: itemsOf (prop M "notes")))] else M) := by
  unfold withNote
  split
  · next hid => rw [spreadItems_listLike _ (h hid)]; rfl
  · rfl

theorem withReminder_of_listLike (rem : Obj) (leadId : Val) (M : Obj)
    (h : strictEq (prop M "id") leadId = true → listLike (prop M "reminders") = true) :
    withReminder rem leadId M =
      some (if strictEq (prop M "id") leadId then
        M ++ [("reminders", .arr (itemsOf (prop M "reminders") ++ [.obj rem]))] else M) := by
  unfold withReminder
  split
  · next hid => rw [spreadItems_listLike _ (h hid)]; rfl
  · rfl

theorem prop_append_single_ne (M : Obj) (k0 : String) (v : Val) (k : String) (h : k ≠ k0) :
    prop (M ++ [(k0, v)]) k = prop M k ∧ hasProp (M ++ [(k0, v)]) k = hasProp M k := by
  have hk : hasProp [(k0, v)] k = false := by simp [hasProp, Ne.symm h]
  rw [prop_append, hasProp_append, hk]
  simp

theorem prop_append_single (M : Obj) (k0 : String) (v : Val) :
    prop (M ++ [(k0, v)]) k0 = v := by
  have hk : hasProp [(k0, v)] k0 = true := by simp [hasProp]
  rw [prop_append, hk]
  simp [prop, hasProp]

/-! ## C17 -/

/-- C17. addNote prepends to the owning lead only. When the notes of every
lead with the given id hold a list (an array, or nothing), addNote returns,
the collection keeps its length and the meetings are unchanged; the note
built carries the given text; a lead with the given id gets as notes the new
note followed by its previous notes, every other field of it (reminders and
stage included) keeps its value; and every lead with another id is
unchanged. -/
theorem addNote_prepends (tn ta : Tick) (leadId : Val) (text : String) (s : Store)
    (hnotes : ∀ M ∈ s.leads, strictEq (prop M "id") leadId = true →
      listLike (prop M "notes") = true) :
    ∃ s', addNote tn ta leadId text s = some s' ∧
      s'.leads.length = s.leads.length ∧ s'.meetings = s.meetings ∧
      prop (newNote tn text) "text" = .str text ∧
      ∀ (i : Nat) (M : Obj), s.leads[i]? = some M →
        ∃ M', s'.leads[i]? = some M' ∧
          (strictEq (prop M "id") leadId = false → M' = M) ∧
          (strictEq (prop M "id") leadId = true →
            prop M' "notes" = .arr (.obj (newNote tn text) :: itemsOf (prop M "notes")) ∧
            ∀ k, k ≠ "notes" → prop M' k = prop M k ∧ hasProp M' k = hasProp M k) := by
  obtain ⟨l', hl'⟩ := mapLeads_isSome (f := withNote (newNote tn text) leadId)
    (l := s.leads) (fun M hM => ⟨_, withNote_of_listLike _ _ M (hnotes M hM)⟩)
  refine ⟨{ s with
      leads := l'
      activities := addActivity ta "note_added" "Note added to lead" leadId s.activities },
    by simp only [addNote, hl', Option.map_some'], mapLeads_eq_some_length hl', rfl, rfl, ?_⟩
  intro i M hM
  obtain ⟨M', hf, hM'⟩ := mapLeads_getElem hl' i M hM
  have hmem : M ∈ s.leads := List.getElem?_mem hM
  rw [withNote_of_listLike _ _ M (hnotes M hmem), Option.some.injEq] at hf
  refine ⟨M', hM', ?_, ?_⟩
  · intro h
    rw [← hf]
    simp [h]
  · intro h
    rw [← hf]
    simp only [h, if_true]
    exact ⟨prop_append_single _ _ _, fun k hk => prop_append_single_ne _ _ _ k hk⟩

/-- Witness of C17: a note for Jane Doe in the store of Bob Ray and Jane Doe. -/
theorem addNote_prepends_witness :
    (∀ M ∈ twoLeadStore.leads, strictEq (prop M "id") (.str "1000") = true →
      listLike (prop M "notes") = true) ∧
    ∃ s', addNote tickB tickB (.str "1000") "call back" twoLeadStore = some s' ∧
      s'.leads.map (fun L => prop L "notes")
        = [.arr [], .arr [.obj (newNote tickB "call back")]] := by
  have hnotes : ∀ M ∈ twoLeadStore.leads, strictEq (prop M "id") (.str "1000") = true →
      listLike (prop M "notes") = true := by
    intro M hM _
    have : M = newLead tickB bobData ∨ M = newLead tickA janeData := by
      simpa [twoLeadStore, janeStore, addLead, emptyStore] using hM
    rcases this with rfl | rfl <;> rfl
  obtain ⟨s', hs', -⟩ := addNote_prepends tickB tickB (.str "1000") "call back"
    twoLeadStore hnotes
  refine ⟨hnotes, s', hs', ?_⟩
  have : addNote tickB tickB (.str "1000") "call back" twoLeadStore
      = some ⟨[newLead tickB bobData,
          newLead tickA janeData ++ [("notes", .arr [.obj (newNote tickB "call back")])]],
        twoLeadStore.meetings,
        addActivity tickB "note_added" "Note added to lead" (.str "1000")
          twoLeadStore.activities⟩ := rfl
  rw [this, Option.some.injEq] at hs'
  rw [← hs']
  rfl

/-! ## C18 -/

theorem trim_of_isBlank (text : String) (h : isBlank text = true) : trim text = "" := by
  have : text.toList.dropWhile isWhiteSpace = [] := by
    rw [List.dropWhile_eq_nil_iff]
    intro c hc
    exact List.all_eq_true.mp h c hc
  unfold trim
  rw [this]
  rfl

theorem trim_of_not_isBlank (text : String) (h : isBlank text = false) : trim text ≠ "" := by
  have h1 : text.toList.dropWhile isWhiteSpace ≠ [] := by
    intro hnil
    rw [List.dropWhile_eq_nil_iff] at hnil
    have : isBlank text = true := List.all_eq_true.mpr hnil
    rw [h] at this
    exact Bool.noConfusion this
  obtain ⟨c, rest, hc⟩ := List.exists_cons_of_ne_nil h1
  have hcws : isWhiteSpace c = false := by
    have := List.head_dropWhile_not isWhiteSpace text.toList h1
    simp only [hc, List.head_cons] at this
    simpa using this
  have h2 : (text.toList.dropWhile isWhiteSpace).reverse.dropWhile isWhiteSpace ≠ [] := by
    intro hnil
    rw [List.dropWhile_eq_nil_iff] at hnil
    have := hnil c (by rw [hc]; simp)
    rw [hcws] at this
    exact Bool.noConfusion this
  intro ht
  have hdata := congrArg String.data ht
  simp only [trim] at hdata
  exact h2 (List.reverse_eq_nil_iff.mp hdata)

/-- C18 fails as stated: addNote called with a text of three spaces adds a note
with that text to the lead and records an activity. -/
theorem blank_note_counterexample :
    isBlank "   " = true ∧ trim "   " = "" ∧
    janeStore.leads.map (fun L => prop L "notes") = [.arr []] ∧
    (addNote tickB tickB (.str "1000") "   " janeStore).map
      (fun s => s.leads.map fun L => prop L "notes")
      = some [.arr [.obj [("id", .str "2000"), ("text", .str "   "),
          ("timestamp", .str "2024-01-01T00:00:02.000Z")]]] ∧
    (addNote tickB tickB (.str "1000") "   " janeStore).map
      (fun s => s.activities.map fun a => prop a "type")
      = some [.str "note_added", .str "lead_created"] ∧
    janeStore.activities.length = 1 :=
  ⟨rfl, rfl, rfl, rfl, rfl, rfl⟩

/-- C18, amended. The check of the note text is made by the note form, not by
addNote. The handler handleAddNote of the lead modal leaves the store
unchanged when the text is empty or made of white space only, or when no lead
is open; with any other text and an open lead it calls addNote with the id of
that lead and the text as typed. addNote itself stores any text: whenever it
returns, it has put a note_added entry at the head of the log. -/
theorem blank_note_stopped_by_handler (tn ta : Tick) (lead : Option Obj) (text : String)
    (s : Store) :
    ((isBlank text = true ∨ lead = none) → handleAddNote tn ta lead text s = some s) ∧
    (∀ L, lead = some L → isBlank text = false →
      handleAddNote tn ta lead text s = addNote tn ta (prop L "id") text s) ∧
    (∀ (leadId : Val) (s' : Store), addNote tn ta leadId text s = some s' →
      s'.activities.head? =
        some (newActivity ta "note_added" "Note added to lead" leadId)) := by
  refine ⟨?_, ?_, ?_⟩
  · rintro (h | h)
    · simp [handleAddNote, trim_of_isBlank text h, truthy]
    · simp [handleAddNote, h]
  · intro L hL hb
    have := trim_of_not_isBlank text hb
    simp [handleAddNote, hL, truthy, this, optProp]
  · intro leadId s' h
    rw [(addNote_activities h).1]
    rfl

/-- Witness of C18: a blank text and a real text typed for Jane Doe. -/
theorem blank_note_stopped_by_handler_witness :
    isBlank " \t " = true ∧ isBlank "call back" = false ∧
    handleAddNote tickB tickB (some (newLead tickA janeData)) " \t " janeStore
      = some janeStore ∧
    handleAddNote tickB tickB (some (newLead tickA janeData)) "call back" janeStore
      = addNote tickB tickB (.str "1000") "call back" janeStore :=
  ⟨rfl, rfl,
    (blank_note_stopped_by_handler tickB tickB (some (newLead tickA janeData)) " \t "
      janeStore).1 (Or.inl rfl),
    (blank_note_stopped_by_handler tickB tickB (some (newLead tickA janeData)) "call back"
      janeStore).2.1 _ rfl rfl⟩

/-! ## C19 -/

theorem prop_newReminder (t : Tick) (d : Obj) (k : String) (hk : k ≠ "createdAt") :
    prop (newReminder t d) k =
      if hasProp d k then prop d k else if k = "id" then .str (toString t.ms)
        else .undefined := by
  unfold newReminder
  rw [(prop_append_single_ne _ _ _ k hk).1, prop_append]
  split
  · rfl
  · by_cases h : k = "id"
    · subst h; rfl
    · simp [prop, hasProp, h, Ne.symm h]

/-- C19 fails as stated: the reminder built from data with a date and a note
has no completed field; the field reads undefined, not false. -/
theorem reminder_completed_counterexample :
    hasProp (newReminder tickB [("date", .str "2024-02-01"), ("note", .str "call")])
      "completed" = false ∧
    prop (newReminder tickB [("date", .str "2024-02-01"), ("note", .str "call")])
      "completed" = .undefined ∧
    (addReminder tickB tickB (.str "1000")
        [("date", .str "2024-02-01"), ("note", .str "call")] janeStore).map
      (fun s => s.leads.map fun L => prop L "reminders")
      = some [.arr [.obj [("id", .str "2000"), ("date", .str "2024-02-01"),
          ("note", .str "call"), ("createdAt", .str "2024-01-01T00:00:02.000Z")]]] ∧
    Val.undefined ≠ Val.bool false :=
  ⟨rfl, rfl, rfl, by simp⟩

/-- C19, amended. addReminder appends a reminder that reads as open. When the
reminders of every lead with the given id hold a list (an array, or nothing),
addReminder returns, the collection keeps its length and the meetings are
unchanged; a lead with the given id gets as reminders its previous reminders
followed by the new reminder, every other field of it keeps its value; every
lead with another id is unchanged. The new reminder carries the date and the
note of the data; its completed field is whatever the data carries, so for
data without that field it is absent and reads undefined, which the overdue
test takes as not completed. -/
theorem addReminder_appends (tr ta : Tick) (leadId : Val) (d : Obj) (s : Store)
    (hrem : ∀ M ∈ s.leads, strictEq (prop M "id") leadId = true →
      listLike (prop M "reminders") = true) :
    ∃ s', addReminder tr ta leadId d s = some s' ∧
      s'.leads.length = s.leads.length ∧ s'.meetings = s.meetings ∧
      prop (newReminder tr d) "date" = prop d "date" ∧
      prop (newReminder tr d) "note" = prop d "note" ∧
      prop (newReminder tr d) "completed" = prop d "completed" ∧
      (hasProp d "completed" = false →
        hasProp (newReminder tr d) "completed" = false ∧
        prop (newReminder tr d) "completed" = .undefined ∧
        truthy (prop (newReminder tr d) "completed") = false) ∧
      ∀ (i : Nat) (M : Obj), s.leads[i]? = some M →
        ∃ M', s'.leads[i]? = some M' ∧
          (strictEq (prop M "id") leadId = false → M' = M) ∧
          (strictEq (prop M "id") leadId = true →
            prop M' "reminders"
              = .arr (itemsOf (prop M "reminders") ++ [.obj (newReminder tr d)]) ∧
            ∀ k, k ≠ "reminders" → prop M' k = prop M k ∧ hasProp M' k = hasProp M k) := by
  obtain ⟨l', hl'⟩ := mapLeads_isSome (f := withReminder (newReminder tr d) leadId)
    (l := s.leads) (fun M hM => ⟨_, withReminder_of_listLike _ _ M (hrem M hM)⟩)
  have hget : ∀ k, k ≠ "createdAt" → k ≠ "id" → prop (newReminder tr d) k = prop d k := by
    intro k h1 h2
    rw [prop_newReminder tr d k h1, if_neg h2]
    cases hh : hasProp d k
    · simp [prop_of_not_hasProp d k hh]
    · simp
  refine ⟨{ s with
      leads := l'
      activities :=
        addActivity ta "reminder_set" "Follow-up reminder set" leadId s.activities },
    by simp only [addReminder, hl', Option.map_some'], mapLeads_eq_some_length hl', rfl,
    hget _ (by decide) (by decide), hget _ (by decide) (by decide),
    hget _ (by decide) (by decide), ?_, ?_⟩
  · intro hc
    have hp : prop (newReminder tr d) "completed" = .undefined := by
      rw [hget _ (by decide) (by decide)]
      exact prop_of_not_hasProp d _ hc
    refine ⟨?_, hp, by rw [hp]; rfl⟩
    unfold newReminder
    rw [hasProp_append, hasProp_append, hc]
    rfl
  · intro i M hM
    obtain ⟨M', hf, hM'⟩ := mapLeads_getElem hl' i M hM
    have hmem : M ∈ s.leads := List.getElem?_mem hM
    rw [withReminder_of_listLike _ _ M (hrem M hmem), Option.some.injEq] at hf
    refine ⟨M', hM', ?_, ?_⟩
    · intro h
      rw [← hf]
      simp [h]
    · intro h
      rw [← hf]
      simp only [h, if_true]
      exact ⟨prop_append_single _ _ _, fun k hk => prop_append_single_ne _ _ _ k hk⟩

/-- Witness of C19: a reminder for Jane Doe. -/
theorem addReminder_appends_witness :
    (∀ M ∈ janeStore.leads, strictEq (prop M "id") (.str "1000") = true →
      listLike (prop M "reminders") = true) ∧
    hasProp [("date", .str "2024-02-01"), ("note", .str "call")] "completed" = false ∧
    ∃ s', addReminder tickB tickB (.str "1000")
        [("date", .str "2024-02-01"), ("note", .str "call")] janeStore = some s' ∧
      s'.leads.length = janeStore.leads.length ∧
      prop (newReminder tickB [("date", .str "2024-02-01"), ("note", .str "call")])
        "completed" = .undefined := by
  have hrem : ∀ M ∈ janeStore.leads, strictEq (prop M "id") (.str "1000") = true →
      listLike (prop M "reminders") = true := by
    intro M hM _
    have : M = newLead tickA janeData := by simpa [janeStore, addLead, emptyStore] using hM
    subst this
    rfl
  obtain ⟨s', hs', hlen, -, -, -, -, hc, -⟩ := addReminder_appends tickB tickB (.str "1000")
    [("date", .str "2024-02-01"), ("note", .str "call")] janeStore hrem
  exact ⟨hrem, rfl, s', hs', hlen, (hc rfl).2.1⟩

/-! ## Lemmas on the derived views -/

theorem filterOpt_eq_filter {α : Type} {p : α → Option Bool} {q : α → Bool} {l : List α}
    (h : ∀ x ∈ l, p x = some (q x)) : filterOpt p l = some (l.filter q) := by
  induction l with
  | nil => rfl
  | cons a rest ih =>
    have ha := h a (List.mem_cons_self _ _)
    have hr := ih (fun x hx => h x (List.mem_cons_of_mem _ hx))
    simp only [filterOpt, ha, hr, List.filter_cons]

theorem filterOpt_sound {α : Type} {p : α → Option Bool} {q : α → Bool} {l r : List α}
    (h : ∀ x ∈ l, ∀ b, p x = some b → b = q x) (hr : filterOpt p l = some r) :
    r = l.filter q := by
  induction l generalizing r with
  | nil =>
    simp only [filterOpt, Option.some.injEq] at hr
    subst hr
    rfl
  | cons a rest ih =>
    simp only [filterOpt] at hr
    cases ha : p a with
    | none => simp [ha] at hr
    | some b =>
      cases hrest : filterOpt p rest with
      | none => simp [ha, hrest] at hr
      | some r' =>
        simp only [ha, hrest, Option.some.injEq] at hr
        have hb := h a (List.mem_cons_self _ _) b ha
        have hr' := ih (fun x hx => h x (List.mem_cons_of_mem _ hx)) hrest
        subst hr hr' hb
        simp only [List.filter_cons]

theorem mapLeads_eq_map {f : Obj → Option Obj} {g : Obj → Obj} {l : List Obj}
    (h : ∀ x ∈ l, f x = some (g x)) : mapLeads f l = some (l.map g) := by
  induction l with
  | nil => rfl
  | cons a rest ih =>
    simp only [mapLeads, h a (List.mem_cons_self _ _),
      ih (fun x hx => h x (List.mem_cons_of_mem _ hx)), List.map_cons]

theorem reduceCount_eq {f : Obj → Option Nat} {g : Obj → Nat} {l : List Obj}
    (h : ∀ x ∈ l, f x = some (g x)) (k : Nat) :
    reduceCount f l k = some (k + (l.map g).sum) := by
  induction l generalizing k with
  | nil => simp [reduceCount]
  | cons a rest ih =>
    simp only [reduceCount, h a (List.mem_cons_self _ _),
      ih (fun x hx => h x (List.mem_cons_of_mem _ hx)), List.map_cons, List.sum_cons,
      Nat.add_assoc]

theorem arrayItems_listLike (v : Val) (h : listLike v = true) :
    arrayItems (orElse v (.arr [])) = some (itemsOf v) := by
  cases v with
  | arr xs => rfl
  | undefined => rfl
  | null => rfl
  | bool b => cases b <;> simp_all [listLike, truthy, orElse, arrayItems, itemsOf]
  | num n =>
    have : n = 0 := by simpa [listLike, truthy] using h
    subst this
    rfl
  | str x =>
    have : x = "" := by simpa [listLike, truthy] using h
    subst this
    rfl
  | obj o => simp [listLike, truthy] at h

theorem isOverdue_obj (toTime : Val → Option Int) (now : Int) (r : Val)
    (h : isObj r = true) : isOverdue toTime now r = some (overdueSpec toTime now r) := by
  cases r with
  | obj o =>
    simp only [isOverdue, field, overdueSpec]
    cases dateBefore toTime now (prop o "date") <;> simp
  | _ => simp [isObj] at h

theorem overdueOfLead_ok (toTime : Val → Option Int) (now : Int) (L : Obj)
    (h : remindersOk L = true) :
    overdueOfLead toTime now L =
      some ((itemsOf (prop L "reminders")).countP (overdueSpec toTime now)) := by
  simp only [remindersOk, Bool.and_eq_true, List.all_eq_true] at h
  simp only [overdueOfLead, arrayItems_listLike _ h.1]
  rw [filterOpt_eq_filter (q := overdueSpec toTime now)
    (fun x hx => isOverdue_obj toTime now x (h.2 x hx))]
  simp [List.countP_eq_length_filter]

theorem stats_overdueReminders_ok (toTime : Val → Option Int) (now : Int) (leads : List Obj)
    (h : ∀ M ∈ leads, remindersOk M = true) :
    stats.overdueReminders toTime now leads = some (countOverdue toTime now leads) := by
  unfold stats.overdueReminders countOverdue
  rw [reduceCount_eq (fun x hx => overdueOfLead_ok toTime now x (h x hx))]
  simp

/-! ## C11 -/

theorem countP_id_eq_one {leads : List Obj} (hd : distinctIds leads) {L : Obj}
    (hL : L ∈ leads) {v : Val} (hid : strictEq (prop L "id") v = true) :
    leads.countP (fun M => strictEq (prop M "id") v) = 1 := by
  induction leads with
  | nil => simp at hL
  | cons a rest ih =>
    have hpair := List.pairwise_cons.mp hd
    cases ha : strictEq (prop a "id") v with
    | true =>
      have hrest : ∀ M ∈ rest, strictEq (prop M "id") v = false := by
        intro M hM
        have := hpair.1 M hM
        rw [strictEq_eq ha, strictEq_comm] at this
        exact this
      have h0 : rest.countP (fun M => strictEq (prop M "id") v) = 0 := by
        rw [List.countP_eq_zero]
        intro M hM
        simp [hrest M hM]
      simp [List.countP_cons, ha, h0]
    | false =>
      have hLr : L ∈ rest := by
        rcases List.mem_cons.mp hL with rfl | h
        · rw [hid] at ha; exact Bool.noConfusion ha
        · exact h
      simp [List.countP_cons, ha, ih hpair.2 hLr]

/-- The leads after addReminder, when the reminders of the leads hold lists. -/
theorem addReminder_eq_map (tr ta : Tick) (leadId : Val) (d : Obj) (s : Store)
    (hok : ∀ M ∈ s.leads, remindersOk M = true) :
    addReminder tr ta leadId d s =
      some { s with
        leads := s.leads.map fun M =>
          if strictEq (prop M "id") leadId then
            M ++ [("reminders",
              .arr (itemsOf (prop M "reminders") ++ [.obj (newReminder tr d)]))]
          else M
        activities :=
          addActivity ta "reminder_set" "Follow-up reminder set" leadId s.activities } := by
  have h := mapLeads_eq_map (f := withReminder (newReminder tr d) leadId)
    (g := fun M => if strictEq (prop M "id") leadId then
      M ++ [("reminders", .arr (itemsOf (prop M "reminders") ++ [.obj (newReminder tr d)]))]
      else M) (l := s.leads)
    (fun M hM => withReminder_of_listLike _ _ M (fun _ => by
      have := hok M hM
      simp only [remindersOk, Bool.and_eq_true] at this
      exact this.1))
  simp only [addReminder, h, Option.map_some']

theorem countOverdue_after (toTime : Val → Option Int) (now : Int) (leadId : Val)
    (rem : Obj) (leads : List Obj) :
    countOverdue toTime now (leads.map fun M =>
        if strictEq (prop M "id") leadId then
          M ++ [("reminders", .arr (itemsOf (prop M "reminders") ++ [.obj rem]))]
        else M)
      = countOverdue toTime now leads +
        leads.countP (fun M => strictEq (prop M "id") leadId) *
          (if overdueSpec toTime now (.obj rem) then 1 else 0) := by
  have hsum : ∀ (x : Obj) (xs : List Obj), countOverdue toTime now (x :: xs)
      = (itemsOf (prop x "reminders")).countP (overdueSpec toTime now)
        + countOverdue toTime now xs := fun _ _ => by simp [countOverdue]
  induction leads with
  | nil => simp [countOverdue]
  | cons a rest ih =>
    rw [List.map_cons, hsum, ih, hsum, List.countP_cons]
    cases ha : strictEq (prop a "id") leadId with
    | true =>
      have hhead : (itemsOf (prop (a ++ [("reminders",
            Val.arr (itemsOf (prop a "reminders") ++ [Val.obj rem]))]) "reminders")).countP
            (overdueSpec toTime now)
          = (itemsOf (prop a "reminders")).countP (overdueSpec toTime now)
            + (if overdueSpec toTime now (.obj rem) then 1 else 0) := by
        rw [prop_append_single]
        show List.countP _ (itemsOf (prop a "reminders") ++ [Val.obj rem]) = _
        rw [List.countP_append]
        simp [List.countP_cons]
      simp only [if_true, hhead]
      ring
    | false =>
      simp only [Bool.false_eq_true, if_false, Nat.add_zero]
      ring

theorem remindersOk_after (leadId : Val) (rem : Obj) (M : Obj) (h : remindersOk M = true) :
    remindersOk (if strictEq (prop M "id") leadId then
        M ++ [("reminders", .arr (itemsOf (prop M "reminders") ++ [.obj rem]))]
      else M) = true := by
  split
  · simp only [remindersOk, Bool.and_eq_true, List.all_eq_true] at h ⊢
    rw [prop_append_single]
    refine ⟨rfl, ?_⟩
    intro x hx
    simp only [itemsOf, List.mem_append, List.mem_singleton] at hx
    rcases hx with hx | rfl
    · exact h.2 x hx
    · rfl
  · exact h

/-- C11. The counter of overdue reminders. For every collection whose leads
hold their reminders as lists of objects, and every moment now,
stats.overdueReminders is the number of reminders, summed over the leads,
whose date is strictly before now and which are not completed: for a reminder
whose completed field is a Boolean this means that the field is false, and a
reminder without the field counts as not completed (the code tests the field
for falsiness). In such a collection with pairwise distinct ids, addReminder
addressed to an existing lead with data whose date is strictly before now and
which is not marked completed returns, and raises the counter by exactly
one. -/
theorem overdue_counter (toTime : Val → Option Int) (now : Int) (tr ta : Tick)
    (leadId : Val) (d : Obj) (s : Store) (L : Obj)
    (hok : ∀ M ∈ s.leads, remindersOk M = true) (hdist : distinctIds s.leads)
    (hL : L ∈ s.leads) (hid : strictEq (prop L "id") leadId = true)
    (hdate : dateBefore toTime now (prop d "date") = true)
    (hopen : truthy (prop d "completed") = false) :
    (∀ leads : List Obj, (∀ M ∈ leads, remindersOk M = true) →
      stats.overdueReminders toTime now leads = some (countOverdue toTime now leads)) ∧
    (∀ (r : Obj) (b : Bool), prop r "completed" = .bool b →
      (overdueSpec toTime now (.obj r) = true ↔
        dateBefore toTime now (prop r "date") = true ∧ b = false)) ∧
    (∀ r : Obj, hasProp r "completed" = false →
      (overdueSpec toTime now (.obj r) = true ↔
        dateBefore toTime now (prop r "date") = true)) ∧
    ∃ s', addReminder tr ta leadId d s = some s' ∧
      stats.overdueReminders toTime now s'.leads
        = some (countOverdue toTime now s.leads + 1) ∧
      stats.overdueReminders toTime now s.leads = some (countOverdue toTime now s.leads) := by
  refine ⟨fun leads h => stats_overdueReminders_ok toTime now leads h, ?_, ?_,
    _, addReminder_eq_map tr ta leadId d s hok, ?_,
    stats_overdueReminders_ok toTime now s.leads hok⟩
  · intro r b hb
    cases b <;> simp [overdueSpec, hb, truthy]
  · intro r hr
    simp [overdueSpec, prop_of_not_hasProp r _ hr, truthy]
  have hok' : ∀ M ∈ s.leads.map (fun M =>
      if strictEq (prop M "id") leadId then
        M ++ [("reminders", .arr (itemsOf (prop M "reminders") ++ [.obj (newReminder tr d)]))]
      else M), remindersOk M = true := by
    intro M hM
    obtain ⟨M0, hM0, rfl⟩ := List.mem_map.mp hM
    exact remindersOk_after leadId _ M0 (hok M0 hM0)
  have hnew : overdueSpec toTime now (.obj (newReminder tr d)) = true := by
    simp only [overdueSpec]
    rw [prop_newReminder tr d "date" (by decide),
      prop_newReminder tr d "completed" (by decide)]
    have h1 : (if hasProp d "date" then prop d "date"
        else if "date" = "id" then Val.str (toString tr.ms) else Val.undefined)
        = prop d "date" := by
      cases hh : hasProp d "date"
      · simp [prop_of_not_hasProp d _ hh]
      · simp
    have h2 : (if hasProp d "completed" then prop d "completed"
        else if "completed" = "id" then Val.str (toString tr.ms) else Val.undefined)
        = prop d "completed" := by
      cases hh : hasProp d "completed"
      · simp [prop_of_not_hasProp d _ hh]
      · simp
    rw [h1, h2, hdate, hopen]
    rfl
  show stats.overdueReminders toTime now (s.leads.map _) = _
  rw [stats_overdueReminders_ok toTime now _ hok', countOverdue_after,
    countP_id_eq_one hdist hL hid, hnew]
  simp

/-- Witness of C11: at the moment 1000, a reminder dated 500 is set for Jane
Doe in the store of Bob Ray and Jane Doe. -/
theorem overdue_counter_witness :
    (∀ M ∈ twoLeadStore.leads, remindersOk M = true) ∧
    distinctIds twoLeadStore.leads ∧
    newLead tickA janeData ∈ twoLeadStore.leads ∧
    dateBefore numberTime 1000 (prop [("date", .num 500), ("note", .str "call")] "date")
      = true ∧
    stats.overdueReminders numberTime 1000 twoLeadStore.leads = some 0 ∧
    ∃ s', addReminder tickB tickB (.str "1000") [("date", .num 500), ("note", .str "call")]
        twoLeadStore = some s' ∧
      stats.overdueReminders numberTime 1000 s'.leads = some 1 := by
  have hok : ∀ M ∈ twoLeadStore.leads, remindersOk M = true := by
    intro M hM
    have : M = newLead tickB bobData ∨ M = newLead tickA janeData := by
      simpa [twoLeadStore, janeStore, addLead, emptyStore] using hM
    rcases this with rfl | rfl <;> rfl
  have hd : distinctIds twoLeadStore.leads := by
    show List.Pairwise _ [newLead tickB bobData, newLead tickA janeData]
    refine List.Pairwise.cons ?_ (List.pairwise_singleton _ _)
    intro M hM
    rw [List.mem_singleton.mp hM]
    rfl
  have hmem : newLead tickA janeData ∈ twoLeadStore.leads := by
    show _ ∈ [newLead tickB bobData, newLead tickA janeData]
    simp
  obtain ⟨-, -, -, s', hs', hcount, -⟩ := overdue_counter numberTime 1000 tickB tickB
    (.str "1000")
    [("date", .num 500), ("note", .str "call")] twoLeadStore (newLead tickA janeData)
    hok hd hmem rfl rfl rfl
  exact ⟨hok, hd, hmem, rfl, rfl, s', hs', hcount⟩

/-! ## C12 -/

theorem lowerIncludes_sound (lower : String → String) (L : Obj) (k term : String) (a : Val)
    (h : lowerIncludes lower (prop L k) term = some a) :
    truthy a = fieldContains lower term L k := by
  unfold fieldContains
  cases hv : prop L k <;> rw [hv] at h <;> simp only [lowerIncludes, Option.some.injEq] at h
  all_goals first
    | (subst h; rfl)
    | exact absurd h (by simp)

theorem lowerIncludes_textLike (lower : String → String) (v : Val) (term : String)
    (h : textLike v = true) : ∃ a, lowerIncludes lower v term = some a := by
  cases v <;> first | exact ⟨_, rfl⟩ | simp [textLike] at h

theorem matchesFilter_eq (filter : String) (L : Obj) :
    matchesFilter filter L =
      (filter == "all" ||
        match prop L "stage" with
        | .str x => x == filter
        | _ => false) := by
  unfold matchesFilter
  cases prop L "stage" <;> simp [strictEq]

theorem matchesSearch_sound (lower : String → String) (term : String) (L : Obj) (m : Val)
    (h : matchesSearch lower term L = some m) :
    truthy m = (term == "" || fieldContains lower term L "name" ||
      fieldContains lower term L "company" || fieldContains lower term L "email") := by
  unfold matchesSearch at h
  by_cases ht : term = ""
  · simp only [ht, if_true, Option.some.injEq] at h
    subst h
    simp [ht, truthy]
  · have hb : (term == "") = false := by simpa using ht
    simp only [ht, if_false] at h
    rw [hb]
    cases h1 : lowerIncludes lower (prop L "name") term with
    | none => simp [h1] at h
    | some a =>
      simp only [h1] at h
      have ha := lowerIncludes_sound lower L "name" term a h1
      cases hta : truthy a with
      | true =>
        simp only [hta, if_true, Option.some.injEq] at h
        subst h
        rw [hta, ← ha, hta]
        rfl
      | false =>
        simp only [hta, Bool.false_eq_true, if_false] at h
        rw [← ha, hta]
        cases h2 : lowerIncludes lower (prop L "company") term with
        | none => simp [h2] at h
        | some b =>
          simp only [h2] at h
          have hbb := lowerIncludes_sound lower L "company" term b h2
          cases htb : truthy b with
          | true =>
            simp only [htb, if_true, Option.some.injEq] at h
            subst h
            rw [htb, ← hbb, htb]
            rfl
          | false =>
            simp only [htb, Bool.false_eq_true, if_false] at h
            rw [← hbb, htb, lowerIncludes_sound lower L "email" term m h]
            rfl

theorem matchesSearch_textLike (lower : String → String) (term : String) (L : Obj)
    (h : textLike (prop L "name") = true ∧ textLike (prop L "company") = true ∧
      textLike (prop L "email") = true) :
    ∃ m, matchesSearch lower term L = some m := by
  unfold matchesSearch
  split
  · exact ⟨_, rfl⟩
  · obtain ⟨a, ha⟩ := lowerIncludes_textLike lower _ term h.1
    obtain ⟨b, hb⟩ := lowerIncludes_textLike lower _ term h.2.1
    obtain ⟨c, hc⟩ := lowerIncludes_textLike lower _ term h.2.2
    rw [ha, hb, hc]
    simp only
    split
    · exact ⟨_, rfl⟩
    · split
      · exact ⟨_, rfl⟩
      · exact ⟨_, rfl⟩

theorem searchSpec_iff (lower : String → String) (term filter : String) (L : Obj) :
    searchSpec lower term filter L = true ↔
      (term = "" ∨ ∃ k ∈ ["name", "company", "email"], ∃ x, prop L k = .str x ∧
        (lower term).toList <:+: (lower x).toList) ∧
      (filter = "all" ∨ prop L "stage" = .str filter) := by
  have hfc : ∀ k, fieldContains lower term L k = true ↔
      ∃ x, prop L k = .str x ∧ (lower term).toList <:+: (lower x).toList := by
    intro k
    unfold fieldContains
    cases hv : prop L k <;> simp
  have hstage : (match prop L "stage" with
      | .str x => x == filter
      | _ => false) = true ↔ prop L "stage" = .str filter := by
    cases hv : prop L "stage" <;> simp
  simp only [searchSpec, Bool.and_eq_true, Bool.or_eq_true, beq_iff_eq, hfc, hstage,
    List.mem_cons, List.mem_singleton, List.not_mem_nil, or_false, exists_eq_or_imp,
    exists_eq_left, or_assoc]

/-- C12. Search and filter. Whenever filteredLeads is computed without a
TypeError, and always when the name, company and email of every lead are
texts or missing, it is the sub-collection, in store order, of exactly the
leads such that the term is empty or the lower-cased term is a substring of
the lower-cased name, company or email, and the filter is "all" or is the
stage of the lead. With the lowering of the letters A to Z, a lead named
"Acme Corp" is matched by the terms "acme", "ACME" and "me cor". -/
theorem filteredLeads_spec (lower : String → String) (term filter : String)
    (leads : List Obj) :
    (∀ r, filteredLeads lower term filter leads = some r →
      r = leads.filter (searchSpec lower term filter)) ∧
    ((∀ L ∈ leads, textLike (prop L "name") = true ∧ textLike (prop L "company") = true ∧
        textLike (prop L "email") = true) →
      filteredLeads lower term filter leads
        = some (leads.filter (searchSpec lower term filter))) ∧
    (leads.filter (searchSpec lower term filter)).Sublist leads ∧
    (∀ L, L ∈ leads.filter (searchSpec lower term filter) ↔
      L ∈ leads ∧
      (term = "" ∨ ∃ k ∈ ["name", "company", "email"], ∃ x, prop L k = .str x ∧
        (lower term).toList <:+: (lower x).toList) ∧
      (filter = "all" ∨ prop L "stage" = .str filter)) ∧
    filteredLeads asciiLower "acme" "all" [newLead tickA acmeData]
      = some [newLead tickA acmeData] ∧
    filteredLeads asciiLower "ACME" "all" [newLead tickA acmeData]
      = some [newLead tickA acmeData] ∧
    filteredLeads asciiLower "me cor" "all" [newLead tickA acmeData]
      = some [newLead tickA acmeData] := by
  have hpoint : ∀ L ∈ leads, ∀ b,
      ((matchesSearch lower term L).map fun m => truthy m && matchesFilter filter L)
        = some b → b = searchSpec lower term filter L := by
    intro L _ b hb
    simp only [Option.map_eq_some'] at hb
    obtain ⟨m, hm, rfl⟩ := hb
    rw [matchesSearch_sound lower term L m hm, matchesFilter_eq]
    rfl
  refine ⟨?_, ?_, List.filter_sublist _, ?_, rfl, rfl, rfl⟩
  · intro r hr
    exact filterOpt_sound hpoint hr
  · intro htext
    apply filterOpt_eq_filter
    intro L hL
    obtain ⟨m, hm⟩ := matchesSearch_textLike lower term L (htext L hL)
    have := hpoint L hL (truthy m && matchesFilter filter L) (by simp [hm])
    simp [hm, this]
  · intro L
    rw [List.mem_filter, searchSpec_iff]

/-- Witness of C12: the term ME COR and the filter new on the store of Acme
Corp and Jane Doe. -/
theorem filteredLeads_spec_witness :
    (∀ L ∈ [newLead tickB acmeData, newLead tickA janeData],
      textLike (prop L "name") = true ∧ textLike (prop L "company") = true ∧
        textLike (prop L "email") = true) ∧
    filteredLeads asciiLower "ME COR" "new" [newLead tickB acmeData, newLead tickA janeData]
      = some [newLead tickB acmeData] := by
  have htext : ∀ L ∈ [newLead tickB acmeData, newLead tickA janeData],
      textLike (prop L "name") = true ∧ textLike (prop L "company") = true ∧
        textLike (prop L "email") = true := by
    intro L hL
    simp only [List.mem_cons, List.mem_singleton, List.not_mem_nil, or_false] at hL
    rcases hL with rfl | rfl <;> exact ⟨rfl, rfl, rfl⟩
  refine ⟨htext, ?_⟩
  rw [(filteredLeads_spec asciiLower "ME COR" "new"
    [newLead tickB acmeData, newLead tickA janeData]).2.1 htext]
  rfl

/-! ## C29 -/

/-- C29. A cross-stage drag changes one field of one lead. For a collection
with pairwise distinct ids and a drag whose destination column differs from
its source column, handleDragEnd keeps the length of the collection and the
order of the ids; a lead whose id is the dragged id gets the destination as
stage and keeps every other field (name, email, notes, reminders and the
rest); the lead at every other position is unchanged. A drag without
destination returns the store it was given. -/
theorem handleDragEnd_frame (tu ta : Tick) (r : DragResult) (dest : Location)
    (s : Store) (hdist : distinctIds s.leads) (hd : r.destination = some dest)
    (hne : r.source.droppableId ≠ dest.droppableId) :
    (handleDragEnd tu ta r s).leads.length = s.leads.length ∧
    idsOf (handleDragEnd tu ta r s).leads = idsOf s.leads ∧
    (handleDragEnd tu ta r s).meetings = s.meetings ∧
    (∀ (i : Nat) (M : Obj), s.leads[i]? = some M →
      strictEq (prop M "id") (.str r.draggableId) = true →
      (∃ M', (handleDragEnd tu ta r s).leads[i]? = some M' ∧
        prop M' "stage" = .str dest.droppableId ∧
        ∀ k, k ≠ "stage" → prop M' k = prop M k ∧ hasProp M' k = hasProp M k) ∧
      ∀ j : Nat, j ≠ i → (handleDragEnd tu ta r s).leads[j]? = s.leads[j]?) ∧
    (∀ (i : Nat) (M : Obj), s.leads[i]? = some M →
      strictEq (prop M "id") (.str r.draggableId) = false →
      (handleDragEnd tu ta r s).leads[i]? = some M) ∧
    (∀ r0 : DragResult, r0.destination = none → handleDragEnd tu ta r0 s = s) := by
  obtain ⟨hleads, hmeet, -⟩ := handleDragEnd_effective tu ta r dest s hd hne
  refine ⟨?_, ?_, hmeet, ?_, ?_, ?_⟩
  · rw [hleads]; simp [updateLead]
  · rw [hleads]; exact idsOf_updateLead tu _ _ s rfl
  · intro i M hM hid
    refine ⟨?_, ?_⟩
    · rw [hleads, updateLead_getElem, hM]
      refine ⟨_, rfl, ?_, ?_⟩
      · simp only [hid, if_true]
        exact prop_append_single _ _ _
      · intro k hk
        simp only [hid, if_true]
        exact prop_append_single_ne _ _ _ k hk
    · intro j hj
      rw [hleads, updateLead_getElem]
      cases hMj : s.leads[j]? with
      | none => rfl
      | some N =>
        have hN := distinctIds_getElem hdist hM hMj (Ne.symm hj)
        rw [strictEq_eq hid] at hN
        simp [hN]
  · intro i M hM hid
    rw [hleads, updateLead_getElem, hM]
    simp [hid]
  · intro r0 h0
    simp [handleDragEnd, h0]

/-- Witness of C29: in the store of Bob Ray and Jane Doe, the card of Jane Doe
is dragged to the column qualified. -/
theorem handleDragEnd_frame_witness :
    distinctIds twoLeadStore.leads ∧
    janeDrag.destination = some ⟨"qualified", 0⟩ ∧
    janeDrag.source.droppableId ≠ (Location.mk "qualified" 0).droppableId ∧
    (handleDragEnd tickB tickB janeDrag twoLeadStore).leads.length = 2 ∧
    (handleDragEnd tickB tickB janeDrag twoLeadStore).leads[0]? = some (newLead tickB bobData) ∧
    ∃ M', (handleDragEnd tickB tickB janeDrag twoLeadStore).leads[1]? = some M' ∧
      prop M' "stage" = .str "qualified" ∧ prop M' "name" = .str "Jane Doe" := by
  have hd : distinctIds twoLeadStore.leads := by
    show List.Pairwise _ [newLead tickB bobData, newLead tickA janeData]
    refine List.Pairwise.cons ?_ (List.pairwise_singleton _ _)
    intro M hM
    rw [List.mem_singleton.mp hM]
    rfl
  have hne : janeDrag.source.droppableId ≠ (Location.mk "qualified" 0).droppableId := by
    decide
  obtain ⟨hlen, -, -, hdrag, -, -⟩ :=
    handleDragEnd_frame tickB tickB janeDrag ⟨"qualified", 0⟩ twoLeadStore hd rfl hne
  obtain ⟨⟨M', hM', hst, hkeep⟩, hother⟩ := hdrag 1 (newLead tickA janeData) rfl rfl
  refine ⟨hd, rfl, hne, hlen, ?_, M', hM', hst, ?_⟩
  · rw [hother 0 (by decide)]; rfl
  · rw [(hkeep "name" (by decide)).1]; rfl

/-! ## C24 -/

theorem stage_indicator (v : Val) :
    (PIPELINE_STAGES.map fun st => if strictEq v (.str st.id) then 1 else 0).sum
      = if isStageId v then 1 else 0 := by
  cases v with
  | str x =>
    simp only [PIPELINE_STAGES, strictEq, isStageId, stageIds, List.map_cons, List.map_nil,
      List.sum_cons, List.sum_nil, List.contains_cons, List.contains_nil, beq_iff_eq]
    by_cases h1 : x = "new"
    · subst h1; decide
    by_cases h2 : x = "qualified"
    · subst h2; decide
    by_cases h3 : x = "follow-up"
    · subst h3; decide
    by_cases h4 : x = "proposal"
    · subst h4; decide
    by_cases h5 : x = "closed-won"
    · subst h5; decide
    by_cases h6 : x = "closed-lost"
    · subst h6; decide
    simp [h1, h2, h3, h4, h5, h6]
  | _ => simp [PIPELINE_STAGES, strictEq, isStageId]

theorem bucket_sizes_sum (S : List Stage) (leads : List Obj) :
    (S.map fun st =>
        (leads.filter fun l => strictEq (prop l "stage") (.str st.id)).length).sum
      = (leads.map fun L =>
          (S.map fun st => if strictEq (prop L "stage") (.str st.id) then 1 else 0).sum).sum := by
  induction leads with
  | nil => simp
  | cons a rest ih =>
    simp only [List.map_cons, List.sum_cons]
    rw [← ih, ← List.sum_map_add]
    congr 1
    apply List.map_congr_left
    intro st _
    rw [List.filter_cons]
    split
    · simp; omega
    · simp

theorem indicator_sum_eq_countP (leads : List Obj) :
    (leads.map fun L => if isStageId (prop L "stage") then 1 else 0).sum
      = leads.countP (fun L => isStageId (prop L "stage")) := by
  induction leads with
  | nil => rfl
  | cons a rest ih =>
    simp only [List.map_cons, List.sum_cons, List.countP_cons, ih]
    omega

theorem stage_eq_of_id_eq {st st' : Stage} (h : st ∈ PIPELINE_STAGES)
    (h' : st' ∈ PIPELINE_STAGES) (hid : st.id = st'.id) : st = st' := by
  simp only [PIPELINE_STAGES, List.mem_cons, List.mem_singleton, List.not_mem_nil,
    or_false] at h h'
  rcases h with rfl | rfl | rfl | rfl | rfl | rfl <;>
    rcases h' with rfl | rfl | rfl | rfl | rfl | rfl <;>
    first | rfl | exact absurd hid (by decide)

theorem mem_stageLeads (leads : List Obj) (st : Stage) (L : Obj) :
    L ∈ stageLeads leads st ↔ L ∈ leads ∧ prop L "stage" = .str st.id := by
  rw [stageLeads, List.mem_filter]
  constructor
  · rintro ⟨h1, h2⟩
    exact ⟨h1, strictEq_eq h2⟩
  · rintro ⟨h1, h2⟩
    refine ⟨h1, ?_⟩
    rw [h2]
    simp [strictEq]

theorem isStageId_iff (v : Val) :
    isStageId v = true ↔ ∃ st ∈ PIPELINE_STAGES, v = .str st.id := by
  cases v with
  | str x =>
    simp only [isStageId, stageIds, List.contains_iff_exists_mem_beq, List.mem_map,
      beq_iff_eq, Val.str.injEq]
    constructor
    · rintro ⟨_, ⟨st, hst, rfl⟩, hx⟩
      exact ⟨st, hst, hx⟩
    · rintro ⟨st, hst, hx⟩
      exact ⟨st.id, ⟨st, hst, rfl⟩, hx⟩
  | _ => simp [isStageId]

theorem mapStages_of_some (f : Stage → Option (Stage × List Obj))
    (g : Stage → Stage × List Obj) (S : List Stage) (h : ∀ st ∈ S, f st = some (g st)) :
    mapStages f S = some (S.map g) := by
  induction S with
  | nil => rfl
  | cons st rest ih =>
    simp only [mapStages, h st (by simp), ih (fun s hs => h s (by simp [hs])), List.map_cons]

theorem mapStages_of_none (f : Stage → Option (Stage × List Obj)) (st : Stage)
    (rest : List Stage) (h : f st = none) : mapStages f (st :: rest) = none := by
  simp only [mapStages, h]

/-- The render of the columns is completed exactly when the names `text` and
`gray` are bound, and it then returns the six stages with their leads. -/
theorem KanbanView_eq (scope : Scope) (leads : List Obj) :
    KanbanView scope leads =
      if (scope "text").isSome ∧ (scope "gray").isSome then
        some (PIPELINE_STAGES.map fun st => (st, stageLeads leads st))
      else none := by
  cases ht : scope "text" with
  | none =>
    simp only [Option.isSome_none, Bool.false_eq_true, false_and, if_false]
    exact mapStages_of_none _ _ _ (by simp [kanbanColumn, textGray900, ht])
  | some t =>
    cases hg : scope "gray" with
    | none =>
      simp only [Option.isSome_none, Bool.false_eq_true, and_false, if_false]
      exact mapStages_of_none _ _ _ (by simp [kanbanColumn, textGray900, ht, hg])
    | some g =>
      simp only [Option.isSome_some, and_self, if_true]
      exact mapStages_of_some _ _ _ (fun st _ => by simp [kanbanColumn, textGray900, ht, hg])

/-- As shipped, building the first column throws: `text` is not defined. -/
theorem KanbanView_shipped (leads : List Obj) : KanbanView shippedScope leads = none := by
  rw [KanbanView_eq]
  rfl

/-- C24 fails as stated: a lead whose stage is not a catalogue id is in none
of the six buckets, so the bucket sizes sum to 0 for a set of one lead, also
where the columns are built. -/
theorem kanban_coverage_counterexample :
    isStageId (prop archivedLead "stage") = false ∧
    (PIPELINE_STAGES.map fun st => (stageLeads [archivedLead] st).length)
      = [0, 0, 0, 0, 0, 0] ∧
    KanbanView numbersScope [archivedLead]
      = some (PIPELINE_STAGES.map fun st => (st, [])) ∧
    ¬ ((PIPELINE_STAGES.map fun st => (stageLeads [archivedLead] st).length).sum
      = [archivedLead].length) :=
  ⟨rfl, rfl, rfl, by decide⟩

/-- C24, amended. Pipeline grouping in catalogue order. For every list of
leads the grouping takes the six stages in the order new, qualified,
follow-up, proposal, closed-won, closed-lost, and the columns that KanbanView
returns are these six stages, each with its bucket; the bucket of a stage
holds exactly the leads whose stage is that stage, in their original relative
order; no lead is in two buckets; a lead is in a bucket exactly when its stage
is a catalogue id; the bucket sizes sum to the number of leads whose stage is
a catalogue id, which is the size of the list when every lead has one. -/
theorem kanban_grouping (scope : Scope) (leads : List Obj) :
    PIPELINE_STAGES.map (fun st => st.id)
      = ["new", "qualified", "follow-up", "proposal", "closed-won", "closed-lost"] ∧
    (∀ columns, KanbanView scope leads = some columns →
      columns = PIPELINE_STAGES.map fun st => (st, stageLeads leads st)) ∧
    (∀ st ∈ PIPELINE_STAGES,
      (stageLeads leads st).Sublist leads ∧
      ∀ L, L ∈ stageLeads leads st ↔ L ∈ leads ∧ prop L "stage" = .str st.id) ∧
    (∀ L, ∀ st ∈ PIPELINE_STAGES, ∀ st' ∈ PIPELINE_STAGES,
      L ∈ stageLeads leads st → L ∈ stageLeads leads st' → st = st') ∧
    (∀ L ∈ leads,
      (∃ st ∈ PIPELINE_STAGES, L ∈ stageLeads leads st) ↔
        isStageId (prop L "stage") = true) ∧
    (PIPELINE_STAGES.map fun st => (stageLeads leads st).length).sum
      = leads.countP (fun L => isStageId (prop L "stage")) ∧
    (stagesOk leads →
      (PIPELINE_STAGES.map fun st => (stageLeads leads st).length).sum = leads.length) := by
  have hsum : (PIPELINE_STAGES.map fun st => (stageLeads leads st).length).sum
      = leads.countP (fun L => isStageId (prop L "stage")) := by
    simp only [stageLeads]
    rw [bucket_sizes_sum]
    simp only [stage_indicator]
    exact indicator_sum_eq_countP leads
  refine ⟨rfl, ?_, ?_, ?_, ?_, hsum, ?_⟩
  · intro columns hc
    rw [KanbanView_eq] at hc
    split at hc
    · exact (Option.some.inj hc).symm
    · exact absurd hc (by simp)
  · intro st _
    exact ⟨List.filter_sublist _, mem_stageLeads leads st⟩
  · intro L st hst st' hst' hL hL'
    have h1 := ((mem_stageLeads leads st L).mp hL).2
    have h2 := ((mem_stageLeads leads st' L).mp hL').2
    rw [h1] at h2
    exact stage_eq_of_id_eq hst hst' (Val.str.inj h2)
  · intro L hL
    rw [isStageId_iff]
    constructor
    · rintro ⟨st, hst, hm⟩
      exact ⟨st, hst, ((mem_stageLeads leads st L).mp hm).2⟩
    · rintro ⟨st, hst, hv⟩
      exact ⟨st, hst, (mem_stageLeads leads st L).mpr ⟨hL, hv⟩⟩
  · intro hok
    rw [hsum, List.countP_eq_length_filter]
    congr 1
    rw [List.filter_eq_self]
    exact hok

/-- Witness of C24: the store of Bob Ray and Jane Doe, both in the stage new,
in a scope where the columns are built. -/
theorem kanban_grouping_witness :
    stagesOk twoLeadStore.leads ∧
    KanbanView numbersScope twoLeadStore.leads
      = some (PIPELINE_STAGES.map fun st => (st, stageLeads twoLeadStore.leads st)) ∧
    (PIPELINE_STAGES.map fun st => (stageLeads twoLeadStore.leads st).length)
      = [2, 0, 0, 0, 0, 0] ∧
    (PIPELINE_STAGES.map fun st => (stageLeads twoLeadStore.leads st).length).sum
      = twoLeadStore.leads.length := by
  have hok : stagesOk twoLeadStore.leads := by
    intro M hM
    have : M = newLead tickB bobData ∨ M = newLead tickA janeData := by
      simpa [twoLeadStore, janeStore, addLead, emptyStore] using hM
    rcases this with rfl | rfl <;> rfl
  have h := kanban_grouping numbersScope twoLeadStore.leads
  exact ⟨hok, congrArg some (h.2.1 _ rfl), rfl, h.2.2.2.2.2.2 hok⟩

/-! ## Lemmas on the sort of the views -/

theorem sortByTime_perm (toTime : Val → Option Int) (k : String) (l : List Obj) :
    (sortByTime toTime k l).Perm l :=
  List.perm_insertionSort _ l

theorem sortByTime_sorted (toTime : Val → Option Int) (k : String) (l : List Obj) :
    (sortByTime toTime k l).Sorted fun a b => timeOf toTime k a ≤ timeOf toTime k b := by
  have h1 : IsTotal Obj (fun a b => timeOf toTime k a ≤ timeOf toTime k b) :=
    ⟨fun a b => le_total _ _⟩
  have h2 : IsTrans Obj (fun a b => timeOf toTime k a ≤ timeOf toTime k b) :=
    ⟨fun a b c hab hbc => le_trans hab hbc⟩
  exact List.sorted_insertionSort _ l

theorem dateAtLeast_iff (toTime : Val → Option Int) (now : Int) (v : Val) :
    dateAtLeast toTime now v = true ↔ ∃ t, toTime v = some t ∧ now ≤ t := by
  unfold dateAtLeast
  cases toTime v <;> simp

theorem dateAfter_iff (toTime : Val → Option Int) (now : Int) (v : Val) :
    dateAfter toTime now v = true ↔ ∃ t, toTime v = some t ∧ now < t := by
  unfold dateAfter
  cases toTime v <;> simp

theorem dateBefore_iff (toTime : Val → Option Int) (now : Int) (v : Val) :
    dateBefore toTime now v = true ↔ ∃ t, toTime v = some t ∧ t < now := by
  unfold dateBefore
  cases toTime v <;> simp

/-! ## C21 -/

/-- C21 fails as stated: the list of the meetings page keeps the store order
(a meeting at 500 stays before one at 300), and the list of the dashboard
leaves out a meeting that starts exactly now and every meeting after the
fifth. -/
theorem meeting_views_differ_counterexample :
    MeetingsPage.upcomingMeetings numberTime 100
        [[("title", .str "late"), ("dateTime", .num 500)],
         [("title", .str "soon"), ("dateTime", .num 300)]]
      = [[("title", .str "late"), ("dateTime", .num 500)],
         [("title", .str "soon"), ("dateTime", .num 300)]] ∧
    ¬ ((500 : Int) ≤ 300) ∧
    MeetingsPage.upcomingMeetings numberTime 100 [[("title", .str "now"), ("dateTime", .num 100)]]
      = [[("title", .str "now"), ("dateTime", .num 100)]] ∧
    Dashboard.upcomingMeetings numberTime 100 [[("title", .str "now"), ("dateTime", .num 100)]]
      = [] ∧
    (Dashboard.upcomingMeetings numberTime 100
        ((List.range 6).map fun i => [("dateTime", Val.num (200 + i))])).length = 5 ∧
    (MeetingsPage.upcomingMeetings numberTime 100
        ((List.range 6).map fun i => [("dateTime", Val.num (200 + i))])).length = 6 :=
  ⟨rfl, by decide, rfl, rfl, rfl, rfl⟩


/-- C21, amended. The two upcoming-meetings views. The list of the meetings
page holds exactly the meetings whose dateTime is a valid date at or after
now, in store order; it is not sorted. The list of the dashboard is the
first five entries of the meetings whose dateTime is strictly after now,
sorted in ascending order of dateTime: it is sorted, has at most five entries
that are all meetings strictly after now, no meeting left out is earlier than
one that is shown, and it holds every such meeting when there are at most
five. -/
theorem upcoming_views (toTime : Val → Option Int) (now : Int) (meetings : List Obj) :
    (MeetingsPage.upcomingMeetings toTime now meetings).Sublist meetings ∧
    (∀ m, m ∈ MeetingsPage.upcomingMeetings toTime now meetings ↔
      m ∈ meetings ∧ ∃ t, toTime (prop m "dateTime") = some t ∧ now ≤ t) ∧
    (∃ S : List Obj,
      S.Perm (meetings.filter fun m => dateAfter toTime now (prop m "dateTime")) ∧
      S.Sorted (fun a b => timeOf toTime "dateTime" a ≤ timeOf toTime "dateTime" b) ∧
      Dashboard.upcomingMeetings toTime now meetings = S.take 5 ∧
      (∀ a ∈ S.take 5, ∀ b ∈ S.drop 5,
        timeOf toTime "dateTime" a ≤ timeOf toTime "dateTime" b) ∧
      (S.length ≤ 5 → Dashboard.upcomingMeetings toTime now meetings = S)) ∧
    (Dashboard.upcomingMeetings toTime now meetings).Sorted
      (fun a b => timeOf toTime "dateTime" a ≤ timeOf toTime "dateTime" b) ∧
    (Dashboard.upcomingMeetings toTime now meetings).length ≤ 5 ∧
    (∀ m ∈ Dashboard.upcomingMeetings toTime now meetings,
      m ∈ meetings ∧ ∃ t, toTime (prop m "dateTime") = some t ∧ now < t ∧
        timeOf toTime "dateTime" m = t) := by
  have hS := sortByTime_sorted toTime "dateTime"
    (meetings.filter fun m => dateAfter toTime now (prop m "dateTime"))
  have hP := sortByTime_perm toTime "dateTime"
    (meetings.filter fun m => dateAfter toTime now (prop m "dateTime"))
  refine ⟨List.filter_sublist _, ?_, ⟨_, hP, hS, rfl, ?_, ?_⟩, ?_, ?_, ?_⟩
  · intro m
    simp only [MeetingsPage.upcomingMeetings, List.mem_filter, dateAtLeast_iff]
  · intro a ha b hb
    have hsplit := List.take_append_drop 5 (sortByTime toTime "dateTime"
      (meetings.filter fun m => dateAfter toTime now (prop m "dateTime")))
    rw [← hsplit] at hS
    exact (List.pairwise_append.mp hS).2.2 a ha b hb
  · intro hlen
    exact List.take_of_length_le hlen
  · exact List.Pairwise.sublist (List.take_sublist _ _) hS
  · simp [Dashboard.upcomingMeetings, List.length_take]
  · intro m hm
    have hm1 : m ∈ sortByTime toTime "dateTime"
        (meetings.filter fun m => dateAfter toTime now (prop m "dateTime")) :=
      List.mem_of_mem_take hm
    have hm2 := hP.subset hm1
    rw [List.mem_filter, dateAfter_iff] at hm2
    obtain ⟨hmem, t, ht, hlt⟩ := hm2
    exact ⟨hmem, t, ht, hlt, by simp [timeOf, ht]⟩

/-- Witness of C21: four meetings seen at the moment 100; the dashboard shows
the two that lie strictly after it, the earlier one first. -/
theorem upcoming_views_witness :
    (Dashboard.upcomingMeetings numberTime 100
        [[("dateTime", .num 500)], [("dateTime", .num 50)], [("dateTime", .num 300)],
         [("dateTime", .num 100)]]).Sorted
      (fun a b => timeOf numberTime "dateTime" a ≤ timeOf numberTime "dateTime" b) ∧
    Dashboard.upcomingMeetings numberTime 100
        [[("dateTime", .num 500)], [("dateTime", .num 50)], [("dateTime", .num 300)],
         [("dateTime", .num 100)]]
      = [[("dateTime", .num 300)], [("dateTime", .num 500)]] ∧
    MeetingsPage.upcomingMeetings numberTime 100
        [[("dateTime", .num 500)], [("dateTime", .num 50)], [("dateTime", .num 300)],
         [("dateTime", .num 100)]]
      = [[("dateTime", .num 500)], [("dateTime", .num 300)], [("dateTime", .num 100)]] :=
  ⟨(upcoming_views numberTime 100 _).2.2.2.1, rfl, rfl⟩

/-! ## C22 -/

/-- C22 fails as stated: a meeting whose dateTime is the empty text, which is
not a valid date, is neither in upcomingMeetings nor in pastMeetings. -/
theorem past_complement_counterexample :
    numberTime (prop [("title", .str "Demo"), ("dateTime", .str "")] "dateTime") = none ∧
    MeetingsPage.upcomingMeetings numberTime 100
        [[("title", .str "Demo"), ("dateTime", .str "")]] = [] ∧
    MeetingsPage.pastMeetings numberTime 100
        [[("title", .str "Demo"), ("dateTime", .str "")]] = [] ∧
    [[("title", Val.str "Demo"), ("dateTime", Val.str "")]].length = 1 :=
  ⟨rfl, rfl, rfl, rfl⟩

/-- C22, amended. Past meetings are the complement of upcoming meetings among
the meetings with a valid date. No meeting is in both lists; a meeting whose
dateTime is a valid date is in exactly one of them, upcomingMeetings when the
date is at or after now and pastMeetings when it is before; a meeting whose
dateTime is not a valid date is in neither; and when every meeting has a valid
date the two lists together are a rearrangement of the meetings. -/
theorem past_complement (toTime : Val → Option Int) (now : Int) (meetings : List Obj) :
    (∀ m, ¬ (m ∈ MeetingsPage.upcomingMeetings toTime now meetings ∧
      m ∈ MeetingsPage.pastMeetings toTime now meetings)) ∧
    (∀ m ∈ meetings, ∀ t, toTime (prop m "dateTime") = some t →
      (m ∈ MeetingsPage.upcomingMeetings toTime now meetings ↔ now ≤ t) ∧
      (m ∈ MeetingsPage.pastMeetings toTime now meetings ↔ t < now) ∧
      (m ∈ MeetingsPage.upcomingMeetings toTime now meetings ∨
        m ∈ MeetingsPage.pastMeetings toTime now meetings)) ∧
    (∀ m, toTime (prop m "dateTime") = none →
      m ∉ MeetingsPage.upcomingMeetings toTime now meetings ∧
      m ∉ MeetingsPage.pastMeetings toTime now meetings) ∧
    ((∀ m ∈ meetings, ∃ t, toTime (prop m "dateTime") = some t) →
      (MeetingsPage.upcomingMeetings toTime now meetings ++
        MeetingsPage.pastMeetings toTime now meetings).Perm meetings ∧
      (MeetingsPage.upcomingMeetings toTime now meetings).length +
        (MeetingsPage.pastMeetings toTime now meetings).length = meetings.length) := by
  refine ⟨?_, ?_, ?_, ?_⟩
  · rintro m ⟨h1, h2⟩
    simp only [MeetingsPage.upcomingMeetings, MeetingsPage.pastMeetings, List.mem_filter,
      dateAtLeast_iff, dateBefore_iff] at h1 h2
    obtain ⟨-, t, ht, hle⟩ := h1
    obtain ⟨-, t', ht', hlt⟩ := h2
    rw [ht] at ht'
    cases ht'
    omega
  · intro m hm t ht
    simp only [MeetingsPage.upcomingMeetings, MeetingsPage.pastMeetings, List.mem_filter,
      dateAtLeast_iff, dateBefore_iff, ht, Option.some.injEq, exists_eq_left', hm, true_and]
    omega
  · intro m hm
    simp [MeetingsPage.upcomingMeetings, MeetingsPage.pastMeetings, List.mem_filter,
      dateAtLeast, dateBefore, hm]
  · intro hvalid
    have hpast : MeetingsPage.pastMeetings toTime now meetings
        = meetings.filter (fun m => !dateAtLeast toTime now (prop m "dateTime")) := by
      unfold MeetingsPage.pastMeetings
      apply List.filter_congr
      intro m hm
      obtain ⟨t, ht⟩ := hvalid m hm
      simp only [dateBefore, dateAtLeast, ht]
      by_cases h : t < now
      · simp [h]
      · simp [h]; omega
    have hperm : (MeetingsPage.upcomingMeetings toTime now meetings ++
        MeetingsPage.pastMeetings toTime now meetings).Perm meetings := by
      rw [hpast]
      exact List.filter_append_perm _ meetings
    refine ⟨hperm, ?_⟩
    have := hperm.length_eq
    simpa using this

/-- Witness of C22: three meetings with valid dates, seen at the moment 100. -/
theorem past_complement_witness :
    (∀ m ∈ [[("dateTime", Val.num 500)], [("dateTime", Val.num 50)],
        [("dateTime", Val.num 100)]],
      ∃ t, numberTime (prop m "dateTime") = some t) ∧
    (MeetingsPage.upcomingMeetings numberTime 100
        [[("dateTime", .num 500)], [("dateTime", .num 50)], [("dateTime", .num 100)]]).length
      + (MeetingsPage.pastMeetings numberTime 100
        [[("dateTime", .num 500)], [("dateTime", .num 50)], [("dateTime", .num 100)]]).length
      = 3 := by
  have hvalid : ∀ m ∈ [[("dateTime", Val.num 500)], [("dateTime", Val.num 50)],
      [("dateTime", Val.num 100)]], ∃ t, numberTime (prop m "dateTime") = some t := by
    intro m hm
    simp only [List.mem_cons, List.mem_singleton, List.not_mem_nil, or_false] at hm
    rcases hm with rfl | rfl | rfl <;> exact ⟨_, rfl⟩
  exact ⟨hvalid, ((past_complement numberTime 100 _).2.2.2 hvalid).2⟩

/-! ## C23 -/

theorem overdueEntriesOf_ok (toTime : Val → Option Int) (now : Int) (L : Obj)
    (h : remindersOk L = true) :
    overdueEntriesOf toTime now L =
      some (((itemsOf (prop L "reminders")).filter (overdueSpec toTime now)).map
        (overdueEntry L)) := by
  simp only [remindersOk, Bool.and_eq_true, List.all_eq_true] at h
  simp only [overdueEntriesOf, arrayItems_listLike _ h.1]
  rw [filterOpt_eq_filter (q := overdueSpec toTime now)
    (fun x hx => isOverdue_obj toTime now x (h.2 x hx))]
  rfl

theorem flatMapOpt_eq_flatMap {f : Obj → Option (List Obj)} {g : Obj → List Obj}
    {l : List Obj} (h : ∀ x ∈ l, f x = some (g x)) : flatMapOpt f l = some (l.flatMap g) := by
  induction l with
  | nil => rfl
  | cons a rest ih =>
    simp only [flatMapOpt, h a (List.mem_cons_self _ _),
      ih (fun x hx => h x (List.mem_cons_of_mem _ hx)), List.flatMap_cons]

theorem mem_overdueListSpec (toTime : Val → Option Int) (now : Int) (leads : List Obj)
    (hok : ∀ M ∈ leads, remindersOk M = true) (e : Obj) :
    e ∈ overdueListSpec toTime now leads ↔
      ∃ L ∈ leads, ∃ r : Obj, Val.obj r ∈ itemsOf (prop L "reminders") ∧
        (∃ t, toTime (prop r "date") = some t ∧ t < now) ∧
        truthy (prop r "completed") = false ∧
        e = r ++ [("leadName", prop L "name"), ("leadId", prop L "id")] := by
  simp only [overdueListSpec, List.mem_flatMap, List.mem_map, List.mem_filter]
  constructor
  · rintro ⟨L, hL, v, ⟨hv, hov⟩, rfl⟩
    have hobj : isObj v = true := by
      have := hok L hL
      simp only [remindersOk, Bool.and_eq_true, List.all_eq_true] at this
      exact this.2 v hv
    cases v with
    | obj r =>
      simp only [overdueSpec, Bool.and_eq_true, Bool.not_eq_true', dateBefore_iff] at hov
      exact ⟨L, hL, r, hv, hov.1, hov.2, rfl⟩
    | _ => simp [isObj] at hobj
  · rintro ⟨L, hL, r, hr, hdate, hopen, rfl⟩
    refine ⟨L, hL, .obj r, ⟨hr, ?_⟩, rfl⟩
    simp only [overdueSpec, Bool.and_eq_true, Bool.not_eq_true', dateBefore_iff]
    exact ⟨hdate, hopen⟩

/-- C23. The list of overdue reminders of the dashboard. For every collection
whose leads hold their reminders as lists of objects, the list is computed; it
is a rearrangement of the list with one entry for each reminder of each lead
whose date is strictly before now and which is not completed, so it has no
other entry and as many entries as the counter of C11 counts; an entry is the
reminder followed by the name of the owning lead as leadName and its id as
leadId, so it carries these two and every other field of the reminder; and the
list is sorted in ascending order of the date. -/
theorem overdue_list (toTime : Val → Option Int) (now : Int) (leads : List Obj)
    (hok : ∀ M ∈ leads, remindersOk M = true) :
    ∃ R, Dashboard.overdueReminders toTime now leads = some R ∧
      R.Perm (overdueListSpec toTime now leads) ∧
      R.length = countOverdue toTime now leads ∧
      R.Sorted (fun a b => timeOf toTime "date" a ≤ timeOf toTime "date" b) ∧
      (∀ e, e ∈ R ↔
        ∃ L ∈ leads, ∃ r : Obj, Val.obj r ∈ itemsOf (prop L "reminders") ∧
          (∃ t, toTime (prop r "date") = some t ∧ t < now) ∧
          truthy (prop r "completed") = false ∧
          e = r ++ [("leadName", prop L "name"), ("leadId", prop L "id")]) ∧
      (∀ e ∈ R, ∃ t, toTime (prop e "date") = some t ∧ t < now ∧
        timeOf toTime "date" e = t) ∧
      (∀ (L r : Obj),
        prop (r ++ [("leadName", prop L "name"), ("leadId", prop L "id")]) "leadId"
          = prop L "id" ∧
        prop (r ++ [("leadName", prop L "name"), ("leadId", prop L "id")]) "leadName"
          = prop L "name" ∧
        ∀ k, k ≠ "leadName" → k ≠ "leadId" →
          prop (r ++ [("leadName", prop L "name"), ("leadId", prop L "id")]) k
            = prop r k) := by
  have hflat : flatMapOpt (overdueEntriesOf toTime now) leads
      = some (overdueListSpec toTime now leads) :=
    flatMapOpt_eq_flatMap (fun L hL => overdueEntriesOf_ok toTime now L (hok L hL))
  have hP := sortByTime_perm toTime "date" (overdueListSpec toTime now leads)
  have hmem : ∀ e, e ∈ sortByTime toTime "date" (overdueListSpec toTime now leads) ↔
      ∃ L ∈ leads, ∃ r : Obj, Val.obj r ∈ itemsOf (prop L "reminders") ∧
        (∃ t, toTime (prop r "date") = some t ∧ t < now) ∧
        truthy (prop r "completed") = false ∧
        e = r ++ [("leadName", prop L "name"), ("leadId", prop L "id")] := by
    intro e
    rw [hP.mem_iff]
    exact mem_overdueListSpec toTime now leads hok e
  have hkeep : ∀ (L r : Obj) (k : String), k ≠ "leadName" → k ≠ "leadId" →
      prop (r ++ [("leadName", prop L "name"), ("leadId", prop L "id")]) k = prop r k := by
    intro L r k h1 h2
    rw [prop_append]
    have : hasProp [("leadName", prop L "name"), ("leadId", prop L "id")] k = false := by
      simp [hasProp, Ne.symm h1, Ne.symm h2]
    rw [this]
    rfl
  refine ⟨sortByTime toTime "date" (overdueListSpec toTime now leads), ?_, hP, ?_,
    sortByTime_sorted toTime "date" _, hmem, ?_, ?_⟩
  · simp only [Dashboard.overdueReminders, hflat, Option.map_some']
  · rw [hP.length_eq]
    simp only [overdueListSpec, countOverdue, List.length_flatMap,
      List.countP_eq_length_filter]
    congr 1
    apply List.map_congr_left
    intro L _
    simp
  · intro e he
    obtain ⟨L, -, r, -, ⟨t, ht, hlt⟩, -, rfl⟩ := (hmem e).mp he
    have hd := hkeep L r "date" (by decide) (by decide)
    exact ⟨t, by rw [hd]; exact ht, hlt, by simp [timeOf, hd, ht]⟩
  · intro L r
    refine ⟨?_, ?_, hkeep L r⟩
    · rw [prop_append]; rfl
    · rw [prop_append]; rfl

/-- Witness of C23: two leads, the first with reminders dated 50 and 5, the
second with a completed reminder dated 7 and an open one dated 20, seen at the
moment 100. -/
theorem overdue_list_witness :
    (∀ M ∈ [[("id", Val.str "a"), ("name", Val.str "Ann"),
          ("reminders", Val.arr [.obj [("date", .num 50)], .obj [("date", .num 5)]])],
        [("id", Val.str "b"), ("name", Val.str "Ben"),
          ("reminders", Val.arr [.obj [("date", .num 7), ("completed", .bool true)],
            .obj [("date", .num 20)]])]],
      remindersOk M = true) ∧
    (Dashboard.overdueReminders numberTime 100
        [[("id", .str "a"), ("name", .str "Ann"),
          ("reminders", .arr [.obj [("date", .num 50)], .obj [("date", .num 5)]])],
        [("id", .str "b"), ("name", .str "Ben"),
          ("reminders", .arr [.obj [("date", .num 7), ("completed", .bool true)],
            .obj [("date", .num 20)]])]]).map
      (fun R => R.map fun e => (prop e "date", prop e "leadName"))
      = some [(.num 5, .str "Ann"), (.num 20, .str "Ben"), (.num 50, .str "Ann")] ∧
    ∃ R, Dashboard.overdueReminders numberTime 100
        [[("id", .str "a"), ("name", .str "Ann"),
          ("reminders", .arr [.obj [("date", .num 50)], .obj [("date", .num 5)]])],
        [("id", .str "b"), ("name", .str "Ben"),
          ("reminders", .arr [.obj [("date", .num 7), ("completed", .bool true)],
            .obj [("date", .num 20)]])]] = some R ∧ R.length = 3 := by
  have hok : ∀ M ∈ [[("id", Val.str "a"), ("name", Val.str "Ann"),
        ("reminders", Val.arr [.obj [("date", .num 50)], .obj [("date", .num 5)]])],
      [("id", Val.str "b"), ("name", Val.str "Ben"),
        ("reminders", Val.arr [.obj [("date", .num 7), ("completed", .bool true)],
          .obj [("date", .num 20)]])]], remindersOk M = true := by
    intro M hM
    simp only [List.mem_cons, List.mem_singleton, List.not_mem_nil, or_false] at hM
    rcases hM with rfl | rfl <;> rfl
  obtain ⟨R, hR, -, hlen, -⟩ := overdue_list numberTime 100 _ hok
  exact ⟨hok, rfl, R, hR, hlen.trans rfl⟩

/-! ## C28 -/

theorem overdueEntriesOf_length (toTime : Val → Option Int) (now : Int) (L : Obj) :
    (overdueEntriesOf toTime now L).map List.length = overdueOfLead toTime now L := by
  unfold overdueEntriesOf overdueOfLead
  cases hrs : arrayItems (orElse (prop L "reminders") (.arr [])) with
  | none => rfl
  | some rs =>
    cases hf : filterOpt (isOverdue toTime now) rs with
    | none => simp [hf]
    | some l => simp [hf]

theorem reduceCount_flatMapOpt {f : Obj → Option Nat} {g : Obj → Option (List Obj)}
    (h : ∀ L, (g L).map List.length = f L) (leads : List Obj) (k : Nat) :
    reduceCount f leads k = ((flatMapOpt g leads).map List.length).map (k + ·) := by
  induction leads generalizing k with
  | nil => simp [reduceCount, flatMapOpt]
  | cons a rest ih =>
    simp only [reduceCount, flatMapOpt, ← h a]
    cases g a with
    | none => rfl
    | some l =>
      simp only [Option.map_some', ih]
      cases flatMapOpt g rest with
      | none => rfl
      | some l' => simp [Nat.add_assoc]

/-- C28. The two overdue computations agree. For every collection and every
moment now, the counter stats.overdueReminders is the length of the list
overdueReminders of the dashboard; when one of the two computations throws, so
does the other. -/
theorem overdue_views_agree (toTime : Val → Option Int) (now : Int) (leads : List Obj) :
    stats.overdueReminders toTime now leads
      = (Dashboard.overdueReminders toTime now leads).map List.length ∧
    (stats.overdueReminders toTime now leads = none ↔
      Dashboard.overdueReminders toTime now leads = none) := by
  have h : stats.overdueReminders toTime now leads
      = (Dashboard.overdueReminders toTime now leads).map List.length := by
    unfold stats.overdueReminders Dashboard.overdueReminders
    rw [reduceCount_flatMapOpt (overdueEntriesOf_length toTime now) leads 0]
    cases flatMapOpt (overdueEntriesOf toTime now) leads with
    | none => rfl
    | some l => simp [(sortByTime_perm toTime "date" l).length_eq]
  refine ⟨h, ?_⟩
  rw [h]
  cases Dashboard.overdueReminders toTime now leads <;> simp

/-! ## Lemmas on the storage keys -/

theorem split_at_last_sep (sep : Char) (a b : List Char) (ha : sep ∉ a) (hb : sep ∉ b) :
    ∀ u v : List Char, u ++ sep :: a = v ++ sep :: b → u = v ∧ a = b := by
  intro u
  induction u with
  | nil =>
    intro v h
    cases v with
    | nil => simpa using h
    | cons c v =>
      simp only [List.nil_append, List.cons_append, List.cons.injEq] at h
      exact absurd (by rw [h.2]; simp) ha
  | cons d u ih =>
    intro v h
    cases v with
    | nil =>
      simp only [List.nil_append, List.cons_append, List.cons.injEq] at h
      exact absurd (by rw [← h.2]; simp) hb
    | cons c v =>
      simp only [List.cons_append, List.cons.injEq] at h
      obtain ⟨hv, hab⟩ := ih v h.2
      exact ⟨by rw [h.1, hv], hab⟩

theorem getLocalStorageKey_data (u n : String) :
    (getLocalStorageKey u n).data = "crm_".data ++ (u.data ++ Char.ofNat 95 :: n.data) := by
  simp only [getLocalStorageKey, String.data_append, List.append_assoc]
  rfl

theorem collectionNames_no_sep (n : String) (h : n ∈ collectionNames) :
    Char.ofNat 95 ∉ n.data := by
  simp only [collectionNames, List.mem_cons, List.mem_singleton, List.not_mem_nil, or_false] at h
  rcases h with h | h | h <;> subst h <;> decide

theorem getLocalStorageKey_injective (u1 u2 n1 n2 : String)
    (h1 : Char.ofNat 95 ∉ n1.data) (h2 : Char.ofNat 95 ∉ n2.data)
    (h : getLocalStorageKey u1 n1 = getLocalStorageKey u2 n2) : u1 = u2 ∧ n1 = n2 := by
  have hd := congrArg String.data h
  rw [getLocalStorageKey_data, getLocalStorageKey_data] at hd
  have hd2 := List.append_cancel_left hd
  obtain ⟨hu, hn⟩ := split_at_last_sep _ _ _ h1 h2 _ _ hd2
  exact ⟨String.ext hu, String.ext hn⟩

theorem getFromLocalStorage_setItem_ne (parse : String → Option Val) (u n key value : String)
    (st : Storage) (h : getLocalStorageKey u n ≠ key) :
    getFromLocalStorage parse u n (setItem key value st) = getFromLocalStorage parse u n st := by
  simp only [getFromLocalStorage, setItem, if_neg h]

/-! ## C26: the storage keys keep users and collections apart -/

/-- Claim C26: for all user ids and all collection names among leads, meetings
and activities, equal storage keys come from the same user id and the same
collection name, whatever characters the user ids hold; hence a load for one
user and collection returns the same before and after any save made for a
different user or a different collection. -/
theorem storage_isolation (u1 u2 n1 n2 : String)
    (h1 : n1 ∈ collectionNames) (h2 : n2 ∈ collectionNames) :
    (getLocalStorageKey u1 n1 = getLocalStorageKey u2 n2 → u1 = u2 ∧ n1 = n2) ∧
    ((u1 ≠ u2 ∨ n1 ≠ n2) →
      ∀ (stringify : Val → Option String) (parse : String → Option Val) (data : Val)
        (st : Storage),
        getFromLocalStorage parse u1 n1 (saveToLocalStorage stringify u2 n2 data st)
          = getFromLocalStorage parse u1 n1 st) := by
  have hinj := getLocalStorageKey_injective u1 u2 n1 n2
    (collectionNames_no_sep n1 h1) (collectionNames_no_sep n2 h2)
  refine ⟨hinj, ?_⟩
  intro hne stringify parse data st
  apply getFromLocalStorage_setItem_ne
  intro hk
  obtain ⟨hu, hn⟩ := hinj hk
  rcases hne with hne | hne
  · exact hne hu
  · exact hne hn

theorem storage_isolation_witness :
    "leads" ∈ collectionNames ∧ "meetings" ∈ collectionNames ∧
    (getLocalStorageKey "a_b" "leads" = getLocalStorageKey "a" "meetings" →
      "a_b" = "a" ∧ "leads" = "meetings") ∧
    (("a_b" ≠ "a" ∨ "leads" ≠ "meetings") →
      ∀ (stringify : Val → Option String) (parse : String → Option Val) (data : Val)
        (st : Storage),
        getFromLocalStorage parse "a_b" "leads"
            (saveToLocalStorage stringify "a" "meetings" data st)
          = getFromLocalStorage parse "a_b" "leads" st) :=
  ⟨by decide, by decide, storage_isolation "a_b" "a" "leads" "meetings" (by decide) (by decide)⟩

/-! ## Lemmas on the export -/

theorem stageCell_of_mem (L : Obj) (st : Stage) (hst : st ∈ PIPELINE_STAGES)
    (h : prop L "stage" = .str st.id) : stageCell L = .str st.label := by
  simp only [PIPELINE_STAGES, List.mem_cons, List.mem_singleton, List.not_mem_nil,
    or_false] at hst
  rcases hst with rfl | rfl | rfl | rfl | rfl | rfl <;>
    · simp only [stageCell, h]
      rfl

theorem stageCell_of_not_stage (L : Obj) (h : isStageId (prop L "stage") = false) :
    stageCell L = prop L "stage" := by
  have hfind : (PIPELINE_STAGES.find? fun st => strictEq (.str st.id) (prop L "stage"))
      = none := by
    rw [List.find?_eq_none]
    intro st hst hp
    have hv : prop L "stage" = .str st.id := (strictEq_eq hp).symm
    rw [hv] at h
    have : isStageId (.str st.id) = true := by
      simp only [isStageId, stageIds, List.contains_iff_exists_mem_beq, List.mem_map]
      exact ⟨st.id, ⟨st, hst, rfl⟩, by simp⟩
    rw [this] at h
    exact absurd h (by decide)
  simp only [stageCell, hfind, orElse, truthy]
  rfl

theorem orElse_str_empty (t : String) : orElse (.str t) (.str "") = .str t := by
  by_cases h : t = ""
  · subst h; rfl
  · simp [orElse, truthy, h]

/-! ## C27: the rows of the export -/

/-- Claim C27: for every list of leads the rows built by exportToCSV are the
header row Name, Company, Email, Phone, Source, Stage, Created, Latest Note
followed by one row per lead in input order; every row has exactly 8 cells; the
cells of a lead are its name, company, email, phone and source, then the label
of its stage (the stage value itself when it is not a catalogue id), then its
creation date, then the text of its first note, or the empty text when it has
no notes. -/
theorem export_rows (localeDate : Val → String) (data : List Obj) :
    (exportRows localeDate data).length = data.length + 1 ∧
    (exportRows localeDate data)[0]? = some [.str "Name", .str "Company", .str "Email",
      .str "Phone", .str "Source", .str "Stage", .str "Created", .str "Latest Note"] ∧
    (∀ row ∈ exportRows localeDate data, row.length = 8) ∧
    (∀ (i : Nat) (L : Obj), data[i]? = some L →
      ∃ stage note : Val,
        (exportRows localeDate data)[i + 1]? = some [prop L "name", prop L "company",
          prop L "email", prop L "phone", prop L "source", stage,
          .str (localeDate (prop L "createdAt")), note] ∧
        (∀ st ∈ PIPELINE_STAGES, prop L "stage" = .str st.id → stage = .str st.label) ∧
        (isStageId (prop L "stage") = false → stage = prop L "stage") ∧
        (∀ (n : Obj) (rest : List Val) (text : String),
          prop L "notes" = .arr (.obj n :: rest) → prop n "text" = .str text →
            note = .str text) ∧
        (prop L "notes" = .arr [] → note = .str "") ∧
        (prop L "notes" = .undefined → note = .str "")) := by
  refine ⟨by simp [exportRows], by simp [exportRows, headers], ?_, ?_⟩
  · intro row hrow
    simp only [exportRows, List.mem_cons, List.mem_map] at hrow
    rcases hrow with rfl | ⟨L, _, rfl⟩
    · rfl
    · rfl
  · intro i L hi
    refine ⟨stageCell L, orElse (textOf (firstItem (prop L "notes"))) (.str ""), ?_,
      stageCell_of_mem L, stageCell_of_not_stage L, ?_, ?_, ?_⟩
    · simp only [exportRows, List.getElem?_cons_succ, List.getElem?_map, hi, Option.map_some']
      rfl
    · intro n rest text hn ht
      rw [hn]
      simp only [firstItem, textOf, ht]
      exact orElse_str_empty text
    · intro hn
      rw [hn]
      rfl
    · intro hn
      rw [hn]
      rfl

/-- Witness of C27: the export of one lead in the stage proposal with one note. -/
theorem export_rows_witness :
    [notedLead][0]? = some notedLead ∧
    (exportRows plainDate [notedLead])[0 + 1]? = some [.str "Jane Doe", .str "X Ltd",
      .str "jane@x.com", .str "555", .str "Web", .str "Proposal", .str "2024-01-01",
      .str "Call back"] := by
  obtain ⟨stage, note, hrow, hstage, _, hnote, _, _⟩ :=
    (export_rows plainDate [notedLead]).2.2.2 0 notedLead rfl
  have h1 : stage = .str "Proposal" :=
    hstage ⟨"proposal", "Proposal", "#10B981"⟩ (by simp [PIPELINE_STAGES]) rfl
  have h2 : note = .str "Call back" := hnote _ _ "Call back" rfl rfl
  rw [h1, h2] at hrow
  exact ⟨rfl, hrow⟩

/-! ## Lemmas on reading the exported text -/

theorem cellSafe_iff (text : String) :
    cellSafe text = true ↔ quoteChar ∉ text.data ∧ lineFeed ∉ text.data := by
  simp only [cellSafe, String.toList, List.all_eq_true, Bool.and_eq_true, bne_iff_ne, ne_eq]
  constructor
  · intro h
    exact ⟨fun hq => (h _ hq).1 rfl, fun hl => (h _ hl).2 rfl⟩
  · intro h c hc
    exact ⟨fun e => h.1 (e ▸ hc), fun e => h.2 (e ▸ hc)⟩

theorem quoted_data (cell : Val) :
    (quoted cell).data = quoteChar :: ((toStr cell).data ++ [quoteChar]) := by
  simp only [quoted, String.data_append]
  rfl

theorem readLine_inside (done : List String) (rest : List Char) :
    ∀ (cs cur : List Char), quoteChar ∉ cs →
      readLine (.inside cur) done (cs ++ quoteChar :: rest)
        = readLine .fieldEnd (String.mk (cur.reverse ++ cs) :: done) rest := by
  intro cs
  induction cs with
  | nil =>
    intro cur _
    simp [readLine]
  | cons c cs ih =>
    intro cur hq
    have hc : c ≠ quoteChar := fun e => hq (by simp [e])
    have hcs : quoteChar ∉ cs := fun h => hq (by simp [h])
    simp only [List.cons_append, readLine, if_neg hc, List.append_eq]
    rw [ih (c :: cur) hcs]
    simp

theorem readLine_field (done : List String) (text : String) (rest : List Char)
    (hq : quoteChar ∉ text.data) :
    readLine .fieldStart done (quoteChar :: (text.data ++ quoteChar :: rest))
      = readLine .fieldEnd (text :: done) rest := by
  simp only [readLine, if_true]
  rw [readLine_inside done rest text.data [] hq]
  simp

theorem joinWith_cons_cons (sep a b : String) (rest : List String) :
    joinWith sep (a :: b :: rest) = a ++ sep ++ joinWith sep (b :: rest) := rfl

theorem readLine_row (cells : List Val) (hne : cells ≠ [])
    (hq : ∀ cell ∈ cells, quoteChar ∉ (toStr cell).data) :
    ∀ done : List String,
      readLine .fieldStart done
          (joinWith (String.singleton commaChar) (cells.map quoted)).data
        = some (done.reverse ++ cells.map toStr) := by
  induction cells with
  | nil => exact absurd rfl hne
  | cons a cells ih =>
    intro done
    cases cells with
    | nil =>
      simp only [List.map_cons, List.map_nil, joinWith, quoted_data]
      rw [readLine_field done (toStr a) [] (hq a (by simp))]
      simp [readLine]
    | cons b cells =>
      simp only [List.map_cons, joinWith_cons_cons, String.data_append, quoted_data]
      have hcomma : (String.singleton commaChar).data = [commaChar] := rfl
      rw [hcomma]
      simp only [List.cons_append, List.append_assoc, List.singleton_append]
      rw [readLine_field done (toStr a) _ (hq a (by simp))]
      simp only [readLine, if_true]
      have := ih (by simp) (fun cell hc => hq cell (by simp [hc])) (toStr a :: done)
      simp only [List.map_cons] at this
      rw [List.nil_append, this]
      simp

theorem splitLines_ne_nil (cs : List Char) : splitLines cs ≠ [] := by
  induction cs with
  | nil => simp [splitLines]
  | cons c cs ih =>
    simp only [splitLines]
    split
    · simp
    · split <;> simp

theorem splitLines_line (l : List Char) (hl : lineFeed ∉ l) : splitLines l = [l] := by
  induction l with
  | nil => rfl
  | cons c l ih =>
    have hc : c ≠ lineFeed := fun e => hl (by simp [e])
    simp only [splitLines, if_neg hc, ih (fun h => hl (by simp [h]))]

theorem splitLines_append (l rest : List Char) (hl : lineFeed ∉ l) :
    splitLines (l ++ lineFeed :: rest) = l :: splitLines rest := by
  induction l with
  | nil => simp [splitLines]
  | cons c l ih =>
    have hc : c ≠ lineFeed := fun e => hl (by simp [e])
    simp only [List.cons_append, splitLines, if_neg hc, List.append_eq,
      ih (fun h => hl (by simp [h]))]

theorem splitLines_join (lines : List String) (hne : lines ≠ [])
    (hl : ∀ l ∈ lines, lineFeed ∉ l.data) :
    splitLines (joinWith (String.singleton lineFeed) lines).data = lines.map String.data := by
  induction lines with
  | nil => exact absurd rfl hne
  | cons a lines ih =>
    cases lines with
    | nil =>
      simp only [joinWith, List.map_cons, List.map_nil]
      exact splitLines_line _ (hl a (by simp))
    | cons b lines =>
      simp only [joinWith_cons_cons, String.data_append, List.append_assoc]
      have hfeed : (String.singleton lineFeed).data = [lineFeed] := rfl
      rw [hfeed, List.singleton_append, splitLines_append _ _ (hl a (by simp)),
        ih (by simp) (fun l h => hl l (by simp [h]))]
      simp

theorem joinWith_no_feed (cells : List String) (hl : ∀ c ∈ cells, lineFeed ∉ c.data) :
    lineFeed ∉ (joinWith (String.singleton commaChar) cells).data := by
  induction cells with
  | nil => simp [joinWith]
  | cons a cells ih =>
    cases cells with
    | nil => simpa [joinWith] using hl a (by simp)
    | cons b cells =>
      simp only [joinWith_cons_cons, String.data_append, List.mem_append, not_or]
      refine ⟨⟨hl a (by simp), by decide⟩, ih (fun c h => hl c (by simp [h]))⟩

theorem quoted_no_feed (cell : Val) (h : lineFeed ∉ (toStr cell).data) :
    lineFeed ∉ (quoted cell).data := by
  rw [quoted_data]
  simp only [List.mem_cons, List.mem_append, List.mem_singleton, List.not_mem_nil, or_false,
    not_or]
  exact ⟨by decide, h, by decide⟩

theorem readLines_rows (rows : List (List Val))
    (hne : ∀ row ∈ rows, row ≠ [])
    (hq : ∀ row ∈ rows, ∀ cell ∈ row, quoteChar ∉ (toStr cell).data) :
    readLines ((rows.map fun row =>
        joinWith (String.singleton commaChar) (row.map quoted)).map String.data)
      = some (rows.map fun row => row.map toStr) := by
  induction rows with
  | nil => rfl
  | cons row rows ih =>
    simp only [List.map_cons, readLines]
    rw [readLine_row row (hne row (by simp)) (hq row (by simp)) [],
      ih (fun r h => hne r (by simp [h])) (fun r h => hq r (by simp [h]))]
    simp

theorem readCsv_csvText (rows : List (List Val)) (hrows : rows ≠ [])
    (hne : ∀ row ∈ rows, row ≠ [])
    (hsafe : ∀ row ∈ rows, ∀ cell ∈ row, cellSafe (toStr cell) = true) :
    readCsv (csvText rows) = some (rows.map fun row => row.map toStr) := by
  simp only [readCsv, csvText, String.toList]
  rw [splitLines_join _ (by simpa using hrows)]
  · exact readLines_rows rows hne
      (fun row hr cell hc => ((cellSafe_iff _).1 (hsafe row hr cell hc)).1)
  · intro l hl
    simp only [List.mem_map] at hl
    obtain ⟨row, hr, rfl⟩ := hl
    apply joinWith_no_feed
    intro c hc
    simp only [List.mem_map] at hc
    obtain ⟨cell, hcell, rfl⟩ := hc
    exact quoted_no_feed cell ((cellSafe_iff _).1 (hsafe row hr cell hcell)).2

/-! ## C30: the exported text can be read back -/

/-- Claim C30: for every list of leads whose exported cell values contain no
double quote and no line feed, splitting the text of exportToCSV into lines and
each line into double-quoted fields separated by commas gives back exactly the
header row followed by one row of 8 cells per lead, holding the texts of the
cells of that lead, in order. -/
theorem export_read_back (localeDate : Val → String) (data : List Obj)
    (hsafe : ∀ L ∈ data, ∀ cell ∈ exportRow localeDate L, cellSafe (toStr cell) = true) :
    readCsv (exportToCSV localeDate data)
        = some (headers :: data.map fun L => (exportRow localeDate L).map toStr) ∧
      ∀ row ∈ (headers :: data.map fun L => (exportRow localeDate L).map toStr),
        row.length = 8 := by
  constructor
  · rw [exportToCSV, readCsv_csvText (exportRows localeDate data) (by simp [exportRows])]
    · simp only [exportRows, List.map_cons, List.map_map, Option.some.injEq, List.cons.injEq]
      exact ⟨rfl, rfl⟩
    · intro row hrow
      simp only [exportRows, List.mem_cons, List.mem_map] at hrow
      rcases hrow with rfl | ⟨L, _, rfl⟩
      · simp [headers]
      · simp [exportRow]
    · intro row hrow
      simp only [exportRows, List.mem_cons, List.mem_map] at hrow
      rcases hrow with rfl | ⟨L, hL, rfl⟩
      · decide
      · exact hsafe L hL
  · intro row hrow
    simp only [List.mem_cons, List.mem_map] at hrow
    rcases hrow with rfl | ⟨L, _, rfl⟩
    · rfl
    · rfl

/-- Witness of C30: the export of one lead in the stage proposal with one note. -/
theorem export_read_back_witness :
    (∀ L ∈ [notedLead], ∀ cell ∈ exportRow plainDate L, cellSafe (toStr cell) = true) ∧
    readCsv (exportToCSV plainDate [notedLead])
      = some [headers, ["Jane Doe", "X Ltd", "jane@x.com", "555", "Web", "Proposal",
          "2024-01-01", "Call back"]] := by
  have hsafe : ∀ L ∈ [notedLead], ∀ cell ∈ exportRow plainDate L,
      cellSafe (toStr cell) = true := by
    intro L hL
    rw [List.mem_singleton] at hL
    subst hL
    decide
  exact ⟨hsafe, (export_read_back plainDate [notedLead] hsafe).1⟩

/-! ## Lemmas on the JSON round trip -/

theorem hasProp_iff_mem (o : Obj) (k : String) :
    hasProp o k = true ↔ k ∈ o.map Prod.fst := by
  induction o with
  | nil => simp [hasProp]
  | cons p o ih =>
    obtain ⟨k', v⟩ := p
    simp only [hasProp, Bool.or_eq_true, ih, beq_iff_eq, List.map_cons, List.mem_cons]
    constructor
    · rintro (h | h)
      · exact Or.inr h
      · exact Or.inl h.symm
    · rintro (h | h)
      · exact Or.inr h.symm
      · exact Or.inl h

theorem prop_of_noRepeat (o : Obj) (h : noRepeat (o.map Prod.fst) = true) :
    ∀ p ∈ o, prop o p.1 = p.2 := by
  induction o with
  | nil => simp
  | cons q o ih =>
    obtain ⟨k, v⟩ := q
    simp only [List.map_cons, noRepeat, Bool.and_eq_true, Bool.not_eq_true',
      List.contains_eq_any_beq, List.any_eq_false, beq_iff_eq] at h
    intro p hp
    rw [List.mem_cons] at hp
    rcases hp with rfl | hp
    · have hno : hasProp o k = false := by
        rw [← Bool.not_eq_true, hasProp_iff_mem]
        intro hk
        exact h.1 k hk rfl
      simp [prop, hno]
    · have hyes : hasProp o p.1 = true := by
        rw [hasProp_iff_mem]
        exact List.mem_map_of_mem _ hp
      simp only [prop, hyes, if_true]
      exact ih h.2 p hp

/-! ## Lemmas on reading a JSON text that was written -/

theorem readText_escapeChar (c : Char) (seen tail : List Char) :
    readText .plain seen (escapeChar c ++ tail) = readText .plain (c :: seen) tail := by
  by_cases hlow : c.toNat < 32
  · obtain ⟨v, hv, rfl⟩ : ∃ v, v < 32 ∧ c = Char.ofNat v :=
      ⟨c.toNat, hlow, (Char.ofNat_toNat c).symm⟩
    interval_cases v <;> rfl
  · by_cases hq : c = quoteChar
    · subst hq; rfl
    · by_cases hb : c = backslash
      · subst hb; rfl
      · have h8 : c.toNat ≠ 8 := by omega
        have h9 : c.toNat ≠ 9 := by omega
        have h10 : c.toNat ≠ 10 := by omega
        have h12 : c.toNat ≠ 12 := by omega
        have h13 : c.toNat ≠ 13 := by omega
        simp only [escapeChar, if_neg hq, if_neg hb, if_neg h8, if_neg h9, if_neg h10,
          if_neg h12, if_neg h13, if_neg hlow, List.singleton_append, readText]

theorem readText_escaped (cs seen rest : List Char) :
    readText .plain seen (cs.flatMap escapeChar ++ quoteChar :: rest)
      = some (String.mk (seen.reverse ++ cs), rest) := by
  induction cs generalizing seen with
  | nil => simp [readText]
  | cons c cs ih =>
    rw [List.flatMap_cons, List.append_assoc, readText_escapeChar, ih]
    simp

theorem readText_quoted (s : String) (rest : List Char) :
    ∃ tail, quoteJSONString s ++ rest = quoteChar :: tail ∧
      readText .plain [] tail = some (s, rest) := by
  refine ⟨s.toList.flatMap escapeChar ++ quoteChar :: rest, ?_, ?_⟩
  · simp [quoteJSONString]
  · rw [readText_escaped]
    rfl

theorem digitChar_isDigit (d : Nat) (h : d < 10) : (Nat.digitChar d).isDigit = true := by
  interval_cases d <;> rfl

theorem toDigitsCore_isDigit (fuel n : Nat) (ds : List Char)
    (hds : ∀ c ∈ ds, c.isDigit = true) :
    ∀ c ∈ Nat.toDigitsCore 10 fuel n ds, c.isDigit = true := by
  induction fuel generalizing n ds with
  | zero => simpa [Nat.toDigitsCore] using hds
  | succ fuel ih =>
    have hd : (Nat.digitChar (n % 10)).isDigit = true :=
      digitChar_isDigit _ (Nat.mod_lt n (by decide))
    simp only [Nat.toDigitsCore]
    split
    · intro c hc
      rw [List.mem_cons] at hc
      rcases hc with rfl | hc
      · exact hd
      · exact hds c hc
    · apply ih
      intro c hc
      rw [List.mem_cons] at hc
      rcases hc with rfl | hc
      · exact hd
      · exact hds c hc

theorem toDigitsCore_head (fuel n : Nat) (ds : List Char) (hn : 0 < n) (hf : n < fuel) :
    ∃ c tl, Nat.toDigitsCore 10 fuel n ds = c :: tl ∧ c ≠ '0' := by
  induction fuel generalizing n ds with
  | zero => omega
  | succ fuel ih =>
    simp only [Nat.toDigitsCore]
    split
    · next h0 =>
      have hlt : n < 10 := by omega
      refine ⟨_, _, rfl, ?_⟩
      rw [Nat.mod_eq_of_lt hlt]
      interval_cases n <;> decide
    · next h0 =>
      exact ih (n / 10) _ (by omega) (by omega)

theorem toDigits_shape (n : Nat) :
    ∃ c tl, Nat.toDigits 10 n = c :: tl ∧ (∀ x ∈ c :: tl, x.isDigit = true) ∧
      ¬ (c = '0' ∧ 1 < (c :: tl).length) := by
  have hall : ∀ x ∈ Nat.toDigits 10 n, x.isDigit = true :=
    toDigitsCore_isDigit _ _ [] (by simp)
  by_cases hn : n = 0
  · subst hn
    exact ⟨'0', [], rfl, by simp, by simp⟩
  · obtain ⟨c, tl, h, hc⟩ := toDigitsCore_head (n + 1) n [] (by omega) (by omega)
    have h' : Nat.toDigits 10 n = c :: tl := h
    rw [h'] at hall
    exact ⟨c, tl, h', hall, fun hh => hc hh.1⟩

theorem endsValue_not_digit (rest : List Char) (h : endsValue rest = true) :
    ∀ c tl, rest = c :: tl →
      c.isDigit = false ∧ isJsonSpace c = false ∧ c ≠ '.' ∧ c ≠ 'e' ∧ c ≠ 'E' := by
  intro c tl hr
  subst hr
  simp only [endsValue, Bool.or_eq_true, decide_eq_true_eq] at h
  rcases h with (rfl | rfl) | rfl <;> decide

theorem takeWhile_digits (ds rest : List Char) (hds : ∀ x ∈ ds, x.isDigit = true)
    (hr : endsValue rest = true) :
    (ds ++ rest).takeWhile Char.isDigit = ds ∧ (ds ++ rest).dropWhile Char.isDigit = rest := by
  induction ds with
  | nil =>
    cases rest with
    | nil => simp
    | cons c tl =>
      have := (endsValue_not_digit _ hr c tl rfl).1
      simp [List.takeWhile, List.dropWhile, this]
  | cons d ds ih =>
    have hd := hds d (by simp)
    have := ih (fun x hx => hds x (by simp [hx]))
    simp [List.takeWhile, List.dropWhile, hd, this]

theorem readDigits_toDigits (n : Nat) (rest : List Char) (hr : endsValue rest = true) :
    readDigits (Nat.toDigits 10 n ++ rest) = some (n, rest) := by
  obtain ⟨c, tl, hshape, hall, hzero⟩ := toDigits_shape n
  have hval : digitsValue (Nat.toDigits 10 n) = n :=
    digitsValue_toDigitsCore (n + 1) n (by omega)
  obtain ⟨h1, h2⟩ := takeWhile_digits (Nat.toDigits 10 n) rest (hshape ▸ hall) hr
  simp only [readDigits, h1, h2, hval]
  rw [hshape]
  have hz : ¬ ((c :: tl).head? = some '0' ∧ 1 < (c :: tl).length) := by
    intro hh
    exact hzero ⟨by simpa using hh.1, hh.2⟩
  rw [if_neg (by simp), if_neg hz]
  cases rest with
  | nil => rfl
  | cons r rtl =>
    obtain ⟨-, -, e1, e2, e3⟩ := endsValue_not_digit _ hr r rtl rfl
    simp [e1, e2, e3]

theorem toString_int_data (n : Int) :
    (toString n).data =
      match n with
      | Int.ofNat m => Nat.toDigits 10 m
      | Int.negSucc m => minusChar :: Nat.toDigits 10 (m + 1) := by
  cases n <;> rfl

theorem readNumber_toString (n : Int) (rest : List Char) (hr : endsValue rest = true) :
    readNumber ((toString n).toList ++ rest) = some (n, rest) := by
  rw [String.toList, toString_int_data]
  cases n with
  | ofNat m =>
    obtain ⟨c, tl, hshape, hall, -⟩ := toDigits_shape m
    have hc : c ≠ minusChar := by
      intro e
      have := hall c (by simp)
      rw [e] at this
      exact absurd this (by decide)
    have hread := readDigits_toDigits m rest hr
    simp only
    rw [hshape] at hread ⊢
    simp only [List.cons_append, readNumber, if_neg hc]
    rw [← List.cons_append, hread]
    rfl
  | negSucc m =>
    simp only [List.cons_append, readNumber, if_true]
    rw [readDigits_toDigits _ rest hr]
    rfl

theorem skipSpace_cons (c : Char) (cs : List Char) (h : isJsonSpace c = false) :
    skipSpace (c :: cs) = c :: cs := by
  simp [skipSpace, h]

theorem skipSpace_endsValue (rest : List Char) (h : endsValue rest = true) :
    skipSpace rest = rest := by
  cases rest with
  | nil => rfl
  | cons c tl => exact skipSpace_cons c tl (endsValue_not_digit _ h c tl rfl).2.1

theorem digit_facts (c : Char) (h : c.isDigit = true) :
    isJsonSpace c = false ∧ c ≠ quoteChar ∧ c ≠ openBracket ∧ c ≠ openBrace ∧
      c ≠ closeBracket ∧ c ≠ 'n' ∧ c ≠ 't' ∧ c ≠ 'f' ∧ c ≠ minusChar := by
  refine ⟨?_, ?_, ?_, ?_, ?_, ?_, ?_, ?_, ?_⟩
  · simp only [Char.isDigit, Bool.and_eq_true, decide_eq_true_eq] at h
    have h1 : 48 ≤ c.toNat := h.1
    simp only [isJsonSpace, Bool.or_eq_false_iff, decide_eq_false_iff_not]
    omega
  all_goals
    intro e
    rw [e] at h
    exact absurd h (by decide)

theorem parseValue_of_number (f : Nat) (c : Char) (tl : List Char)
    (hc : c.isDigit = true ∨ c = minusChar) :
    parseValue (f + 1) (c :: tl) = (readNumber (c :: tl)).map fun r => (.num r.1, r.2) := by
  rcases hc with hc | hc
  · obtain ⟨h0, h1, h2, h3, -, h5, h6, h7, -⟩ := digit_facts c hc
    simp only [parseValue, skipSpace_cons c tl h0, if_neg h1, if_neg h2, if_neg h3, if_neg h5,
      if_neg h6, if_neg h7]
  · subst hc
    rfl

theorem parseValue_number (f : Nat) (n : Int) (rest : List Char)
    (hr : endsValue rest = true) :
    parseValue (f + 1) ((toString n).toList ++ rest) = some (.num n, rest) := by
  have hread := readNumber_toString n rest hr
  have hhead : ∃ c tl, (toString n).toList ++ rest = c :: tl ∧
      (c.isDigit = true ∨ c = minusChar) := by
    rw [String.toList, toString_int_data]
    cases n with
    | ofNat m =>
      obtain ⟨c, tl, hshape, hall, -⟩ := toDigits_shape m
      exact ⟨c, tl ++ rest, by simp [hshape], Or.inl (hall c (by simp))⟩
    | negSucc m => exact ⟨minusChar, _, rfl, Or.inr rfl⟩
  obtain ⟨c, tl, hct, hc⟩ := hhead
  rw [hct] at hread ⊢
  rw [parseValue_of_number f c tl hc, hread]
  rfl

theorem parseValue_text (f : Nat) (s : String) (rest : List Char) :
    parseValue (f + 1) (quoteJSONString s ++ rest) = some (.str s, rest) := by
  obtain ⟨tail, htail, hread⟩ := readText_quoted s rest
  rw [htail]
  have hq : skipSpace (quoteChar :: tail) = quoteChar :: tail := rfl
  simp only [parseValue, hq, if_true, hread]
  rfl

theorem parseValue_array (f : Nat) (c : Char) (tl : List Char)
    (hsp : isJsonSpace c = false) (hc : c ≠ closeBracket) :
    parseValue (f + 1) (openBracket :: c :: tl)
      = (parseItems f (c :: tl)).map fun r => (.arr r.1, r.2) := by
  have hq : skipSpace (openBracket :: c :: tl) = openBracket :: c :: tl := rfl
  have h1 : openBracket ≠ quoteChar := by decide
  simp only [parseValue, hq, if_neg h1, if_true, skipSpace_cons c tl hsp, if_neg hc]

theorem parseValue_object (f : Nat) (tl : List Char) :
    parseValue (f + 1) (openBrace :: quoteChar :: tl)
      = (parseMembers f (quoteChar :: tl)).map fun r => (.obj r.1, r.2) := by
  rfl

theorem parseItems_last (f : Nat) (cs : List Char) (v : Val) (rest : List Char)
    (h : parseValue f cs = some (v, closeBracket :: rest)) :
    parseItems (f + 1) cs = some ([v], rest) := by
  have hq : skipSpace (closeBracket :: rest) = closeBracket :: rest := rfl
  have h1 : closeBracket ≠ commaChar := by decide
  simp only [parseItems, h, hq, if_neg h1, if_true]

theorem parseItems_more (f : Nat) (cs : List Char) (v : Val) (rest : List Char)
    (h : parseValue f cs = some (v, commaChar :: rest)) :
    parseItems (f + 1) cs = (parseItems f rest).map fun r => (v :: r.1, r.2) := by
  have hq : skipSpace (commaChar :: rest) = commaChar :: rest := rfl
  simp only [parseItems, h, hq, if_true]

theorem parseMembers_last (f : Nat) (k : String) (text : List Char) (v : Val)
    (rest : List Char) (h : parseValue f text = some (v, closeBrace :: rest)) :
    parseMembers (f + 1) (quoteJSONString k ++ colonChar :: text) = some ([(k, v)], rest) := by
  obtain ⟨tail, htail, hread⟩ := readText_quoted k (colonChar :: text)
  rw [htail]
  have hq : skipSpace (quoteChar :: tail) = quoteChar :: tail := rfl
  have hc : skipSpace (colonChar :: text) = colonChar :: text := rfl
  have hb : skipSpace (closeBrace :: rest) = closeBrace :: rest := rfl
  have h1 : closeBrace ≠ commaChar := by decide
  simp only [parseMembers, hq, if_true, hread, hc, h, hb, if_neg h1]

theorem parseMembers_more (f : Nat) (k : String) (text : List Char) (v : Val)
    (rest : List Char) (h : parseValue f text = some (v, commaChar :: rest)) :
    parseMembers (f + 1) (quoteJSONString k ++ colonChar :: text)
      = (parseMembers f rest).map fun r => ((k, v) :: r.1, r.2) := by
  obtain ⟨tail, htail, hread⟩ := readText_quoted k (colonChar :: text)
  rw [htail]
  have hq : skipSpace (quoteChar :: tail) = quoteChar :: tail := rfl
  have hc : skipSpace (colonChar :: text) = colonChar :: text := rfl
  have hb : skipSpace (commaChar :: rest) = commaChar :: rest := rfl
  simp only [parseMembers, hq, if_true, hread, hc, h, hb]

theorem jsonText_head (w : Val) :
    ∃ c tl, jsonText w = c :: tl ∧ isJsonSpace c = false ∧ c ≠ closeBracket := by
  cases w with
  | undefined => exact ⟨_, _, rfl, by decide, by decide⟩
  | null => exact ⟨_, _, rfl, by decide, by decide⟩
  | bool b => cases b <;> exact ⟨_, _, rfl, by decide, by decide⟩
  | num n =>
    simp only [jsonText, String.toList, toString_int_data]
    cases n with
    | ofNat m =>
      obtain ⟨c, tl, hshape, hall, -⟩ := toDigits_shape m
      obtain ⟨h0, -, -, -, h4, -⟩ := digit_facts c (hall c (by simp))
      exact ⟨c, tl, hshape, h0, h4⟩
    | negSucc m => exact ⟨_, _, rfl, by decide, by decide⟩
  | str s => exact ⟨_, _, rfl, by decide, by decide⟩
  | arr xs => exact ⟨_, _, rfl, by decide, by decide⟩
  | obj o => exact ⟨_, _, rfl, by decide, by decide⟩

theorem itemsText_head (x : Val) (more : List Val) :
    ∃ c tl, itemsText (x :: more) = c :: tl ∧ isJsonSpace c = false ∧ c ≠ closeBracket := by
  obtain ⟨c, tl, h, h1, h2⟩ := jsonText_head x
  cases more with
  | nil => exact ⟨c, tl, by simp [itemsText, h], h1, h2⟩
  | cons y rest =>
    exact ⟨c, tl ++ commaChar :: itemsText (y :: rest),
      by simp only [itemsText, h, List.cons_append], h1, h2⟩

theorem membersText_head (p : String × Val) (more : List (String × Val)) :
    ∃ tl, membersText (p :: more) = quoteChar :: tl := by
  obtain ⟨k, v⟩ := p
  cases more with
  | nil => exact ⟨_, by simp only [membersText, quoteJSONString, List.cons_append]; rfl⟩
  | cons q rest =>
    exact ⟨_, by simp only [membersText, quoteJSONString, List.cons_append]; rfl⟩

mutual
theorem parseValue_jsonText : ∀ (w : Val), defined w = true →
    ∀ (fuel : Nat) (rest : List Char), endsValue rest = true →
      2 * (jsonText w ++ rest).length + 1 ≤ fuel →
      parseValue fuel (jsonText w ++ rest) = some (w, rest)
  | .undefined, h, _, _, _, _ => by simp [defined] at h
  | .null, _, fuel, rest, _, hf => by
    obtain ⟨f, rfl⟩ : ∃ f, fuel = f + 1 := ⟨fuel - 1, by omega⟩
    rfl
  | .bool true, _, fuel, rest, _, hf => by
    obtain ⟨f, rfl⟩ : ∃ f, fuel = f + 1 := ⟨fuel - 1, by omega⟩
    rfl
  | .bool false, _, fuel, rest, _, hf => by
    obtain ⟨f, rfl⟩ : ∃ f, fuel = f + 1 := ⟨fuel - 1, by omega⟩
    rfl
  | .num n, _, fuel, rest, hr, hf => by
    obtain ⟨f, rfl⟩ : ∃ f, fuel = f + 1 := ⟨fuel - 1, by omega⟩
    exact parseValue_number f n rest hr
  | .str s, _, fuel, rest, _, hf => by
    obtain ⟨f, rfl⟩ : ∃ f, fuel = f + 1 := ⟨fuel - 1, by omega⟩
    exact parseValue_text f s rest
  | .arr xs, h, fuel, rest, _, hf => by
    obtain ⟨f, rfl⟩ : ∃ f, fuel = f + 1 := ⟨fuel - 1, by omega⟩
    have ih := parseItems_itemsText xs
    cases xs with
    | nil => rfl
    | cons x more =>
      obtain ⟨c, tl, hct, hsp, hc⟩ := itemsText_head x more
      have htext : jsonText (.arr (x :: more)) ++ rest
          = openBracket :: (itemsText (x :: more) ++ closeBracket :: rest) := by
        simp [jsonText]
      rw [htext] at hf ⊢
      have hitems := ih (by simp) (by simpa [defined] using h) f rest
        (by simp only [List.length_cons] at hf; omega)
      rw [hct] at hitems ⊢
      rw [List.cons_append, parseValue_array f c _ hsp hc, ← List.cons_append, hitems]
      rfl
  | .obj o, h, fuel, rest, _, hf => by
    obtain ⟨f, rfl⟩ : ∃ f, fuel = f + 1 := ⟨fuel - 1, by omega⟩
    have ih := parseMembers_membersText o
    cases o with
    | nil => rfl
    | cons p more =>
      obtain ⟨tl, hct⟩ := membersText_head p more
      have htext : jsonText (.obj (p :: more)) ++ rest
          = openBrace :: (membersText (p :: more) ++ closeBrace :: rest) := by
        simp [jsonText]
      rw [htext] at hf ⊢
      have hmembers := ih (by simp) (by simpa [defined] using h) f rest
        (by simp only [List.length_cons] at hf; omega)
      rw [hct] at hmembers ⊢
      rw [List.cons_append, parseValue_object f _, ← List.cons_append, hmembers]
      rfl
theorem parseItems_itemsText : ∀ (xs : List Val), xs ≠ [] → definedItems xs = true →
    ∀ (fuel : Nat) (rest : List Char),
      2 * (itemsText xs ++ closeBracket :: rest).length + 2 ≤ fuel →
      parseItems fuel (itemsText xs ++ closeBracket :: rest) = some (xs, rest)
  | [], hne, _, _, _, _ => absurd rfl hne
  | x :: more, _, h, fuel, rest, hf => by
    obtain ⟨f, rfl⟩ : ∃ f, fuel = f + 1 := ⟨fuel - 1, by omega⟩
    simp only [definedItems, Bool.and_eq_true] at h
    have ihx := parseValue_jsonText x h.1 f
    have ihm := parseItems_itemsText more
    cases more with
    | nil =>
      have hv := ihx (closeBracket :: rest) rfl (by simp only [itemsText] at hf; omega)
      simp only [itemsText]
      exact parseItems_last f _ x rest hv
    | cons y more' =>
      have htext : itemsText (x :: y :: more') ++ closeBracket :: rest
          = jsonText x ++ commaChar :: (itemsText (y :: more') ++ closeBracket :: rest) := by
        simp [itemsText]
      rw [htext] at hf ⊢
      have hv := ihx (commaChar :: (itemsText (y :: more') ++ closeBracket :: rest)) rfl
        (by omega)
      rw [parseItems_more f _ x _ hv,
        ihm (by simp) h.2 f rest
          (by simp only [List.length_append, List.length_cons] at hf ⊢; omega)]
      rfl
theorem parseMembers_membersText : ∀ (o : List (String × Val)), o ≠ [] →
    definedProps o = true →
    ∀ (fuel : Nat) (rest : List Char),
      2 * (membersText o ++ closeBrace :: rest).length + 2 ≤ fuel →
      parseMembers fuel (membersText o ++ closeBrace :: rest) = some (o, rest)
  | [], hne, _, _, _, _ => absurd rfl hne
  | (k, v) :: more, _, h, fuel, rest, hf => by
    obtain ⟨f, rfl⟩ : ∃ f, fuel = f + 1 := ⟨fuel - 1, by omega⟩
    simp only [definedProps, Bool.and_eq_true] at h
    have ihv := parseValue_jsonText v h.1 f
    have ihm := parseMembers_membersText more
    cases more with
    | nil =>
      have htext : membersText [(k, v)] ++ closeBrace :: rest
          = quoteJSONString k ++ colonChar :: (jsonText v ++ closeBrace :: rest) := by
        simp [membersText]
      rw [htext] at hf ⊢
      have hv := ihv (closeBrace :: rest) rfl
        (by simp only [List.length_append, List.length_cons] at hf ⊢; omega)
      exact parseMembers_last f k _ v rest hv
    | cons q more' =>
      have htext : membersText ((k, v) :: q :: more') ++ closeBrace :: rest
          = quoteJSONString k ++ colonChar ::
              (jsonText v ++ commaChar :: (membersText (q :: more') ++ closeBrace :: rest)) := by
        simp [membersText]
      rw [htext] at hf ⊢
      have hv := ihv (commaChar :: (membersText (q :: more') ++ closeBrace :: rest)) rfl
        (by simp only [List.length_append, List.length_cons] at hf ⊢; omega)
      rw [parseMembers_more f k _ v _ hv,
        ihm (by simp) h.2 f rest
          (by simp only [List.length_append, List.length_cons] at hf ⊢; omega)]
      rfl
end

theorem parse_jsonText (w : Val) (h : defined w = true) :
    JSON.parse (String.mk (jsonText w)) = some w := by
  have hp := parseValue_jsonText w h (2 * (jsonText w).length + 1) [] rfl (by simp)
  rw [List.append_nil] at hp
  simp only [JSON.parse, String.length, String.toList, hp]
  rfl


/-! ## Lemmas on the value of the JSON round trip -/

theorem noRepeat_iff_nodup (l : List String) : noRepeat l = true ↔ l.Nodup := by
  induction l with
  | nil => simp [noRepeat]
  | cons k rest ih =>
    have hc : rest.contains k = false ↔ k ∉ rest := by
      rw [← Bool.not_eq_true]
      simp
    simp only [noRepeat, Bool.and_eq_true, Bool.not_eq_true', List.nodup_cons, ih, hc]

theorem mem_firstKeys (o : Obj) (k : String) : k ∈ firstKeys o ↔ hasProp o k = true := by
  induction o with
  | nil => simp [firstKeys, hasProp]
  | cons p o ih =>
    obtain ⟨k', v⟩ := p
    simp only [firstKeys, List.mem_cons, List.mem_filter, ih, bne_iff_ne, ne_eq, hasProp,
      Bool.or_eq_true, beq_iff_eq]
    constructor
    · rintro (h | h)
      · exact Or.inr h.symm
      · exact Or.inl h.1
    · rintro (h | h)
      · by_cases e : k = k'
        · exact Or.inl e
        · exact Or.inr ⟨h, e⟩
      · exact Or.inl h.symm

theorem firstKeys_nodup (o : Obj) : (firstKeys o).Nodup := by
  induction o with
  | nil => simp [firstKeys]
  | cons p o ih =>
    obtain ⟨k', v⟩ := p
    simp only [firstKeys, List.nodup_cons, List.mem_filter, bne_iff_ne, ne_eq, not_and,
      not_not]
    exact ⟨fun _ => trivial, ih.filter _⟩

theorem prop_mem (o : Obj) (k : String) (h : hasProp o k = true) : (k, prop o k) ∈ o := by
  induction o with
  | nil => simp [hasProp] at h
  | cons p o ih =>
    obtain ⟨k', v⟩ := p
    simp only [prop]
    by_cases hr : hasProp o k = true
    · simp only [hr, if_true]
      exact List.mem_cons_of_mem _ (ih hr)
    · simp only [hasProp, Bool.or_eq_true, beq_iff_eq] at h
      rcases h with h | h
      · exact absurd h hr
      · subst h
        simp [hr]

theorem mem_jsonObject (l : Obj) (p : String × Val) :
    p ∈ jsonObject l ↔ hasProp l p.1 = true ∧ p.2 = prop l p.1 ∧ prop l p.1 ≠ .undefined := by
  obtain ⟨k, v⟩ := p
  simp only [jsonObject, List.mem_filterMap, mem_firstKeys]
  constructor
  · rintro ⟨k', hk', hm⟩
    cases hv : prop l k' with
    | undefined => simp [hv] at hm
    | _ =>
      simp only [hv, Option.some.injEq, Prod.mk.injEq] at hm
      obtain ⟨rfl, rfl⟩ := hm
      exact ⟨hk', hv.symm, by simp [hv]⟩
  · rintro ⟨hk, hv, hne⟩
    refine ⟨k, hk, ?_⟩
    cases hp : prop l k with
    | undefined => exact absurd hp hne
    | _ => simp [hv, hp]

theorem jsonObject_keys (l : Obj) :
    (jsonObject l).map Prod.fst
      = (firstKeys l).filter fun k => match prop l k with
        | .undefined => false
        | _ => true := by
  simp only [jsonObject]
  induction firstKeys l with
  | nil => rfl
  | cons k ks ih =>
    simp only [List.filterMap_cons, List.filter_cons]
    cases hp : prop l k <;> simp [ih]

theorem jsonObject_noRepeat (l : Obj) : noRepeat ((jsonObject l).map Prod.fst) = true := by
  rw [noRepeat_iff_nodup, jsonObject_keys]
  exact (firstKeys_nodup l).filter _

theorem prop_jsonObject (l : Obj) (k : String) : prop (jsonObject l) k = prop l k := by
  by_cases hk : hasProp l k = true ∧ prop l k ≠ .undefined
  · have hm : (k, prop l k) ∈ jsonObject l := (mem_jsonObject l _).mpr ⟨hk.1, rfl, hk.2⟩
    exact prop_of_noRepeat _ (jsonObject_noRepeat l) _ hm
  · have hu : prop l k = .undefined := by
      by_cases h1 : hasProp l k = true
      · by_contra h2
        exact hk ⟨h1, h2⟩
      · exact prop_of_not_hasProp l k (by simpa using h1)
    rw [hu]
    apply prop_of_not_hasProp
    rw [← Bool.not_eq_true]
    intro hh
    have hm := prop_mem _ k hh
    rw [mem_jsonObject] at hm
    exact hm.2.2 hu

theorem hasProp_jsonObject (l : Obj) (k : String) :
    hasProp (jsonObject l) k = true ↔ hasProp l k = true ∧ prop l k ≠ .undefined := by
  constructor
  · intro h
    have hm := prop_mem _ k h
    rw [mem_jsonObject] at hm
    exact ⟨hm.1, hm.2.2⟩
  · intro h
    rw [hasProp_iff_mem]
    exact List.mem_map_of_mem Prod.fst ((mem_jsonObject l (k, prop l k)).mpr ⟨h.1, rfl, h.2⟩)

theorem jsonValue_eq_undefined (v : Val) : jsonValue v = .undefined ↔ v = .undefined := by
  cases v <;> simp [jsonValue]

theorem hasProp_jsonProps (o : Obj) (k : String) : hasProp (jsonProps o) k = hasProp o k := by
  induction o with
  | nil => rfl
  | cons p o ih =>
    obtain ⟨k', v⟩ := p
    simp only [jsonProps, hasProp, ih]

theorem prop_jsonProps (o : Obj) (k : String) : prop (jsonProps o) k = jsonValue (prop o k) := by
  induction o with
  | nil => rfl
  | cons p o ih =>
    obtain ⟨k', v⟩ := p
    simp only [jsonProps, prop, hasProp_jsonProps, ih]
    split
    · rfl
    · split <;> rfl

theorem definedProps_iff (o : Obj) :
    definedProps o = true ↔ ∀ p ∈ o, defined p.2 = true := by
  induction o with
  | nil => simp [definedProps]
  | cons p o ih =>
    obtain ⟨k, v⟩ := p
    simp [definedProps, ih]

theorem defined_ne_undefined (v : Val) (h : defined v = true) : v ≠ .undefined := by
  intro e
  rw [e] at h
  simp [defined] at h

mutual
theorem defined_jsonValue : ∀ (v : Val), v ≠ .undefined → defined (jsonValue v) = true
  | .undefined, h => absurd rfl h
  | .null, _ => rfl
  | .bool _, _ => rfl
  | .num _, _ => rfl
  | .str _, _ => rfl
  | .arr xs, _ => by
    simp only [jsonValue, defined]
    exact defined_jsonItems xs
  | .obj o, _ => by
    have ih := defined_jsonProps o
    simp only [jsonValue, defined]
    rw [definedProps_iff]
    intro p hp
    rw [mem_jsonObject] at hp
    obtain ⟨hk, hv, hne⟩ := hp
    rcases ih _ (prop_mem _ _ hk) with h | h
    · exact absurd h hne
    · rw [hv]
      exact h
theorem defined_jsonItems : ∀ (xs : List Val), definedItems (jsonItems xs) = true
  | [] => rfl
  | x :: rest => by
    have ihx := defined_jsonValue x
    have ihr := defined_jsonItems rest
    simp only [jsonItems, definedItems, Bool.and_eq_true]
    refine ⟨?_, ihr⟩
    by_cases hx : x = .undefined
    · subst hx; rfl
    · have hd := ihx hx
      have hne : jsonValue x ≠ .undefined := fun e => hx ((jsonValue_eq_undefined x).mp e)
      cases hj : jsonValue x with
      | undefined => exact absurd hj hne
      | _ => rw [hj] at hd; exact hd
theorem defined_jsonProps : ∀ (o : List (String × Val)),
    ∀ p ∈ jsonProps o, p.2 = .undefined ∨ defined p.2 = true
  | [] => by simp [jsonProps]
  | (k, v) :: rest => by
    have ihv := defined_jsonValue v
    have ihr := defined_jsonProps rest
    intro p hp
    simp only [jsonProps, List.mem_cons] at hp
    rcases hp with rfl | hp
    · by_cases hv : v = .undefined
      · subst hv; exact Or.inl rfl
      · exact Or.inr (ihv hv)
    · exact ihr p hp
end

mutual
theorem sameValue_jsonValue : ∀ (v : Val), defined v = true → SameValue (jsonValue v) v
  | .undefined, _ => SameValue.same _
  | .null, _ => SameValue.same _
  | .bool _, _ => SameValue.same _
  | .num _, _ => SameValue.same _
  | .str _, _ => SameValue.same _
  | .arr xs, h => by
    simp only [defined] at h
    simp only [jsonValue]
    exact sameValue_jsonItems xs h
  | .obj o, h => by
    have ih := sameValue_jsonProps o
    simp only [defined] at h
    simp only [jsonValue]
    have hvals : ∀ k, hasProp o k = true → prop (jsonProps o) k ≠ .undefined := by
      intro k hk e
      rw [prop_jsonProps, jsonValue_eq_undefined] at e
      have hm := prop_mem o k hk
      have := (definedProps_iff o).mp h _ hm
      exact defined_ne_undefined _ this e
    apply SameValue.props
    · intro k
      rw [Bool.eq_iff_iff, hasProp_jsonObject, hasProp_jsonProps]
      constructor
      · exact fun hh => hh.1
      · exact fun hh => ⟨hh, hvals k hh⟩
    · intro k
      rw [prop_jsonObject, prop_jsonProps]
      by_cases hk : hasProp o k = true
      · exact ih h _ (prop_mem o k hk)
      · rw [prop_of_not_hasProp o k (by simpa using hk)]
        exact SameValue.same _
theorem sameValue_jsonItems : ∀ (xs : List Val), definedItems xs = true →
    SameValue (.arr (jsonItems xs)) (.arr xs)
  | [], _ => SameValue.same _
  | x :: rest, h => by
    simp only [definedItems, Bool.and_eq_true] at h
    have ihx := sameValue_jsonValue x h.1
    have ihr := sameValue_jsonItems rest h.2
    simp only [jsonItems]
    have hne : jsonValue x ≠ .undefined := fun e =>
      defined_ne_undefined x h.1 ((jsonValue_eq_undefined x).mp e)
    have hu : undefinedToNull (jsonValue x) = jsonValue x := by
      cases hj : jsonValue x with
      | undefined => exact absurd hj hne
      | _ => rfl
    rw [hu]
    exact SameValue.items _ _ _ _ ihx ihr
theorem sameValue_jsonProps : ∀ (o : List (String × Val)), definedProps o = true →
    ∀ p ∈ o, SameValue (jsonValue p.2) p.2
  | [], _ => by simp
  | (k, v) :: rest, h => by
    simp only [definedProps, Bool.and_eq_true] at h
    have ihv := sameValue_jsonValue v h.1
    have ihr := sameValue_jsonProps rest h.2
    intro p hp
    rw [List.mem_cons] at hp
    rcases hp with rfl | hp
    · exact ihv
    · exact ihr p hp
end

theorem sameValue_text {v : Val} {s : String} (h : SameValue v (.str s)) : v = .str s := by
  cases h
  rfl

theorem sameValue_length {xs ys : List Val} (h : SameValue (.arr xs) (.arr ys)) :
    xs.length = ys.length := by
  induction xs generalizing ys with
  | nil =>
    cases h
    rfl
  | cons x xs ih =>
    cases h with
    | same => rfl
    | items _ y _ ys' _ hrest =>
      simp only [List.length_cons]
      rw [ih hrest]

theorem sameValue_prop {a b : Obj} (h : SameValue (.obj a) (.obj b)) (k : String) :
    hasProp a k = hasProp b k ∧ SameValue (prop a k) (prop b k) := by
  cases h with
  | same => exact ⟨rfl, SameValue.same _⟩
  | props _ _ hk hv => exact ⟨hk k, hv k⟩

theorem jsonText_ne_nil (w : Val) : jsonText w ≠ [] := by
  obtain ⟨c, tl, h, -⟩ := jsonText_head w
  rw [h]
  simp

theorem parse_stringify (c : Val) (hc : c ≠ .undefined) :
    ∃ text, JSON.stringify c = some text ∧ text ≠ "" ∧ JSON.parse text = some (jsonValue c) := by
  refine ⟨String.mk (jsonText (jsonValue c)), ?_, ?_, ?_⟩
  · cases c with
    | undefined => exact absurd rfl hc
    | _ => rfl
  · intro e
    have := congrArg String.data e
    exact jsonText_ne_nil _ this
  · exact parse_jsonText _ (defined_jsonValue c hc)

theorem getFromLocalStorage_saved (stringify : Val → Option String)
    (parse : String → Option Val) (st : Storage) (userId name text : String) (c : Val)
    (hs : stringify c = some text) (hne : text ≠ "") :
    getFromLocalStorage parse userId name (saveToLocalStorage stringify userId name c st)
      = parse text := by
  simp [getFromLocalStorage, saveToLocalStorage, setItem, hs, hne]

/-! ## C25: the persistence round trip -/

/-- Claim C25: for every storage state, user id, collection name among leads,
meetings and activities and collection c, a load performed after a save under
the same user id and name returns the value of the JSON round trip of c; that
value is structurally equal to c whenever undefined occurs nowhere in c; the
empty collection is read back as the empty collection; a later save for
another user or another collection does not change the result. -/
theorem persistence_round_trip (st : Storage) (userId name : String) (items : List Val)
    (hname : name ∈ collectionNames) :
    getFromLocalStorage JSON.parse userId name
        (saveToLocalStorage JSON.stringify userId name (.arr items) st)
      = some (jsonValue (.arr items)) ∧
    (definedItems items = true → SameValue (jsonValue (.arr items)) (.arr items)) ∧
    (items = [] →
      getFromLocalStorage JSON.parse userId name
        (saveToLocalStorage JSON.stringify userId name (.arr items) st) = some (.arr [])) ∧
    ∀ (u2 n2 : String) (c2 : Val), n2 ∈ collectionNames → (u2 ≠ userId ∨ n2 ≠ name) →
      getFromLocalStorage JSON.parse userId name
          (saveToLocalStorage JSON.stringify u2 n2 c2
            (saveToLocalStorage JSON.stringify userId name (.arr items) st))
        = some (jsonValue (.arr items)) := by
  obtain ⟨text, hs, hne, hp⟩ := parse_stringify (.arr items) (by simp)
  have hload := getFromLocalStorage_saved JSON.stringify JSON.parse st userId name text
    (.arr items) hs hne
  rw [hp] at hload
  refine ⟨hload, ?_, ?_, ?_⟩
  · intro hd
    exact sameValue_jsonValue (.arr items) (by simpa [defined] using hd)
  · intro he
    rw [hload, he]
    rfl
  · intro u2 n2 c2 hn2 hdiff
    rw [← hload]
    apply getFromLocalStorage_setItem_ne
    intro hk
    obtain ⟨hu, hn⟩ := getLocalStorageKey_injective userId u2 name n2
      (collectionNames_no_sep name hname) (collectionNames_no_sep n2 hn2) hk
    rcases hdiff with hd | hd
    · exact hd hu.symm
    · exact hd hn.symm

/-- Witness of C25: the leads of the user u_1 after Jane Doe was added, dragged
to the column qualified and given a note. The lead defines its stage twice and
its notes twice; the value read back defines each once. -/
theorem persistence_round_trip_witness :
    "leads" ∈ collectionNames ∧ definedItems savedLeads = true ∧
    getFromLocalStorage JSON.parse "u_1" "leads"
        (saveToLocalStorage JSON.stringify "u_1" "leads" (.arr savedLeads) emptyStorage)
      = some (.arr [.obj [("id", .str "1000"), ("name", .str "Jane Doe"),
          ("email", .str "jane@x.com"), ("stage", .str "qualified"),
          ("createdAt", .str tickA.iso),
          ("notes", .arr [.obj [("id", .str "2000"), ("text", .str "Call back"),
            ("timestamp", .str tickB.iso)]]),
          ("reminders", .arr [])]]) ∧
    SameValue (jsonValue (.arr savedLeads)) (.arr savedLeads) ∧
    getFromLocalStorage JSON.parse "u_1" "leads"
        (saveToLocalStorage JSON.stringify "u_2" "leads" (.arr [])
          (saveToLocalStorage JSON.stringify "u_1" "leads" (.arr savedLeads) emptyStorage))
      = some (jsonValue (.arr savedLeads)) :=
  have h := persistence_round_trip emptyStorage "u_1" "leads" savedLeads (by decide)
  ⟨by decide, rfl, h.1, h.2.1 rfl,
    h.2.2.2 "u_2" "leads" (.arr []) (by decide) (Or.inl (by decide))⟩

end CRM
